import Mathlib

/-!
# Boggle word-search engine (boggle.cpp)

A shallow embedding of the board model, the adjacency function and the two
recursive searches of `boggle.cpp` (`isLegal` / `canBeFormed` for a human
guess, `computerTurn` / `compCanBeFormed` for the computer player), followed
by theorems about them.

Modelling conventions.

* A C++ `string` is a `List Char`; `input[0]` of an empty string is the NUL
  character and `input.substr(1)` of an empty string throws.
* `Grid<Cube>` is a row-major list of cubes with its two dimensions.  An index
  outside the grid is a run-time error of the Grid class; every function that
  indexes the grid therefore returns an `Option`, `none` being the error.
* Rows and columns are natural numbers (they are loop counters that start at 0
  in the source).
* The searches mutate `g.board` in place; here the game is passed in and the
  updated game is returned.
* A `foreach (Cube c in g.board)` visits copies of the cubes in row-major
  order; the loops below run over the list of cubes read when the loop starts
  (only the flags change while they run, and the loops do not read `c.flag`).
* `canBeFormed` recurses on a shorter string and is a total function.  The
  recursion of `compCanBeFormed` is not structural, so it takes a bound on its
  depth; `computerTurn_returns` shows that a bound above the number of cubes
  is always enough on a board of the data model.
* Calls into the graphics library (`highlightCube`, `pause`, `labelCube`)
  have no effect on the game state and are left out;
  `recordWordForPlayer` is kept as a log of the recorded words.
-/

namespace Boggle

/-- A C++ string. -/
abbrev Word := List Char

/-- The eight directions, in the order of the source's enum. -/
inductive Direction where
  | Northwest | North | Northeast | East | Southeast | South | Southwest | West
deriving DecidableEq, Repr

/-- The range of the loop `for(dir = Northwest; dir <= West; dir = Direction(dir+1))`. -/
def allDirections : List Direction :=
  [.Northwest, .North, .Northeast, .East, .Southeast, .South, .Southwest, .West]

/-- The source's `struct Cube`. -/
structure Cube where
  flag : Bool
  letter : Char
  row : Nat
  col : Nat
deriving DecidableEq, Repr

/-- Modelled from the spec: the library's `Grid<Cube>` (`grid.h` is not part of
the sources), the board of the data model: its dimensions and its cells in
row-major order, the order in which `foreach` visits them. -/
structure Grid where
  numRows : Nat
  numCols : Nat
  elems : List Cube
deriving DecidableEq, Repr

/-- Reading `grid[row][col]`; `none` is the Grid class's index error. -/
def Grid.get (b : Grid) (row col : Nat) : Option Cube :=
  if row < b.numRows ∧ col < b.numCols then b.elems[row * b.numCols + col]? else none

/-- The assignment `(grid[row][col]).flag = v`. -/
def Grid.setFlag (b : Grid) (row col : Nat) (v : Bool) : Option Grid :=
  match b.get row col with
  | some cu => some { b with elems := b.elems.set (row * b.numCols + col) { cu with flag := v } }
  | none => none

/-- The two queries of the library's `Lexicon` that the program uses on the
English word list.  The class and the word list are not part of the sources,
so both queries are parameters: any two functions. -/
structure Lexicon where
  contains : Word → Bool
  containsPrefix : Word → Bool

/-- The two players of the library's `gboggle.h`. -/
inductive Player where
  | HUMAN | COMPUTER
deriving DecidableEq, Repr

/-- Modelled from the spec: the library's `Lexicon` as the program uses it for
`alreadyPlayed` (filled with `add`, queried with `contains`; `lexicon.h` is
not part of the sources).  It is the spec's ClaimedWords, a set of word
strings: here the list of the words added so far, `add` putting a word in
front and `contains` being membership. -/
abbrev ClaimedWords := List Word

/-- The source's `struct Game`.  The extra field `recorded` is the list of the
calls to the library's `recordWordForPlayer`, latest first. -/
structure Game where
  board : Grid
  english : Lexicon
  alreadyPlayed : ClaimedWords
  recorded : List (Word × Player)

/-- The assignment `(g.board[row][col]).flag = v`. -/
def Game.setFlag (g : Game) (row col : Nat) (v : Bool) : Option Game :=
  match g.board.setFlag row col v with
  | some b => some { g with board := b }
  | none => none

/-- The source's `adjacentCube`: the cube one step in direction `dir`, or the
cube at `(row, col)` itself when that step would leave the grid.  (`maxRow`
is `numRows - 1`; on a grid without rows the first line already fails.) -/
def adjacentCube (g : Game) (dir : Direction) (row col : Nat) : Option Cube :=
  match g.board.get row col with
  | none => none
  | some c2 =>
    let maxRow := g.board.numRows - 1
    let maxCol := g.board.numCols - 1
    match dir with
    | .Northwest => if row ≠ 0 ∧ col ≠ 0 then g.board.get (row - 1) (col - 1) else some c2
    | .North => if row ≠ 0 then g.board.get (row - 1) col else some c2
    | .Northeast => if row ≠ 0 ∧ col ≠ maxCol then g.board.get (row - 1) (col + 1) else some c2
    | .East => if col ≠ maxCol then g.board.get row (col + 1) else some c2
    | .Southeast => if row ≠ maxRow ∧ col ≠ maxCol then g.board.get (row + 1) (col + 1) else some c2
    | .South => if row ≠ maxRow then g.board.get (row + 1) col else some c2
    | .Southwest => if row ≠ maxRow ∧ col ≠ 0 then g.board.get (row + 1) (col - 1) else some c2
    | .West => if col ≠ 0 then g.board.get row (col - 1) else some c2

/-- The direction loop of `canBeFormed`, for the directions still to try;
`next` is the recursive call on the rest of the word.  The result `true`
is the early `return true` (the caller clears the flag of `c`), `false` is
the loop running to its end. -/
def canBeFormedLoop (next : Game → Cube → Option (Bool × Game)) (c : Cube) :
    List Direction → Game → Option (Bool × Game)
  | [], g => some (false, g)
  | dir :: rest, g =>
    match adjacentCube g dir c.row c.col with
    | none => none
    | some nextCube =>
      if nextCube.flag then canBeFormedLoop next c rest g
      else
        match next g nextCube with
        | none => none
        | some (true, g1) => some (true, g1)
        | some (false, g1) => canBeFormedLoop next c rest g1

/-- The source's `canBeFormed`.  For the empty string `input[0]` is NUL, and
`input.substr(1)` throws after the flag has been set. -/
def canBeFormed (g : Game) (c : Cube) : Word → Option (Bool × Game)
  | [] =>
    if Char.ofNat 0 ≠ c.letter then some (false, g)
    else none
  | ch :: str =>
    if ch ≠ c.letter then some (false, g)
    else
      match g.setFlag c.row c.col true with
      | none => none
      | some g1 =>
        if str.length = 0 then
          match g1.setFlag c.row c.col false with
          | none => none
          | some g2 => some (true, g2)
        else
          match canBeFormedLoop (fun g0 n => canBeFormed g0 n str) c allDirections g1 with
          | none => none
          | some (r, g2) =>
            match g2.setFlag c.row c.col false with
            | none => none
            | some g3 => some (r, g3)

/-- The loop `foreach(Cube c in g.board)` of `isLegal` over the cubes still
to visit. -/
def isLegalLoop (input : Word) : List Cube → Game → Option (Bool × Game)
  | [], g => some (false, g)
  | c :: cs, g =>
    match canBeFormed g c input with
    | none => none
    | some (true, g1) => some (true, g1)
    | some (false, g1) => isLegalLoop input cs g1

/-- The source's `isLegal`. -/
def isLegal (g : Game) (input : Word) : Option (Bool × Game) :=
  let pfx := input.take 2
  if g.english.containsPrefix pfx then isLegalLoop input g.board.elems g
  else some (false, g)

/-- The call `(g.alreadyPlayed).contains(word)`. -/
def Game.played (g : Game) (word : Word) : Bool :=
  decide (word ∈ g.alreadyPlayed)

/-- The two calls `(g.alreadyPlayed).add(word); recordWordForPlayer(word, player);`. -/
def Game.record (g : Game) (word : Word) (player : Player) : Game :=
  { g with alreadyPlayed := word :: g.alreadyPlayed, recorded := (word, player) :: g.recorded }

/-- The source's `compLegalWord`. -/
def compLegalWord (g : Game) (word : Word) : Bool :=
  decide (word.length ≥ 4) && g.english.contains word && !g.played word

/-- The source's `inSameLocation`. -/
def inSameLocation (c1 c2 : Cube) : Bool :=
  decide (c1.row = c2.row) && decide (c1.col = c2.col)

/-- The direction loop of `compCanBeFormed`, for the directions still to try;
`next` is the recursive call.  Inside the loop `word` is set to `str` for the
recursive call and cut back by one character after it, so every iteration
starts from the same `word`.  After the recursive call the source clears the
flag at `(c.row, c.col)`. -/
def compCanBeFormedLoop (next : Game → Cube → Word → Option Game) (c : Cube) (word : Word) :
    List Direction → Game → Option Game
  | [], g => some g
  | dir :: rest, g =>
    match adjacentCube g dir c.row c.col with
    | none => none
    | some nextCube =>
      let str := word ++ [nextCube.letter]
      if !nextCube.flag && g.english.containsPrefix str && !g.played str
          && !inSameLocation nextCube c then
        match g.setFlag nextCube.row nextCube.col true with
        | none => none
        | some g1 =>
          match next g1 nextCube str with
          | none => none
          | some g2 =>
            match g2.setFlag c.row c.col false with
            | none => none
            | some g3 => compCanBeFormedLoop next c word rest g3
      else compCanBeFormedLoop next c word rest g

/-- The source's `compCanBeFormed`.  The first argument bounds the depth of
the recursion: `none` is returned when it is used up (and for an index
error). -/
def compCanBeFormed : Nat → Game → Cube → Player → Word → Option Game
  | 0, _, _, _, _ => none
  | fuel + 1, g, c, player, word =>
    let g1 := if compLegalWord g word then g.record word player else g
    compCanBeFormedLoop (fun g0 n w => compCanBeFormed fuel g0 n player w) c word allDirections g1

/-- The loop `foreach(Cube c in g.board)` of `computerTurn` over the cubes
still to visit. -/
def computerTurnLoop (fuel : Nat) : List Cube → Game → Option Game
  | [], g => some g
  | c :: cs, g =>
    match g.setFlag c.row c.col true with
    | none => none
    | some g1 =>
      match compCanBeFormed fuel g1 c Player.COMPUTER [c.letter] with
      | none => none
      | some g2 =>
        match g2.setFlag c.row c.col false with
        | none => none
        | some g3 => computerTurnLoop fuel cs g3

/-- The source's `computerTurn`; `fuel` bounds the recursion depth of each
`compCanBeFormed` call. -/
def computerTurn (fuel : Nat) (g : Game) : Option Game :=
  computerTurnLoop fuel g.board.elems g

/-- Modelled from the spec: the library's `toUpperCase` (`strlib.h` is not part
of the sources), the string with every character in upper case. -/
def toUpperCase (s : Word) : Word :=
  s.map Char.toUpper

/-- What one pass through the loop of `humanTurn` tells the player: one of
the four messages, or the word being recorded. -/
inductive Outcome where
  | TooShort | NotAWord | AlreadyClaimed | NotFormable | Accepted
deriving DecidableEq, Repr

/-- One pass through the loop of `humanTurn` for a non-empty line `input`.
The `foreach` that resets the highlights assigns to a copy of each cube and
leaves the board as it is. -/
def humanTurnStep (g : Game) (input : Word) : Option (Outcome × Game) :=
  let input := toUpperCase input
  if input.length < 4 then some (.TooShort, g)
  else if !g.english.contains input then some (.NotAWord, g)
  else if g.played input then some (.AlreadyClaimed, g)
  else
    match isLegal g input with
    | none => none
    | some (false, g1) => some (.NotFormable, g1)
    | some (true, g1) => some (.Accepted, g1.record input Player.HUMAN)

/-- The source's `humanTurn` on the lines the player types: the loop ends at
the first empty line (or when the input ends). -/
def humanTurn (g : Game) : List Word → Option Game
  | [] => some g
  | input :: rest =>
    if input = [] then some g
    else
      match humanTurnStep g input with
      | none => none
      | some (_, g1) => humanTurn g1 rest

/-! ## Specification vocabulary -/

/-- A board of the data model: the grid holds `numRows * numCols` cubes and
the cube stored at `(row, col)` records that row and column. -/
def Grid.WF (b : Grid) : Prop :=
  b.elems.length = b.numRows * b.numCols ∧
  ∀ r, r < b.numRows → ∀ c, c < b.numCols →
    (b.get r c).map (fun cu => (cu.row, cu.col)) = some (r, c)

instance Grid.decidableWF (b : Grid) : Decidable b.WF := by
  unfold Grid.WF; infer_instance

/-- Every cube's flag is false. -/
def Grid.AllClear (b : Grid) : Prop :=
  ∀ cu ∈ b.elems, cu.flag = false

instance Grid.decidableAllClear (b : Grid) : Decidable b.AllClear := by
  unfold Grid.AllClear; infer_instance

/-- Two grid positions are neighbours in the 8-neighbour sense: they differ,
and are at most one row and at most one column apart. -/
def Adjacent (p q : Nat × Nat) : Prop :=
  p ≠ q ∧ p.1 ≤ q.1 + 1 ∧ q.1 ≤ p.1 + 1 ∧ p.2 ≤ q.2 + 1 ∧ q.2 ≤ p.2 + 1

instance Adjacent.decidable (p q : Nat × Nat) : Decidable (Adjacent p q) := by
  unfold Adjacent; infer_instance

/-- The letter on the cube at a position, if the position is on the board. -/
def Grid.letterAt (b : Grid) (p : Nat × Nat) : Option Char :=
  (b.get p.1 p.2).map Cube.letter

/-- The flag of the cube at a position, if the position is on the board. -/
def Grid.flagAt (b : Grid) (p : Nat × Nat) : Option Bool :=
  (b.get p.1 p.2).map Cube.flag

/-- The positions `ps` are a simple path of the board that spells `w`: they
are pairwise distinct, each is a neighbour of the one before it, all are on
the board, and their letters in order are the characters of `w`. -/
def SpellsPath (b : Grid) (ps : List (Nat × Nat)) (w : Word) : Prop :=
  ps.Nodup ∧ ps.Chain' Adjacent ∧ ps.map b.letterAt = w.map some

/-- The word can be traced on the board. -/
def Traceable (b : Grid) (w : Word) : Prop :=
  ∃ ps, SpellsPath b ps w

/-- The game `g1` is `g` with some flags cleared: nothing but the board
differs, the board has the same dimensions, and each cube is either
the same or the same cube with its flag set to false. -/
def FlagsCleared (g g1 : Game) : Prop :=
  g1.english = g.english ∧ g1.alreadyPlayed = g.alreadyPlayed ∧ g1.recorded = g.recorded ∧
  g1.board.numRows = g.board.numRows ∧ g1.board.numCols = g.board.numCols ∧
  ∀ i : Nat, g1.board.elems[i]? = g.board.elems[i]? ∨
    ∃ cu : Cube, g.board.elems[i]? = some cu ∧ g1.board.elems[i]? = some { cu with flag := false }

/-- Deciding, by going along the list, whether each position is a neighbour
of the one before it. -/
def Adjacent.decidableChain :
    ∀ (p : Nat × Nat) (ps : List (Nat × Nat)), Decidable (List.Chain Adjacent p ps)
  | _, [] => isTrue List.Chain.nil
  | p, q :: ps =>
    match Adjacent.decidable p q, Adjacent.decidableChain q ps with
    | isTrue h1, isTrue h2 => isTrue (List.Chain.cons h1 h2)
    | isFalse h1, _ => isFalse (fun h => h1 (List.chain_cons.1 h).1)
    | _, isFalse h2 => isFalse (fun h => h2 (List.chain_cons.1 h).2)

instance Adjacent.decidableSteps : ∀ ps : List (Nat × Nat), Decidable (ps.Chain' Adjacent)
  | [] => isTrue trivial
  | p :: ps => Adjacent.decidableChain p ps

instance SpellsPath.decidable (b : Grid) (ps : List (Nat × Nat)) (w : Word) :
    Decidable (SpellsPath b ps w) := by
  unfold SpellsPath; infer_instance

/-- Between the games `g` and `g1` the words `new` (latest first) were
recorded for `player`, and nothing else happened to the word lists: each of
the words has at least four letters, is a word of the word list and was not
among the words played in `g`, and no word was recorded twice. -/
def Recorded (player : Player) (g g1 : Game) (new : List Word) : Prop :=
  g1.english = g.english ∧
  g1.recorded = new.map (fun w => (w, player)) ++ g.recorded ∧
  g1.alreadyPlayed = new ++ g.alreadyPlayed ∧
  new.Nodup ∧
  ∀ w ∈ new, 4 ≤ w.length ∧ g.english.contains w = true ∧ w ∉ g.alreadyPlayed

/-- The positions of the cubes whose flag is true, in row-major order. -/
def Game.flagged (g : Game) : List (Nat × Nat) :=
  (g.board.elems.filter Cube.flag).map (fun cu => (cu.row, cu.col))

/-- The number of cubes whose flag is false. -/
def Game.unflagged (g : Game) : Nat :=
  g.board.elems.countP (fun cu => !cu.flag)

/-! ## Boards and word lists of the examples -/

/-- The 2 x 2 board `A B / C D`, no flag set. -/
def boardABCD : Grid :=
  ⟨2, 2, [⟨false, 'A', 0, 0⟩, ⟨false, 'B', 0, 1⟩, ⟨false, 'C', 1, 0⟩, ⟨false, 'D', 1, 1⟩]⟩

/-- A word list that reports every string as a word and as the beginning of a word. -/
def everyWord : Lexicon :=
  ⟨fun _ => true, fun _ => true⟩

/-- A word list without words. -/
def noWord : Lexicon :=
  ⟨fun _ => false, fun _ => false⟩

/-- The word list made of the given words: `contains` is membership,
`containsPrefix` holds of the beginnings of the words. -/
def lexiconOf (ws : List Word) : Lexicon :=
  ⟨fun w => decide (w ∈ ws), fun w => ws.any (fun s => w.isPrefixOf s)⟩

/-- A round on the board `A B / C D` with every string a word, nothing played yet. -/
def gameABCD : Game :=
  ⟨boardABCD, everyWord, [], []⟩

/-- The board with the given letters in row-major order, each cube recording
its own row and column, no flag set. -/
def Grid.ofLetters (numRows numCols : Nat) (letters : Word) : Grid :=
  ⟨numRows, numCols,
    (List.range (numRows * numCols)).map
      (fun i => ⟨false, letters.getD i 'X', i / numCols, i % numCols⟩)⟩

/-- The 4 x 4 board `STXX / OPXX / XXXX / XXXX`, no flag set. -/
def boardSTOP : Grid :=
  Grid.ofLetters 4 4 "STXXOPXXXXXXXXXX".data

/-- A round on the board `boardSTOP` with the word list STOP, SPOT, nothing
played yet. -/
def gameSTOP : Game :=
  ⟨boardSTOP, lexiconOf ["STOP".data, "SPOT".data], [], []⟩

/-- A round on the board `boardSTOP` with the word list STOP, POTS, nothing
played yet. -/
def gamePOTS : Game :=
  ⟨boardSTOP, lexiconOf ["STOP".data, "POTS".data], [], []⟩

/-- The round `gamePOTS` once `computerTurn` has set the flag of the first cube. -/
def gamePOTSstart : Game :=
  ⟨{ boardSTOP with elems := boardSTOP.elems.set 0 ⟨true, 'S', 0, 0⟩ },
    lexiconOf ["STOP".data, "POTS".data], [], []⟩

/-- The 4 x 4 board `TSXX / EAXX / XXXX / XXXX`, no flag set. -/
def boardTSEA : Grid :=
  Grid.ofLetters 4 4 "TSXXEAXXXXXXXXXX".data

/-- A round on the board `boardTSEA` with the word list TEST, TSAR, nothing
played yet. -/
def gameTSEA : Game :=
  ⟨boardTSEA, lexiconOf ["TEST".data, "TSAR".data], [], []⟩

/-- The row and column offsets of the eight directions: Northwest (-1,-1),
North (-1,0), Northeast (-1,+1), East (0,+1), Southeast (+1,+1), South (+1,0),
Southwest (+1,-1), West (0,-1). -/
def Direction.offset : Direction → Int × Int
  | .Northwest => (-1, -1)
  | .North => (-1, 0)
  | .Northeast => (-1, 1)
  | .East => (0, 1)
  | .Southeast => (1, 1)
  | .South => (1, 0)
  | .Southwest => (1, -1)
  | .West => (0, -1)

/-- The position `(r, c)` is inside the grid. -/
def Grid.inside (b : Grid) (r c : Int) : Prop :=
  0 ≤ r ∧ r < b.numRows ∧ 0 ≤ c ∧ c < b.numCols

/-- A stand-in for the recursive call of `compCanBeFormed` that fails whenever
it is called: a run of the direction loop with it returns a game exactly when
the loop makes no recursive call. -/
def noRecursion : Game → Cube → Word → Option Game :=
  fun _ _ _ => none

/-- The 4 x 4 board `STXX / OPSX / XXXX / XXXX`, no flag set. -/
def boardSTOPS : Grid :=
  Grid.ofLetters 4 4 "STXXOPSXXXXXXXXX".data

/-- A round on the board `boardSTOPS` with the word list STOP, STOPS, nothing
played yet. -/
def gameSTOPSfresh : Game :=
  ⟨boardSTOPS, lexiconOf ["STOP".data, "STOPS".data], [], []⟩

/-- The round on the board `boardSTOPS` with the word list STOP, STOPS once
the human has played STOP. -/
def gameSTOPSclaimed : Game :=
  ⟨boardSTOPS, lexiconOf ["STOP".data, "STOPS".data], ["STOP".data],
    [("STOP".data, Player.HUMAN)]⟩

/-- The state of the computer's search in the round `gameSTOPSclaimed` when it
has gone from S (0,0) over T (0,1) to O (1,0): the cubes S (0,0), T (0,1) and
O (1,0) of the current path are flagged. -/
def gameSTOPS : Game :=
  ⟨{ boardSTOPS with elems := ((boardSTOPS.elems.set 0 ⟨true, 'S', 0, 0⟩).set 1
      ⟨true, 'T', 0, 1⟩).set 4 ⟨true, 'O', 1, 0⟩ },
    lexiconOf ["STOP".data, "STOPS".data], ["STOP".data], [("STOP".data, Player.HUMAN)]⟩

/-- The words recorded for a player, latest first. -/
def Game.wordsOf (g : Game) (player : Player) : List Word :=
  (g.recorded.filter (fun x => decide (x.2 = player))).map Prod.fst

/-- The words of the record are the played words, and no word is among them
twice. -/
def Tally (g : Game) : Prop :=
  g.recorded.map Prod.fst = g.alreadyPlayed ∧ g.alreadyPlayed.Nodup

/-! ## Building the board -/

/-- The source's `kStandardNumOfCubes`. -/
def kStandardNumOfCubes : Nat := 16

/-- The source's `kBigBoggleNumOfCubes`. -/
def kBigBoggleNumOfCubes : Nat := 25

/-- The source's table `kStandardCubes`. -/
def kStandardCubes : List Word :=
  ["AAEEGN".data, "ABBJOO".data, "ACHOPS".data, "AFFKPS".data,
   "AOOTTW".data, "CIMOTU".data, "DEILRX".data, "DELRVY".data,
   "DISTTY".data, "EEGHNW".data, "EEINSU".data, "EHRTVW".data,
   "EIOSST".data, "ELRTTY".data, "HIMNQU".data, "HLNNRZ".data]

/-- The source's table `kBigBoggleCubes`. -/
def kBigBoggleCubes : List Word :=
  ["AAAFRS".data, "AAEEEE".data, "AAFIRS".data, "ADENNN".data, "AEEEEM".data,
   "AEEGMU".data, "AEGMNN".data, "AFIRSY".data, "BJKQXZ".data, "CCNSTW".data,
   "CEIILT".data, "CEILPT".data, "CEIPST".data, "DDLNOR".data, "DDHNOT".data,
   "DHHLOR".data, "DHLNOR".data, "EIIITT".data, "EMOTTT".data, "ENSSSU".data,
   "FIPRSY".data, "GORRVW".data, "HIPRRY".data, "NOOTUW".data, "OOOTTU".data]

/-- Modelled from the spec: the library's constructor `Grid<Cube>(numRows,
numCols)`.  The cells of the new grid hold `fresh`, whatever a cube holds
before anything is assigned to it. -/
def Grid.create (numRows numCols : Nat) (fresh : Cube) : Grid :=
  ⟨numRows, numCols, List.replicate (numRows * numCols) fresh⟩

/-- The assignment `grid[row][col] = cube`; `none` is the Grid class's index
error. -/
def Grid.assign (b : Grid) (row col : Nat) (cube : Cube) : Option Grid :=
  match b.get row col with
  | some _ => some { b with elems := b.elems.set (row * b.numCols + col) cube }
  | none => none

/-- The inner loop `for(int col = 0; col < numRowsCols; col++)` that
`customBoardConfig` and `shuffleCubes` both run, over the columns still to
visit.  The state is the grid being filled and the counter `numSide`;
`chooseLetter numSide` is the letter the loop body computes for the cube
number `numSide` (it is `none` when the body fails).  The body assigns
`{false, letter, row, col}` to `cubes[row][col]` and increments `numSide`. -/
def fillCols (chooseLetter : Nat → Option Char) (row : Nat) :
    List Nat → Grid × Nat → Option (Grid × Nat)
  | [], s => some s
  | col :: cols, (cubes, numSide) =>
    match chooseLetter numSide with
    | none => none
    | some letter =>
      match cubes.assign row col ⟨false, letter, row, col⟩ with
      | none => none
      | some cubes1 => fillCols chooseLetter row cols (cubes1, numSide + 1)

/-- The outer loop `for(int row = 0; row < numRowsCols; row++)` of
`customBoardConfig` and of `shuffleCubes`, over the rows still to visit. -/
def fillRows (chooseLetter : Nat → Option Char) (numRowsCols : Nat) :
    List Nat → Grid × Nat → Option (Grid × Nat)
  | [], s => some s
  | row :: rows, s =>
    match fillCols chooseLetter row (List.range numRowsCols) s with
    | none => none
    | some s1 => fillRows chooseLetter numRowsCols rows s1

/-- The loop `while(true)` of `customBoardConfig` on the lines the player
types: the first line with at least `numOfCubes` characters; `none` when the
player never types one (no board is built). -/
def readLetters (numOfCubes : Nat) : List Word → Option Word
  | [] => none
  | line :: lines =>
    if numOfCubes ≤ line.length then some line else readLetters numOfCubes lines

/-- The source's `customBoardConfig` on the lines the player types.
`numRowsCols` is `sqrt((double) numOfCubes)` converted to `int`, the integer
square root; `userInputLetters[numSide]` outside the string is `none`. -/
def customBoardConfig (fresh : Cube) (g : Game) (numOfCubes : Nat) (lines : List Word) :
    Option Game :=
  match readLetters numOfCubes lines with
  | none => none
  | some userInputLetters =>
    let numRowsCols := Nat.sqrt numOfCubes
    match fillRows (fun numSide => userInputLetters[numSide]?) numRowsCols
        (List.range numRowsCols) (Grid.create numRowsCols numRowsCols fresh, 0) with
    | none => none
    | some (cubes, _) => some { g with board := cubes }

/-- The first loop of `shuffleCubes`, which fills `vec` from the table that
goes with `numOfCubes` (from neither table for another number). -/
def initialVec (numOfCubes : Nat) : List Word :=
  (List.range numOfCubes).foldl
    (fun vec n =>
      let vec1 := if numOfCubes = kBigBoggleNumOfCubes then vec ++ [kBigBoggleCubes.getD n []]
        else vec
      if numOfCubes = kStandardNumOfCubes then vec1 ++ [kStandardCubes.getD n []] else vec1)
    []

/-- The call `swap(vec[i], vec[r])`; `none` is the Vector class's index error. -/
def swapAt (vec : List Word) (i r : Nat) : Option (List Word) :=
  match vec[i]?, vec[r]? with
  | some a, some b => some ((vec.set i b).set r a)
  | _, _ => none

/-- The second loop of `shuffleCubes`, over the indices still to visit.

Modelled from the spec: the library's `randomInteger` is the stream `rnd` of
the values it returns, `rnd k` being the value returned by its call number
`k` (counted from 0); the loop makes one call per index, so
`randomInteger(i, numOfCubes-1)` is `rnd i`. -/
def shuffleLoop (rnd : Nat → Nat) : List Nat → List Word → Option (List Word)
  | [], vec => some vec
  | i :: rest, vec =>
    match swapAt vec i (rnd i) with
    | none => none
    | some vec1 => shuffleLoop rnd rest vec1

/-- The vector `vec` of `shuffleCubes` after its first two loops: the cube
definitions in the order in which the third loop places them on the grid. -/
def shuffledVec (numOfCubes : Nat) (rnd : Nat → Nat) : Option (List Word) :=
  shuffleLoop rnd (List.range (initialVec numOfCubes).length) (initialVec numOfCubes)

/-- The source's `shuffleCubes`.  The third loop places `vec[numSide]` on the
cube number `numSide` and picks the letter `side[randomInteger(0,5)]`; the
shuffle before it has made `vec.size()` calls of `randomInteger`, so this call
is number `vec.size() + numSide`. -/
def shuffleCubes (fresh : Cube) (numOfCubes : Nat) (rnd : Nat → Nat) : Option Grid :=
  let numRowsCols := Nat.sqrt numOfCubes
  match shuffledVec numOfCubes rnd with
  | none => none
  | some vec =>
    match fillRows
        (fun numSide =>
          match vec[numSide]? with
          | none => none
          | some side => side[rnd (vec.length + numSide)]?)
        numRowsCols (List.range numRowsCols) (Grid.create numRowsCols numRowsCols fresh, 0) with
    | none => none
    | some (finalCubes, _) => some finalCubes

/-- The source's `autoBoardConfig`. -/
def autoBoardConfig (fresh : Cube) (g : Game) (numOfCubes : Nat) (rnd : Nat → Nat) :
    Option Game :=
  match shuffleCubes fresh numOfCubes rnd with
  | none => none
  | some cubes => some { g with board := cubes }

/-- The grid of `numRowsCols` rows and columns whose cube number `k`, in
row-major order, has the letter `letterOf k`, records its own row and column
and has its flag false. -/
def Grid.lettered (numRowsCols : Nat) (letterOf : Nat → Char) : Grid :=
  ⟨numRowsCols, numRowsCols,
    (List.range (numRowsCols * numRowsCols)).map
      (fun k => ⟨false, letterOf k, k / numRowsCols, k % numRowsCols⟩)⟩

/-! ## The searches with a trace

The same functions once more, keeping next to the game what the claims about
the course of a search speak of: for `compCanBeFormed` the words passed to
its calls, for `canBeFormed` the cubes that `highlightCubes` highlights. -/

/-- The direction loop of `compCanBeFormed` (`compCanBeFormedLoop`), keeping
next to the game the words passed to the calls of `compCanBeFormed` made so
far; `next` returns the game and the words of the calls made within the
recursive call. -/
def compCanBeFormedLoopCalls (next : Game → Cube → Word → Option (Game × List Word))
    (c : Cube) (word : Word) : List Direction → Game × List Word → Option (Game × List Word)
  | [], s => some s
  | dir :: rest, (g, calls) =>
    match adjacentCube g dir c.row c.col with
    | none => none
    | some nextCube =>
      let str := word ++ [nextCube.letter]
      if !nextCube.flag && g.english.containsPrefix str && !g.played str
          && !inSameLocation nextCube c then
        match g.setFlag nextCube.row nextCube.col true with
        | none => none
        | some g1 =>
          match next g1 nextCube str with
          | none => none
          | some (g2, calls2) =>
            match g2.setFlag c.row c.col false with
            | none => none
            | some g3 => compCanBeFormedLoopCalls next c word rest (g3, calls ++ calls2)
      else compCanBeFormedLoopCalls next c word rest (g, calls)

/-- The source's `compCanBeFormed` (as `compCanBeFormed` above), returning
next to the game the words passed to this call and to the calls made within
it, in the order of the calls. -/
def compCanBeFormedCalls : Nat → Game → Cube → Player → Word → Option (Game × List Word)
  | 0, _, _, _, _ => none
  | fuel + 1, g, c, player, word =>
    let g1 := if compLegalWord g word then g.record word player else g
    compCanBeFormedLoopCalls (fun g0 n w => compCanBeFormedCalls fuel g0 n player w) c word
      allDirections (g1, [word])

/-- The loop of `computerTurn` (`computerTurnLoop`), keeping the words passed
to the calls of `compCanBeFormed`. -/
def computerTurnLoopCalls (fuel : Nat) : List Cube → Game × List Word → Option (Game × List Word)
  | [], s => some s
  | c :: cs, (g, calls) =>
    match g.setFlag c.row c.col true with
    | none => none
    | some g1 =>
      match compCanBeFormedCalls fuel g1 c Player.COMPUTER [c.letter] with
      | none => none
      | some (g2, calls2) =>
        match g2.setFlag c.row c.col false with
        | none => none
        | some g3 => computerTurnLoopCalls fuel cs (g3, calls ++ calls2)

/-- The source's `computerTurn` (as `computerTurn` above), returning next to
the game the words passed to all the calls of `compCanBeFormed`. -/
def computerTurnCalls (fuel : Nat) (g : Game) : Option (Game × List Word) :=
  computerTurnLoopCalls fuel g.board.elems (g, [])

/-- The source's `highlightCubes`: the positions passed to the calls
`highlightCube(c.row, c.col, true)` it makes, in the order of the calls. -/
def highlightCubes (g : Game) : List (Nat × Nat) :=
  g.flagged

/-- The calls of `highlightCubes` made during a search, in order: each is the
list of the positions it highlights. -/
abbrev Highlights := List (List (Nat × Nat))

/-- The direction loop of `canBeFormed` (`canBeFormedLoop`), keeping next to
the game the calls of `highlightCubes` made so far; `next` returns its
answer, the game and the calls made within the recursive call. -/
def canBeFormedLoopH (next : Game → Cube → Option (Bool × Game × Highlights)) (c : Cube) :
    List Direction → Game × Highlights → Option (Bool × Game × Highlights)
  | [], (g, evs) => some (false, g, evs)
  | dir :: rest, (g, evs) =>
    match adjacentCube g dir c.row c.col with
    | none => none
    | some nextCube =>
      if nextCube.flag then canBeFormedLoopH next c rest (g, evs)
      else
        match next g nextCube with
        | none => none
        | some (true, g1, evs1) => some (true, g1, evs ++ evs1)
        | some (false, g1, evs1) => canBeFormedLoopH next c rest (g1, evs ++ evs1)

/-- The source's `canBeFormed` (as `canBeFormed` above), returning next to its
answer and the game the calls of `highlightCubes` made during the call.  The
call in the base case is made after the flag of `c` has been set and before
it is cleared; `clearAllHighlights` changes no flag. -/
def canBeFormedH (g : Game) (c : Cube) : Word → Option (Bool × Game × Highlights)
  | [] =>
    if Char.ofNat 0 ≠ c.letter then some (false, g, [])
    else none
  | ch :: str =>
    if ch ≠ c.letter then some (false, g, [])
    else
      match g.setFlag c.row c.col true with
      | none => none
      | some g1 =>
        if str.length = 0 then
          match g1.setFlag c.row c.col false with
          | none => none
          | some g2 => some (true, g2, [highlightCubes g1])
        else
          match canBeFormedLoopH (fun g0 n => canBeFormedH g0 n str) c allDirections (g1, []) with
          | none => none
          | some (r, g2, evs) =>
            match g2.setFlag c.row c.col false with
            | none => none
            | some g3 => some (r, g3, evs)

/-- The loop of `isLegal` (`isLegalLoop`), keeping the calls of
`highlightCubes`. -/
def isLegalLoopH (input : Word) : List Cube → Game × Highlights → Option (Bool × Game × Highlights)
  | [], (g, evs) => some (false, g, evs)
  | c :: cs, (g, evs) =>
    match canBeFormedH g c input with
    | none => none
    | some (true, g1, evs1) => some (true, g1, evs ++ evs1)
    | some (false, g1, evs1) => isLegalLoopH input cs (g1, evs ++ evs1)

/-- The source's `isLegal` (as `isLegal` above), returning next to its answer
and the game the calls of `highlightCubes` made during the call. -/
def isLegalH (g : Game) (input : Word) : Option (Bool × Game × Highlights) :=
  let pfx := input.take 2
  if g.english.containsPrefix pfx then isLegalLoopH input g.board.elems (g, [])
  else some (false, g, [])

/-! ## The grid -/

theorem Grid.get_eq_some {b : Grid} {r c : Nat} {cu : Cube} :
    b.get r c = some cu ↔
      r < b.numRows ∧ c < b.numCols ∧ b.elems[r * b.numCols + c]? = some cu := by
  unfold Grid.get
  split
  · rename_i h
    simp [h.1, h.2]
  · rename_i h
    constructor
    · intro h1; cases h1
    · rintro ⟨h1, h2, _⟩; exact absurd ⟨h1, h2⟩ h

theorem Grid.WF.pos_of_get {b : Grid} (hwf : b.WF) {r c : Nat} {cu : Cube}
    (h : b.get r c = some cu) : cu.row = r ∧ cu.col = c := by
  have hr := (Grid.get_eq_some.1 h).1
  have hc := (Grid.get_eq_some.1 h).2.1
  have := hwf.2 r hr c hc
  rw [h] at this
  simpa using this

theorem Grid.WF.get_isSome {b : Grid} (hwf : b.WF) {r c : Nat}
    (hr : r < b.numRows) (hc : c < b.numCols) : ∃ cu, b.get r c = some cu := by
  have := hwf.2 r hr c hc
  cases h : b.get r c with
  | none => rw [h] at this; cases this
  | some cu => exact ⟨cu, rfl⟩

theorem Grid.WF.get_of_mem {b : Grid} (hwf : b.WF) {cu : Cube} (h : cu ∈ b.elems) :
    b.get cu.row cu.col = some cu := by
  obtain ⟨i, hi, rfl⟩ := List.getElem_of_mem h
  have hlen := hwf.1
  have hC : 0 < b.numCols := by
    rcases Nat.eq_zero_or_pos b.numCols with h0 | h0
    · rw [h0] at hlen; simp at hlen; rw [hlen] at hi; cases hi
    · exact h0
  have hmod : i % b.numCols < b.numCols := Nat.mod_lt _ hC
  have hdiv : i / b.numCols < b.numRows := by
    rw [Nat.div_lt_iff_lt_mul hC]; rw [← hlen]; exact hi
  have hidx : i / b.numCols * b.numCols + i % b.numCols = i := Nat.div_add_mod' i b.numCols
  have hget : b.get (i / b.numCols) (i % b.numCols) = some (b.elems[i]) := by
    rw [Grid.get_eq_some]
    refine ⟨hdiv, hmod, ?_⟩
    rw [hidx]
    exact List.getElem?_eq_getElem hi
  have hp := hwf.pos_of_get hget
  rw [hp.1, hp.2]
  exact hget

theorem Grid.mem_of_get {b : Grid} {r c : Nat} {cu : Cube} (h : b.get r c = some cu) :
    cu ∈ b.elems :=
  List.getElem?_mem (Grid.get_eq_some.1 h).2.2

/-- Two positions of a well-formed board that hold a cube of the same index
are the same position. -/
theorem Grid.WF.idx_inj {b : Grid} (hwf : b.WF) {r c r1 c1 : Nat}
    (hr : r < b.numRows) (hc : c < b.numCols) (hr1 : r1 < b.numRows) (hc1 : c1 < b.numCols)
    (h : r * b.numCols + c = r1 * b.numCols + c1) : r = r1 ∧ c = c1 := by
  obtain ⟨cu, hcu⟩ := hwf.get_isSome hr hc
  have h1 : b.get r1 c1 = some cu := by
    rw [Grid.get_eq_some] at hcu ⊢
    exact ⟨hr1, hc1, h ▸ hcu.2.2⟩
  have p := hwf.pos_of_get hcu
  have p1 := hwf.pos_of_get h1
  exact ⟨p.1.symm.trans p1.1, p.2.symm.trans p1.2⟩

/-! ## Setting a flag -/

theorem Game.setFlag_eq_some {g g1 : Game} {r c : Nat} {v : Bool} :
    g.setFlag r c v = some g1 ↔
      ∃ cu, g.board.get r c = some cu ∧
        g1 = { g with board := { g.board with
                elems := g.board.elems.set (r * g.board.numCols + c) { cu with flag := v } } } := by
  unfold Game.setFlag Grid.setFlag
  cases h : g.board.get r c with
  | none => simp
  | some cu =>
    simp only [Option.some.injEq, exists_eq_left']
    exact eq_comm

theorem Game.setFlag_isSome {g : Game} {r c : Nat} {cu : Cube} (v : Bool)
    (h : g.board.get r c = some cu) : ∃ g1, g.setFlag r c v = some g1 :=
  ⟨_, Game.setFlag_eq_some.2 ⟨cu, h, rfl⟩⟩

/-! ## Flags are only ever cleared by `canBeFormed` -/

theorem FlagsCleared.refl (g : Game) : FlagsCleared g g :=
  ⟨rfl, rfl, rfl, rfl, rfl, fun _ => Or.inl rfl⟩

theorem FlagsCleared.trans {g g1 g2 : Game} (h : FlagsCleared g g1) (h1 : FlagsCleared g1 g2) :
    FlagsCleared g g2 := by
  obtain ⟨e, a, r, nr, nc, hi⟩ := h
  obtain ⟨e1, a1, r1, nr1, nc1, hi1⟩ := h1
  refine ⟨e1.trans e, a1.trans a, r1.trans r, nr1.trans nr, nc1.trans nc, fun i => ?_⟩
  rcases hi1 i with h2 | ⟨cu1, h2, h3⟩
  · rw [h2]; exact hi i
  · rcases hi i with h4 | ⟨cu, h4, h5⟩
    · exact Or.inr ⟨cu1, h4 ▸ h2, h3⟩
    · refine Or.inr ⟨cu, h4, ?_⟩
      rw [h5] at h2
      cases h2
      exact h3

/-- On a board without flags, clearing flags changes nothing. -/
theorem FlagsCleared.eq_of_allClear {g g1 : Game} (h : FlagsCleared g g1)
    (hclear : g.board.AllClear) : g1 = g := by
  obtain ⟨e, a, r, nr, nc, hi⟩ := h
  have helems : g1.board.elems = g.board.elems := by
    apply List.ext_getElem?
    intro i
    rcases hi i with h2 | ⟨cu, h2, h3⟩
    · exact h2
    · have hf : cu.flag = false := hclear cu (List.getElem?_mem h2)
      rw [h3, h2]
      congr 1
      cases cu
      simp_all
  cases g1 with
  | mk b1 e1 a1 r1 =>
    cases g with
    | mk b e0 a0 r0 =>
      cases b1; cases b
      simp_all

/-- Setting the flag of a cube, clearing some flags, and clearing the flag of
that cube again amounts to clearing some flags. -/
theorem FlagsCleared.set_clear {g g1 g2 g3 : Game} {r c : Nat}
    (h1 : g.setFlag r c true = some g1) (h12 : FlagsCleared g1 g2)
    (h3 : g2.setFlag r c false = some g3) : FlagsCleared g g3 := by
  obtain ⟨cu, hcu, rfl⟩ := Game.setFlag_eq_some.1 h1
  obtain ⟨cu2, hcu2, rfl⟩ := Game.setFlag_eq_some.1 h3
  obtain ⟨e, a, rr, nr, nc, hi⟩ := h12
  simp only at e a rr nr nc hi
  refine ⟨e, a, rr, nr, nc, fun i => ?_⟩
  simp only
  have hidx := (Grid.get_eq_some.1 hcu).2.2
  have hidx2 := (Grid.get_eq_some.1 hcu2).2.2
  rw [nc] at hidx2 ⊢
  by_cases hi0 : r * g.board.numCols + c = i
  · subst hi0
    right
    refine ⟨cu, hidx, ?_⟩
    have hlt : r * g.board.numCols + c < g2.board.elems.length :=
      (List.getElem?_eq_some.1 hidx2).1
    rw [List.getElem?_set_self hlt]
    have hlt0 : r * g.board.numCols + c < g.board.elems.length :=
      (List.getElem?_eq_some.1 hidx).1
    rcases hi (r * g.board.numCols + c) with h | ⟨cu1, h, h5⟩
    · rw [hidx2, List.getElem?_set_self hlt0] at h
      cases h
      rfl
    · rw [List.getElem?_set_self hlt0] at h
      cases h
      rw [hidx2] at h5
      cases h5
      rfl
  · rw [List.getElem?_set_ne hi0]
    rcases hi i with h | ⟨cu1, h, h5⟩
    · rw [List.getElem?_set_ne hi0] at h
      exact Or.inl h
    · rw [List.getElem?_set_ne hi0] at h
      exact Or.inr ⟨cu1, h, h5⟩

theorem canBeFormedLoop_flagsCleared {next : Game → Cube → Option (Bool × Game)}
    (hnext : ∀ g0 n r g1, next g0 n = some (r, g1) → FlagsCleared g0 g1) (c : Cube) :
    ∀ (dirs : List Direction) (g : Game) (r : Bool) (g1 : Game),
      canBeFormedLoop next c dirs g = some (r, g1) → FlagsCleared g g1 := by
  intro dirs
  induction dirs with
  | nil =>
    intro g r g1 h
    simp only [canBeFormedLoop, Option.some.injEq, Prod.mk.injEq] at h
    rw [← h.2]; exact FlagsCleared.refl g
  | cons dir rest ih =>
    intro g r g1 h
    simp only [canBeFormedLoop] at h
    split at h
    · cases h
    · rename_i nextCube hadj
      split at h
      · exact ih g r g1 h
      · split at h
        · cases h
        · rename_i g2 hn
          cases h
          exact hnext _ _ _ _ hn
        · rename_i g2 hn
          exact (hnext _ _ _ _ hn).trans (ih g2 r g1 h)

theorem canBeFormed_flagsCleared (w : Word) :
    ∀ (g : Game) (c : Cube) (r : Bool) (g1 : Game),
      canBeFormed g c w = some (r, g1) → FlagsCleared g g1 := by
  induction w with
  | nil =>
    intro g c r g1 h
    simp only [canBeFormed] at h
    split at h
    · cases h; exact FlagsCleared.refl g
    · cases h
  | cons ch str ih =>
    intro g c r g1 h
    simp only [canBeFormed] at h
    split at h
    · cases h; exact FlagsCleared.refl g
    · split at h
      · cases h
      · rename_i ga hset
        split at h
        · split at h
          · cases h
          · rename_i gb hclr
            cases h
            exact FlagsCleared.set_clear hset (FlagsCleared.refl _) hclr
        · split at h
          · cases h
          · rename_i r2 gb hloop
            split at h
            · cases h
            · rename_i gc hclr
              cases h
              exact FlagsCleared.set_clear hset
                (canBeFormedLoop_flagsCleared (fun g0 n r0 g2 => ih g0 n r0 g2) c _ _ _ _ hloop) hclr

theorem isLegalLoop_flagsCleared (w : Word) :
    ∀ (cs : List Cube) (g : Game) (r : Bool) (g1 : Game),
      isLegalLoop w cs g = some (r, g1) → FlagsCleared g g1 := by
  intro cs
  induction cs with
  | nil =>
    intro g r g1 h
    simp only [isLegalLoop, Option.some.injEq, Prod.mk.injEq] at h
    rw [← h.2]; exact FlagsCleared.refl g
  | cons c cs ih =>
    intro g r g1 h
    simp only [isLegalLoop] at h
    split at h
    · cases h
    · rename_i g2 hc
      cases h
      exact canBeFormed_flagsCleared w _ _ _ _ hc
    · rename_i g2 hc
      exact (canBeFormed_flagsCleared w _ _ _ _ hc).trans (ih g2 r g1 h)

theorem isLegal_flagsCleared {g : Game} {w : Word} {r : Bool} {g1 : Game}
    (h : isLegal g w = some (r, g1)) : FlagsCleared g g1 := by
  unfold isLegal at h
  simp only at h
  split at h
  · exact isLegalLoop_flagsCleared w _ _ _ _ h
  · cases h; exact FlagsCleared.refl g

/-! ## Setting a flag on a well-formed board -/

theorem Game.setFlag_same {g : Game} {r c : Nat} {cu : Cube} {v : Bool}
    (h : g.board.get r c = some cu) (hv : cu.flag = v) : g.setFlag r c v = some g := by
  rw [Game.setFlag_eq_some]
  refine ⟨cu, h, ?_⟩
  have hidx := (Grid.get_eq_some.1 h).2.2
  have hcu : ({ cu with flag := v } : Cube) = cu := by cases cu; simp_all
  have hset : g.board.elems.set (r * g.board.numCols + c) { cu with flag := v } = g.board.elems := by
    rw [hcu]
    apply List.ext_getElem?
    intro i
    by_cases hi : r * g.board.numCols + c = i
    · subst hi
      rw [List.getElem?_set_self (List.getElem?_eq_some.1 hidx).1, hidx]
    · rw [List.getElem?_set_ne hi]
  rw [hset]

theorem Game.get_setFlag_self {g g1 : Game} {r c : Nat} {v : Bool} {cu : Cube}
    (h : g.setFlag r c v = some g1) (hcu : g.board.get r c = some cu) :
    g1.board.get r c = some { cu with flag := v } := by
  obtain ⟨cu1, hcu1, rfl⟩ := Game.setFlag_eq_some.1 h
  rw [hcu] at hcu1; cases hcu1
  have h0 := Grid.get_eq_some.1 hcu
  rw [Grid.get_eq_some]
  refine ⟨h0.1, h0.2.1, ?_⟩
  simp only
  exact List.getElem?_set_self (List.getElem?_eq_some.1 h0.2.2).1

theorem Game.setFlag_setFlag {g g1 : Game} {r c : Nat} {v : Bool} (v2 : Bool)
    (h : g.setFlag r c v = some g1) : g1.setFlag r c v2 = g.setFlag r c v2 := by
  obtain ⟨cu, hcu, hg1⟩ := Game.setFlag_eq_some.1 h
  have h1 := Game.get_setFlag_self h hcu
  obtain ⟨g2, hg2⟩ := Game.setFlag_isSome v2 hcu
  rw [hg2, Game.setFlag_eq_some]
  refine ⟨_, h1, ?_⟩
  obtain ⟨cu1, hcu1, rfl⟩ := Game.setFlag_eq_some.1 hg2
  rw [hcu] at hcu1; cases hcu1
  subst hg1
  simp only [List.set_set]

theorem Game.get_setFlag_ne {g g1 : Game} (hwf : g.board.WF) {r c : Nat} {v : Bool}
    (h : g.setFlag r c v = some g1) {r1 c1 : Nat} (hne : (r1, c1) ≠ (r, c)) :
    g1.board.get r1 c1 = g.board.get r1 c1 := by
  obtain ⟨cu, hcu, rfl⟩ := Game.setFlag_eq_some.1 h
  have h0 := Grid.get_eq_some.1 hcu
  unfold Grid.get
  simp only
  split
  · rename_i hin
    apply List.getElem?_set_ne
    intro hidx
    have := hwf.idx_inj h0.1 h0.2.1 hin.1 hin.2 hidx
    exact hne (by rw [this.1, this.2])
  · rfl

theorem Game.setFlag_dims {g g1 : Game} {r c : Nat} {v : Bool}
    (h : g.setFlag r c v = some g1) :
    g1.board.numRows = g.board.numRows ∧ g1.board.numCols = g.board.numCols ∧
      g1.board.elems.length = g.board.elems.length ∧
      g1.english = g.english ∧ g1.alreadyPlayed = g.alreadyPlayed ∧ g1.recorded = g.recorded := by
  obtain ⟨cu, _, rfl⟩ := Game.setFlag_eq_some.1 h
  simp

theorem Game.setFlag_WF {g g1 : Game} (hwf : g.board.WF) {r c : Nat} {v : Bool}
    (h : g.setFlag r c v = some g1) : g1.board.WF := by
  obtain ⟨nr, nc, len, -⟩ := Game.setFlag_dims h
  obtain ⟨cu, hcu, -⟩ := Game.setFlag_eq_some.1 h
  refine ⟨by rw [len, nr, nc]; exact hwf.1, ?_⟩
  intro r1 hr1 c1 hc1
  rw [nr] at hr1; rw [nc] at hc1
  by_cases hp : (r1, c1) = (r, c)
  · cases hp
    rw [Game.get_setFlag_self h hcu]
    have := hwf.pos_of_get hcu
    simp [this.1, this.2]
  · rw [Game.get_setFlag_ne hwf h hp]
    exact hwf.2 r1 hr1 c1 hc1

theorem Game.letterAt_setFlag {g g1 : Game} (hwf : g.board.WF) {r c : Nat} {v : Bool}
    (h : g.setFlag r c v = some g1) (p : Nat × Nat) :
    g1.board.letterAt p = g.board.letterAt p := by
  obtain ⟨cu, hcu, -⟩ := Game.setFlag_eq_some.1 h
  unfold Grid.letterAt
  by_cases hp : (p.1, p.2) = (r, c)
  · cases hp
    rw [Game.get_setFlag_self h hcu, hcu]
    rfl
  · rw [Game.get_setFlag_ne hwf h hp]

theorem Game.flagAt_setFlag_self {g g1 : Game} {r c : Nat} {v : Bool}
    (h : g.setFlag r c v = some g1) : g1.board.flagAt (r, c) = some v := by
  obtain ⟨cu, hcu, -⟩ := Game.setFlag_eq_some.1 h
  unfold Grid.flagAt
  rw [Game.get_setFlag_self h hcu]
  rfl

theorem Game.flagAt_setFlag_ne {g g1 : Game} (hwf : g.board.WF) {r c : Nat} {v : Bool}
    (h : g.setFlag r c v = some g1) {p : Nat × Nat} (hne : p ≠ (r, c)) :
    g1.board.flagAt p = g.board.flagAt p := by
  unfold Grid.flagAt
  rw [Game.get_setFlag_ne hwf h hne]

/-! ## The adjacency function -/

theorem mem_allDirections (dir : Direction) : dir ∈ allDirections := by
  cases dir <;> simp [allDirections]

/-- On a well-formed board `adjacentCube` returns the cube it was asked
about or the cube at a neighbouring position. -/
theorem adjacentCube_spec {g : Game} (hwf : g.board.WF) (dir : Direction) {row col : Nat}
    {c2 : Cube} (h : g.board.get row col = some c2) :
    ∃ n, adjacentCube g dir row col = some n ∧
      (n = c2 ∨ ∃ q, Adjacent (row, col) q ∧ g.board.get q.1 q.2 = some n) := by
  have hr := (Grid.get_eq_some.1 h).1
  have hc := (Grid.get_eq_some.1 h).2.1
  have key : ∀ r1 c1, r1 < g.board.numRows → c1 < g.board.numCols → Adjacent (row, col) (r1, c1) →
      ∃ n, g.board.get r1 c1 = some n ∧
        (n = c2 ∨ ∃ q, Adjacent (row, col) q ∧ g.board.get q.1 q.2 = some n) := by
    intro r1 c1 h1 h2 hadj
    obtain ⟨n, hn⟩ := hwf.get_isSome h1 h2
    exact ⟨n, hn, Or.inr ⟨(r1, c1), hadj, hn⟩⟩
  unfold adjacentCube
  rw [h]
  simp only
  cases dir <;> (try dsimp only) <;> split <;>
    first
    | exact ⟨c2, rfl, Or.inl rfl⟩
    | (apply key <;> (try simp only [Adjacent, ne_eq, Prod.mk.injEq]) <;> omega)

/-- Every neighbouring position is reached by one of the eight directions. -/
theorem adjacentCube_complete {g : Game} {row col : Nat} {c2 : Cube}
    (h : g.board.get row col = some c2) {q : Nat × Nat} (hadj : Adjacent (row, col) q)
    {n : Cube} (hn : g.board.get q.1 q.2 = some n) :
    ∃ dir, adjacentCube g dir row col = some n := by
  obtain ⟨qr, qc⟩ := q
  have hqr := (Grid.get_eq_some.1 hn).1
  have hqc := (Grid.get_eq_some.1 hn).2.1
  simp only [Adjacent, ne_eq, Prod.mk.injEq] at hadj hqr hqc hn
  obtain ⟨hne, h1, h2, h3, h4⟩ := hadj
  have hrow : qr + 1 = row ∨ qr = row ∨ qr = row + 1 := by omega
  have hcol : qc + 1 = col ∨ qc = col ∨ qc = col + 1 := by omega
  unfold adjacentCube
  rw [h]
  rcases hrow with hrow | hrow | hrow <;> rcases hcol with hcol | hcol | hcol
  · refine ⟨.Northwest, ?_⟩
    subst hrow; subst hcol
    simpa using hn
  · refine ⟨.North, ?_⟩
    subst hrow; subst hcol
    simpa using hn
  · refine ⟨.Northeast, ?_⟩
    subst hrow; subst hcol
    have : ¬ col = g.board.numCols - 1 := by omega
    simpa [this] using hn
  · refine ⟨.West, ?_⟩
    subst hrow; subst hcol
    simpa using hn
  · exact absurd ⟨hrow.symm, hcol.symm⟩ hne
  · refine ⟨.East, ?_⟩
    subst hrow; subst hcol
    have : ¬ col = g.board.numCols - 1 := by omega
    simpa [this] using hn
  · refine ⟨.Southwest, ?_⟩
    subst hrow; subst hcol
    have : ¬ row = g.board.numRows - 1 := by omega
    simpa [this] using hn
  · refine ⟨.South, ?_⟩
    subst hrow; subst hcol
    have : ¬ row = g.board.numRows - 1 := by omega
    simpa [this] using hn
  · refine ⟨.Southeast, ?_⟩
    subst hrow; subst hcol
    have : ¬ row = g.board.numRows - 1 := by omega
    have : ¬ col = g.board.numCols - 1 := by omega
    simp [*]

/-! ## `canBeFormed` returns, and restores the flags -/

theorem canBeFormedLoop_returns (next : Game → Cube → Option (Bool × Game)) {g : Game}
    (hwf : g.board.WF) {c cu : Cube} (hc : g.board.get c.row c.col = some cu)
    (hnext : ∀ n (q : Nat × Nat), g.board.get q.1 q.2 = some n → n.flag = false →
      ∃ r, next g n = some (r, g)) :
    ∀ dirs : List Direction, ∃ r, canBeFormedLoop next c dirs g = some (r, g) := by
  intro dirs
  induction dirs with
  | nil => exact ⟨false, rfl⟩
  | cons dir rest ih =>
    obtain ⟨n, hadj, hn⟩ := adjacentCube_spec hwf dir hc
    have hq : ∃ q : Nat × Nat, g.board.get q.1 q.2 = some n := by
      rcases hn with rfl | ⟨q, -, hq⟩
      · exact ⟨(c.row, c.col), hc⟩
      · exact ⟨q, hq⟩
    obtain ⟨q, hq⟩ := hq
    simp only [canBeFormedLoop, hadj]
    cases hflag : n.flag with
    | true => simpa using ih
    | false =>
      obtain ⟨r, hr⟩ := hnext n q hq hflag
      rw [hr]
      cases r with
      | true => exact ⟨true, by simp⟩
      | false => simpa using ih

theorem canBeFormed_returns (w : Word) :
    ∀ (g : Game) (c cu : Cube), w ≠ [] → g.board.WF → g.board.get c.row c.col = some cu →
      ∃ r g1, canBeFormed g c w = some (r, g1) ∧
        (g1 = g ∨ g.setFlag c.row c.col false = some g1) := by
  induction w with
  | nil => intro g c cu hw; exact absurd rfl hw
  | cons ch str ih =>
    intro g c cu _ hwf hc
    by_cases hch : ch = c.letter
    · obtain ⟨g1, hg1⟩ := Game.setFlag_isSome true hc
      obtain ⟨g3, hg3⟩ := Game.setFlag_isSome false hc
      have hclr : g1.setFlag c.row c.col false = some g3 := by
        rw [Game.setFlag_setFlag false hg1, hg3]
      by_cases hstr : str.length = 0
      · refine ⟨true, g3, ?_, Or.inr hg3⟩
        simp [canBeFormed, hch, hg1, hstr, hclr]
      · have hne : str ≠ [] := by
          intro h; rw [h] at hstr; exact hstr rfl
        have hwf1 := Game.setFlag_WF hwf hg1
        have hc1 := Game.get_setFlag_self hg1 hc
        have hnext : ∀ n (q : Nat × Nat), g1.board.get q.1 q.2 = some n → n.flag = false →
            ∃ r, canBeFormed g1 n str = some (r, g1) := by
          intro n q hq hflag
          have hpos := hwf1.pos_of_get hq
          have hq1 : g1.board.get n.row n.col = some n := by rw [hpos.1, hpos.2]; exact hq
          obtain ⟨r, g2, h2, h3⟩ := ih g1 n n hne hwf1 hq1
          rw [Game.setFlag_same hq1 hflag] at h3
          have : g2 = g1 := by
            rcases h3 with h3 | h3
            · exact h3
            · cases h3; rfl
          exact ⟨r, this ▸ h2⟩
        obtain ⟨r, hr⟩ := canBeFormedLoop_returns (fun g0 n => canBeFormed g0 n str) hwf1 hc1 hnext allDirections
        refine ⟨r, g3, ?_, Or.inr hg3⟩
        simp [canBeFormed, hch, hg1, hstr, hr, hclr]
    · exact ⟨false, g, by simp [canBeFormed, hch], Or.inl rfl⟩

/-- A call of `canBeFormed` on a cube of the board whose flag is false leaves
the game as it was. -/
theorem canBeFormed_frame {g : Game} (hwf : g.board.WF) {c cu : Cube}
    (hc : g.board.get c.row c.col = some cu) (hflag : cu.flag = false)
    {w : Word} {r : Bool} {g1 : Game} (h : canBeFormed g c w = some (r, g1)) : g1 = g := by
  cases w with
  | nil =>
    simp only [canBeFormed] at h
    split at h
    · cases h; rfl
    · cases h
  | cons ch str =>
    obtain ⟨r2, g2, h2, h3⟩ := canBeFormed_returns (ch :: str) g c cu (by simp) hwf hc
    rw [h2] at h
    cases h
    rw [Game.setFlag_same hc hflag] at h3
    rcases h3 with h3 | h3
    · exact h3
    · cases h3; rfl

/-! ## Soundness of `canBeFormed` -/

theorem spellsPath_cons {b : Grid} {p : Nat × Nat} {ps : List (Nat × Nat)} {ch : Char}
    {str : Word} :
    SpellsPath b (p :: ps) (ch :: str) ↔
      p ∉ ps ∧ (∀ q ∈ ps.head?, Adjacent p q) ∧ b.letterAt p = some ch ∧ SpellsPath b ps str := by
  unfold SpellsPath
  simp only [List.nodup_cons, List.chain'_cons', List.map_cons, List.cons.injEq]
  tauto

theorem spellsPath_congr {b b1 : Grid} (h : ∀ p, b1.letterAt p = b.letterAt p)
    {ps : List (Nat × Nat)} {w : Word} (hp : SpellsPath b1 ps w) : SpellsPath b ps w := by
  obtain ⟨h1, h2, h3⟩ := hp
  refine ⟨h1, h2, ?_⟩
  rw [← h3]
  exact List.map_congr_left (fun p _ => (h p).symm)

theorem canBeFormedLoop_true (next : Game → Cube → Option (Bool × Game)) {g : Game}
    (hwf : g.board.WF) {c cu : Cube} (hc : g.board.get c.row c.col = some cu)
    (hframe : ∀ n (q : Nat × Nat), g.board.get q.1 q.2 = some n → n.flag = false →
      ∀ r g1, next g n = some (r, g1) → g1 = g) :
    ∀ (dirs : List Direction) (g2 : Game), canBeFormedLoop next c dirs g = some (true, g2) →
      ∃ n, n.flag = false ∧
        (n = cu ∨ ∃ q, Adjacent (c.row, c.col) q ∧ g.board.get q.1 q.2 = some n) ∧
        next g n = some (true, g2) := by
  intro dirs
  induction dirs with
  | nil => intro g2 h; simp [canBeFormedLoop] at h
  | cons dir rest ih =>
    intro g2 h
    obtain ⟨n, hadj, hn⟩ := adjacentCube_spec hwf dir hc
    have hq : ∃ q : Nat × Nat, g.board.get q.1 q.2 = some n := by
      rcases hn with rfl | ⟨q, -, hq⟩
      · exact ⟨(c.row, c.col), hc⟩
      · exact ⟨q, hq⟩
    obtain ⟨q, hq⟩ := hq
    simp only [canBeFormedLoop, hadj] at h
    cases hflag : n.flag with
    | true =>
      rw [hflag] at h
      exact ih g2 (by simpa using h)
    | false =>
      rw [hflag] at h
      simp only [Bool.false_eq_true, ↓reduceIte] at h
      split at h
      · cases h
      · rename_i g1 hnx
        cases h
        exact ⟨n, hflag, hn, hnx⟩
      · rename_i g1 hnx
        have := hframe n q hq hflag _ _ hnx
        subst this
        exact ih g2 h

/-- When `canBeFormed` answers true, the word is spelled by a simple path that
starts at the cube's position and whose other cubes had their flag false. -/
theorem canBeFormed_sound (w : Word) :
    ∀ (g : Game) (c cu : Cube) (g1 : Game), g.board.WF →
      g.board.get c.row c.col = some cu → cu.letter = c.letter →
      canBeFormed g c w = some (true, g1) →
      ∃ ps, SpellsPath g.board ((c.row, c.col) :: ps) w ∧
        ∀ p ∈ ps, g.board.flagAt p = some false := by
  induction w with
  | nil =>
    intro g c cu g1 _ _ _ h
    simp only [canBeFormed] at h
    split at h <;> cases h
  | cons ch str ih =>
    intro g c cu g3 hwf hc hlet h
    by_cases hch : ch = c.letter
    · have hletter : g.board.letterAt (c.row, c.col) = some ch := by
        unfold Grid.letterAt; rw [hc, hch, ← hlet]; rfl
      obtain ⟨g1, hg1⟩ := Game.setFlag_isSome true hc
      by_cases hstr : str.length = 0
      · have hnil : str = [] := List.length_eq_zero.1 hstr
        subst hnil
        refine ⟨[], ?_, by simp⟩
        rw [spellsPath_cons]
        refine ⟨by simp, by simp, hletter, ?_⟩
        simp [SpellsPath]
      · have hwf1 := Game.setFlag_WF hwf hg1
        have hc1 := Game.get_setFlag_self hg1 hc
        simp only [canBeFormed, hch, hg1, hstr, ne_eq, not_true_eq_false, ↓reduceIte] at h
        split at h
        · cases h
        · rename_i r g2 hloop
          split at h
          · cases h
          · rename_i g3a hclr
            simp only [Option.some.injEq, Prod.mk.injEq] at h
            obtain ⟨hr, -⟩ := h
            subst hr
            obtain ⟨n, hflag, hn, hnx⟩ := canBeFormedLoop_true
              (fun g0 n => canBeFormed g0 n str) hwf1 hc1
              (fun n q hq hfl r g4 h4 => by
                have hpos := hwf1.pos_of_get hq
                have hq1 : g1.board.get n.row n.col = some n := by
                  rw [hpos.1, hpos.2]; exact hq
                exact canBeFormed_frame hwf1 hq1 hfl h4)
              allDirections g2 hloop
            rcases hn with hn | ⟨q, hadj, hq⟩
            · rw [hn] at hflag; simp at hflag
            · have hpos := hwf1.pos_of_get hq
              have hq1 : g1.board.get n.row n.col = some n := by
                rw [hpos.1, hpos.2]; exact hq
              obtain ⟨ps, hps, hfl⟩ := ih g1 n n g2 hwf1 hq1 rfl hnx
              rw [hpos.1, hpos.2] at hps
              have hflq : g1.board.flagAt q = some false := by
                unfold Grid.flagAt; rw [hq, ← hflag]; rfl
              have hflc : g1.board.flagAt (c.row, c.col) = some true :=
                Game.flagAt_setFlag_self hg1
              have hall : ∀ p ∈ q :: ps, g1.board.flagAt p = some false := by
                intro p hp
                rcases List.mem_cons.1 hp with rfl | hp
                · exact hflq
                · exact hfl p hp
              have hnotin : (c.row, c.col) ∉ q :: ps := by
                intro hmem
                have := hall _ hmem
                rw [hflc] at this
                cases this
              refine ⟨q :: ps, ?_, ?_⟩
              · rw [spellsPath_cons]
                refine ⟨hnotin, by simpa using hadj, hletter, ?_⟩
                exact spellsPath_congr (fun p => Game.letterAt_setFlag hwf hg1 p) hps
              · intro p hp
                have hne : p ≠ (c.row, c.col) := fun h => hnotin (h ▸ hp)
                rw [← Game.flagAt_setFlag_ne hwf hg1 hne]
                exact hall p hp
    · simp [canBeFormed, hch] at h

/-! ## Completeness of `canBeFormed` -/

theorem canBeFormedLoop_complete (next : Game → Cube → Option (Bool × Game)) {g : Game}
    (hwf : g.board.WF) {c cu : Cube} (hc : g.board.get c.row c.col = some cu)
    (hnext : ∀ n (q : Nat × Nat), g.board.get q.1 q.2 = some n → n.flag = false →
      ∃ r, next g n = some (r, g))
    {n : Cube} (hflag : n.flag = false) (htrue : next g n = some (true, g)) :
    ∀ dirs : List Direction, (∃ dir ∈ dirs, adjacentCube g dir c.row c.col = some n) →
      canBeFormedLoop next c dirs g = some (true, g) := by
  intro dirs
  induction dirs with
  | nil => rintro ⟨dir, hmem, -⟩; cases hmem
  | cons dir rest ih =>
    rintro ⟨d, hmem, hd⟩
    obtain ⟨n1, hadj, hn1⟩ := adjacentCube_spec hwf dir hc
    have hq : ∃ q : Nat × Nat, g.board.get q.1 q.2 = some n1 := by
      rcases hn1 with rfl | ⟨q, -, hq⟩
      · exact ⟨(c.row, c.col), hc⟩
      · exact ⟨q, hq⟩
    obtain ⟨q, hq⟩ := hq
    have hrest : d ≠ dir → canBeFormedLoop next c rest g = some (true, g) := by
      intro hne
      rcases List.mem_cons.1 hmem with h | h
      · exact absurd h hne
      · exact ih ⟨d, h, hd⟩
    simp only [canBeFormedLoop, hadj]
    cases hflag1 : n1.flag with
    | true =>
      simp only [↓reduceIte]
      apply hrest
      rintro rfl
      rw [hd] at hadj; cases hadj
      rw [hflag] at hflag1; cases hflag1
    | false =>
      simp only [Bool.false_eq_true, ↓reduceIte]
      obtain ⟨r, hr⟩ := hnext n1 q hq hflag1
      rw [hr]
      cases r with
      | true => rfl
      | false =>
        simp only
        apply hrest
        rintro rfl
        rw [hd] at hadj; cases hadj
        rw [htrue] at hr; cases hr

/-- A call of `canBeFormed` on a cube of the board whose flag is false, with
a non-empty word, returns and leaves the game as it was. -/
theorem canBeFormed_returns_same {g : Game} (hwf : g.board.WF) {n : Cube} {q : Nat × Nat}
    (hq : g.board.get q.1 q.2 = some n) (hflag : n.flag = false) {w : Word} (hw : w ≠ []) :
    ∃ r, canBeFormed g n w = some (r, g) := by
  have hpos := hwf.pos_of_get hq
  have hq1 : g.board.get n.row n.col = some n := by rw [hpos.1, hpos.2]; exact hq
  obtain ⟨r, g2, h2, -⟩ := canBeFormed_returns w g n n hw hwf hq1
  have := canBeFormed_frame hwf hq1 hflag h2
  exact ⟨r, this ▸ h2⟩

/-- When a simple path spelling the word starts at the cube's position and
its other cubes have their flag false, `canBeFormed` answers true. -/
theorem canBeFormed_complete (w : Word) :
    ∀ (g : Game) (c cu : Cube) (ps : List (Nat × Nat)), g.board.WF →
      g.board.get c.row c.col = some cu → cu.letter = c.letter →
      SpellsPath g.board ((c.row, c.col) :: ps) w →
      (∀ p ∈ ps, g.board.flagAt p = some false) →
      ∃ g1, canBeFormed g c w = some (true, g1) := by
  induction w with
  | nil =>
    intro g c cu ps _ _ _ hps
    have := hps.2.2
    simp at this
  | cons ch str ih =>
    intro g c cu ps hwf hc hlet hps hfl
    rw [spellsPath_cons] at hps
    obtain ⟨hnotin, hhead, hletter, hrest⟩ := hps
    have hch : ch = c.letter := by
      unfold Grid.letterAt at hletter
      rw [hc] at hletter
      simp only [Option.map_some', Option.some.injEq] at hletter
      rw [← hletter, hlet]
    obtain ⟨g1, hg1⟩ := Game.setFlag_isSome true hc
    obtain ⟨g3, hg3⟩ := Game.setFlag_isSome false hc
    have hclr : g1.setFlag c.row c.col false = some g3 := by
      rw [Game.setFlag_setFlag false hg1, hg3]
    by_cases hstr : str.length = 0
    · exact ⟨g3, by simp [canBeFormed, hch, hg1, hstr, hclr]⟩
    · have hne : str ≠ [] := by
        intro h; rw [h] at hstr; exact hstr rfl
      have hwf1 := Game.setFlag_WF hwf hg1
      have hc1 := Game.get_setFlag_self hg1 hc
      cases ps with
      | nil =>
        have := hrest.2.2
        simp at this
        exact absurd this hne
      | cons q ps1 =>
        have hadj : Adjacent (c.row, c.col) q := hhead q (by simp)
        have hqne : q ≠ (c.row, c.col) := fun h => hnotin (h ▸ List.mem_cons_self _ _)
        have hflq : g1.board.flagAt q = some false := by
          rw [Game.flagAt_setFlag_ne hwf hg1 hqne]
          exact hfl q (List.mem_cons_self _ _)
        obtain ⟨n, hn, hnflag⟩ : ∃ n, g1.board.get q.1 q.2 = some n ∧ n.flag = false := by
          unfold Grid.flagAt at hflq
          cases hget : g1.board.get q.1 q.2 with
          | none => rw [hget] at hflq; cases hflq
          | some n =>
            rw [hget] at hflq
            exact ⟨n, rfl, by simpa using hflq⟩
        have hpos := hwf1.pos_of_get hn
        have hn1 : g1.board.get n.row n.col = some n := by rw [hpos.1, hpos.2]; exact hn
        obtain ⟨dir, hdir⟩ := adjacentCube_complete hc1 hadj hn
        have hps1 : SpellsPath g1.board ((n.row, n.col) :: ps1) str := by
          rw [hpos.1, hpos.2]
          exact spellsPath_congr (fun p => (Game.letterAt_setFlag hwf hg1 p).symm) hrest
        have hfl1 : ∀ p ∈ ps1, g1.board.flagAt p = some false := by
          intro p hp
          have hne1 : p ≠ (c.row, c.col) :=
            fun h => hnotin (h ▸ List.mem_cons_of_mem _ hp)
          rw [Game.flagAt_setFlag_ne hwf hg1 hne1]
          exact hfl p (List.mem_cons_of_mem _ hp)
        obtain ⟨g2, hg2⟩ := ih g1 n n ps1 hwf1 hn1 rfl hps1 hfl1
        have hsame := canBeFormed_frame hwf1 hn1 hnflag hg2
        subst hsame
        have hloop := canBeFormedLoop_complete (fun g0 n => canBeFormed g0 n str) hwf1 hc1
          (fun n2 q2 hq2 hfl2 => canBeFormed_returns_same hwf1 hq2 hfl2 hne)
          hnflag hg2 allDirections ⟨dir, mem_allDirections dir, hdir⟩
        exact ⟨g3, by simp [canBeFormed, hch, hg1, hstr, hloop, hclr]⟩

/-! ## `isLegal` -/

theorem FlagsCleared.get_cases {g g1 : Game} (h : FlagsCleared g g1) (r c : Nat) :
    g1.board.get r c = g.board.get r c ∨
      ∃ cu : Cube, g.board.get r c = some cu ∧
        g1.board.get r c = some { cu with flag := false } := by
  obtain ⟨-, -, -, nr, nc, hi⟩ := h
  unfold Grid.get
  rw [nr, nc]
  split
  · exact hi _
  · exact Or.inl rfl

theorem FlagsCleared.letterAt_eq {g g1 : Game} (h : FlagsCleared g g1) (p : Nat × Nat) :
    g1.board.letterAt p = g.board.letterAt p := by
  unfold Grid.letterAt
  rcases h.get_cases p.1 p.2 with h1 | ⟨cu, h1, h2⟩
  · rw [h1]
  · rw [h1, h2]; rfl

theorem FlagsCleared.wf_of {g g1 : Game} (h : FlagsCleared g g1) (hwf : g.board.WF) :
    g1.board.WF := by
  have hlen : g1.board.elems.length = g.board.elems.length := by
    obtain ⟨-, -, -, -, -, hi⟩ := h
    apply Nat.le_antisymm
    · apply Nat.le_of_not_lt
      intro hlt
      rcases hi g.board.elems.length with h1 | ⟨cu, h1, -⟩
      · rw [List.getElem?_eq_none (Nat.le_refl _)] at h1
        rw [List.getElem?_eq_none_iff] at h1
        omega
      · rw [List.getElem?_eq_none (Nat.le_refl _)] at h1
        cases h1
    · apply Nat.le_of_not_lt
      intro hlt
      rcases hi g1.board.elems.length with h1 | ⟨cu, -, h1⟩
      · rw [List.getElem?_eq_none (Nat.le_refl _)] at h1
        have := List.getElem?_eq_none_iff.1 h1.symm
        omega
      · rw [List.getElem?_eq_none (Nat.le_refl _)] at h1
        cases h1
  refine ⟨by rw [hlen, h.2.2.2.1, h.2.2.2.2.1]; exact hwf.1, ?_⟩
  intro r hr c hc
  rw [h.2.2.2.1] at hr
  rw [h.2.2.2.2.1] at hc
  have h0 := hwf.2 r hr c hc
  rcases h.get_cases r c with h1 | ⟨cu, h1, h2⟩
  · rw [h1]; exact h0
  · rw [h2]
    rw [h1] at h0
    exact h0

theorem FlagsCleared.cube_of_mem {g g1 : Game} (h : FlagsCleared g g1) (hwf : g.board.WF)
    {c : Cube} (hc : c ∈ g.board.elems) :
    ∃ cu, g1.board.get c.row c.col = some cu ∧ cu.letter = c.letter := by
  have h0 := hwf.get_of_mem hc
  rcases h.get_cases c.row c.col with h1 | ⟨cu, h1, h2⟩
  · exact ⟨c, h1.trans h0, rfl⟩
  · rw [h0] at h1
    cases h1
    exact ⟨_, h2, rfl⟩

theorem isLegalLoop_sound {g : Game} (hwf : g.board.WF) (w : Word) :
    ∀ (cs : List Cube) (g1 g2 : Game), (∀ c ∈ cs, c ∈ g.board.elems) → FlagsCleared g g1 →
      isLegalLoop w cs g1 = some (true, g2) → Traceable g.board w := by
  intro cs
  induction cs with
  | nil => intro g1 g2 _ _ h; simp [isLegalLoop] at h
  | cons c cs ih =>
    intro g1 g2 hcs hfc h
    simp only [isLegalLoop] at h
    split at h
    · cases h
    · rename_i g3 hc
      obtain ⟨cu, hcu, hlet⟩ := hfc.cube_of_mem hwf (hcs c (List.mem_cons_self _ _))
      obtain ⟨ps, hps, -⟩ := canBeFormed_sound w g1 c cu g3 (hfc.wf_of hwf) hcu hlet hc
      exact ⟨_, spellsPath_congr (fun p => hfc.letterAt_eq p) hps⟩
    · rename_i g3 hc
      exact ih g3 g2 (fun c1 h1 => hcs c1 (List.mem_cons_of_mem _ h1))
        (hfc.trans (canBeFormed_flagsCleared w _ _ _ _ hc)) h

theorem isLegal_sound {g : Game} (hwf : g.board.WF) {w : Word} {g1 : Game}
    (h : isLegal g w = some (true, g1)) : Traceable g.board w := by
  unfold isLegal at h
  simp only at h
  split at h
  · exact isLegalLoop_sound hwf w _ g g1 (fun _ hc => hc) (FlagsCleared.refl g) h
  · simp at h

theorem isLegalLoop_returns {g : Game} (hwf : g.board.WF) {w : Word} (hw : w ≠ []) :
    ∀ (cs : List Cube) (g1 : Game), (∀ c ∈ cs, c ∈ g.board.elems) → FlagsCleared g g1 →
      ∃ r g2, isLegalLoop w cs g1 = some (r, g2) := by
  intro cs
  induction cs with
  | nil => intro g1 _ _; exact ⟨false, g1, rfl⟩
  | cons c cs ih =>
    intro g1 hcs hfc
    obtain ⟨cu, hcu, -⟩ := hfc.cube_of_mem hwf (hcs c (List.mem_cons_self _ _))
    obtain ⟨r, g2, h2, -⟩ := canBeFormed_returns w g1 c cu hw (hfc.wf_of hwf) hcu
    simp only [isLegalLoop, h2]
    cases r with
    | true => exact ⟨true, g2, rfl⟩
    | false =>
      exact ih g2 (fun c1 h1 => hcs c1 (List.mem_cons_of_mem _ h1))
        (hfc.trans (canBeFormed_flagsCleared w _ _ _ _ h2))

theorem isLegal_returns {g : Game} (hwf : g.board.WF) {w : Word} (hw : w ≠ []) :
    ∃ r g1, isLegal g w = some (r, g1) := by
  unfold isLegal
  simp only
  split
  · exact isLegalLoop_returns hwf hw _ g (fun _ hc => hc) (FlagsCleared.refl g)
  · exact ⟨false, g, rfl⟩

theorem spellsPath_on_board {b : Grid} {ps : List (Nat × Nat)} {w : Word}
    (h : SpellsPath b ps w) {p : Nat × Nat} (hp : p ∈ ps) :
    ∃ cu, b.get p.1 p.2 = some cu := by
  have hmem : b.letterAt p ∈ ps.map b.letterAt := List.mem_map_of_mem _ hp
  rw [h.2.2] at hmem
  obtain ⟨ch, -, hch⟩ := List.mem_map.1 hmem
  unfold Grid.letterAt at hch
  cases hget : b.get p.1 p.2 with
  | none => rw [hget] at hch; cases hch
  | some cu => exact ⟨cu, rfl⟩

theorem isLegalLoop_complete {g : Game} (hwf : g.board.WF) (hclear : g.board.AllClear)
    {w : Word} (hw : w ≠ []) {c0 : Cube} (h0 : canBeFormed g c0 w = some (true, g)) :
    ∀ cs : List Cube, (∀ c ∈ cs, c ∈ g.board.elems) → c0 ∈ cs →
      isLegalLoop w cs g = some (true, g) := by
  intro cs
  induction cs with
  | nil => intro _ h; cases h
  | cons c cs ih =>
    intro hcs hmem
    have hc := hcs c (List.mem_cons_self _ _)
    have hget := hwf.get_of_mem hc
    obtain ⟨r, hr⟩ := canBeFormed_returns_same hwf (q := (c.row, c.col)) hget (hclear c hc) hw
    simp only [isLegalLoop, hr]
    cases r with
    | true => rfl
    | false =>
      simp only
      apply ih (fun c1 h1 => hcs c1 (List.mem_cons_of_mem _ h1))
      rcases List.mem_cons.1 hmem with h | h
      · subst h
        rw [h0] at hr; cases hr
      · exact h

theorem isLegal_complete {g : Game} (hwf : g.board.WF) (hclear : g.board.AllClear)
    {w : Word} (hw : w ≠ []) (hpre : g.english.containsPrefix (w.take 2) = true)
    (htr : Traceable g.board w) : isLegal g w = some (true, g) := by
  obtain ⟨ps, hps⟩ := htr
  cases ps with
  | nil =>
    have := hps.2.2
    simp at this
    exact absurd this hw
  | cons p ps =>
    obtain ⟨c0, hc0⟩ := spellsPath_on_board hps (List.mem_cons_self _ _)
    have hpos := hwf.pos_of_get hc0
    have hc1 : g.board.get c0.row c0.col = some c0 := by rw [hpos.1, hpos.2]; exact hc0
    have hmem := Grid.mem_of_get hc0
    have hps1 : SpellsPath g.board ((c0.row, c0.col) :: ps) w := by
      rw [hpos.1, hpos.2]; exact hps
    have hfl : ∀ q ∈ ps, g.board.flagAt q = some false := by
      intro q hq
      obtain ⟨cu, hcu⟩ := spellsPath_on_board hps (List.mem_cons_of_mem _ hq)
      unfold Grid.flagAt
      rw [hcu]
      simp [hclear cu (Grid.mem_of_get hcu)]
    obtain ⟨g1, hg1⟩ := canBeFormed_complete w g c0 c0 ps hwf hc1 rfl hps1 hfl
    have := canBeFormed_frame hwf hc1 (hclear c0 hmem) hg1
    subst this
    unfold isLegal
    simp only [hpre, ↓reduceIte]
    exact isLegalLoop_complete hwf hclear hw hg1 _ (fun _ hc => hc) hmem

/-! ## Claims about `isLegal` and `canBeFormed` -/

/-- C1 (as stated, refuted): on the board `A B / C D` without flags the word
`AB` is spelled by the simple path (0,0), (0,1), yet `isLegal` answers false
when the word list reports no word beginning with `AB`; and the empty word is
spelled by the empty path, yet `isLegal` answers false for it. -/
theorem isLegal_iff_traceable_counterexample :
    (boardABCD.AllClear ∧ SpellsPath boardABCD [(0, 0), (0, 1)] "AB".data ∧
      (isLegal ⟨boardABCD, noWord, [], []⟩ "AB".data).map Prod.fst = some false) ∧
    (SpellsPath boardABCD [] [] ∧ (isLegal gameABCD []).map Prod.fst = some false) := by
  decide

/-- C1 (amended): on a well-formed board whose flags are all false, for a
non-empty word whose first two letters the word list reports as the beginning
of a word, `isLegal` returns true if a simple path of adjacent cubes spells
the word and returns false otherwise, and it returns true only if there is
such a path; on the board `A B / C D` the words `AB`, `AD` and `ABCD` verify
true and `AA` verifies false. -/
theorem isLegal_iff_traceable (g : Game) (w : Word) (hwf : g.board.WF)
    (hclear : g.board.AllClear) (hw : w ≠ [])
    (hpre : g.english.containsPrefix (w.take 2) = true) :
    ((∃ g1, isLegal g w = some (true, g1)) ↔ Traceable g.board w) ∧
    (Traceable g.board w → isLegal g w = some (true, g)) ∧
    (¬ Traceable g.board w → isLegal g w = some (false, g)) ∧
    ((isLegal gameABCD "AB".data).map Prod.fst = some true ∧
      (isLegal gameABCD "AD".data).map Prod.fst = some true ∧
      (isLegal gameABCD "ABCD".data).map Prod.fst = some true ∧
      (isLegal gameABCD "AA".data).map Prod.fst = some false) := by
  refine ⟨⟨fun ⟨g1, h⟩ => isLegal_sound hwf h,
    fun h => ⟨g, isLegal_complete hwf hclear hw hpre h⟩⟩,
    isLegal_complete hwf hclear hw hpre, ?_, by decide⟩
  intro hnot
  obtain ⟨r, g1, h⟩ := isLegal_returns (g := g) hwf hw
  have hsame := (isLegal_flagsCleared h).eq_of_allClear hclear
  subst hsame
  cases r with
  | true => exact absurd (isLegal_sound hwf h) hnot
  | false => exact h

/-- Witness of C1 (amended): the word `ABCD` on the board `A B / C D`. -/
theorem isLegal_iff_traceable_witness :
    Traceable boardABCD "ABCD".data ∧ isLegal gameABCD "ABCD".data = some (true, gameABCD) :=
  have h := isLegal_iff_traceable gameABCD "ABCD".data (by decide) (by decide) (by decide) rfl
  ⟨⟨[(0, 0), (0, 1), (1, 0), (1, 1)], by decide⟩,
    h.2.1 ⟨[(0, 0), (0, 1), (1, 0), (1, 1)], by decide⟩⟩

/-- C2: on a well-formed board, whatever its flags, when `isLegal` returns
true there are grid positions, pairwise distinct, each a neighbour of the one
before it (so never the same cube again, which is what `adjacentCube` hands
back at a grid edge), whose letters in order are the word. -/
theorem isLegal_true_traceable (g : Game) (w : Word) (g1 : Game) (hwf : g.board.WF)
    (h : isLegal g w = some (true, g1)) :
    ∃ ps : List (Nat × Nat), ps.Nodup ∧ ps.Chain' Adjacent ∧
      ps.map g.board.letterAt = w.map some :=
  isLegal_sound hwf h

/-- Witness of C2: `isLegal` returns true for `ABD` on the board `A B / C D`. -/
theorem isLegal_true_traceable_witness :
    ∃ ps : List (Nat × Nat), ps.Nodup ∧ ps.Chain' Adjacent ∧
      ps.map boardABCD.letterAt = "ABD".data.map some :=
  isLegal_true_traceable gameABCD "ABD".data gameABCD (by decide)
    (isLegal_complete (g := gameABCD) (by decide) (by decide) (by decide) rfl
      ⟨[(0, 0), (0, 1), (1, 1)], by decide⟩)

/-- C3: on a well-formed board whose flags are all false, for a non-empty word
whose first two letters the word list reports as the beginning of a word, if a
simple path of adjacent cubes spells the word then `isLegal` returns true (and
leaves the game as it was). -/
theorem isLegal_complete_of_traceable (g : Game) (w : Word) (hwf : g.board.WF)
    (hclear : g.board.AllClear) (hw : w ≠ [])
    (hpre : g.english.containsPrefix (w.take 2) = true)
    (ps : List (Nat × Nat)) (hnodup : ps.Nodup) (hadj : ps.Chain' Adjacent)
    (hspell : ps.map g.board.letterAt = w.map some) :
    isLegal g w = some (true, g) :=
  isLegal_complete hwf hclear hw hpre ⟨ps, hnodup, hadj, hspell⟩

/-- Witness of C3: the path (1,1), (1,0), (0,1), (0,0) spells `DCBA` on the
board `A B / C D`. -/
theorem isLegal_complete_of_traceable_witness :
    isLegal gameABCD "DCBA".data = some (true, gameABCD) :=
  isLegal_complete_of_traceable gameABCD "DCBA".data (by decide) (by decide) (by decide) rfl
    [(1, 1), (1, 0), (0, 1), (0, 0)] (by decide) (by decide) (by decide)

/-- C8: on a board whose flags are all false, `isLegal` hands back the game
exactly as it received it, whatever it answers: every flag is false again and
no letter or position has changed; so does each call of `canBeFormed`.  On a
well-formed board with any flags set, a call of `canBeFormed` on a cube of the
board whose flag is false hands back the game as it received it.  On a
well-formed board `isLegal` does return for every non-empty word. -/
theorem verify_leaves_no_flag (g : Game) (w : Word) :
    (g.board.AllClear → ∀ r g1, isLegal g w = some (r, g1) → g1 = g) ∧
    (g.board.AllClear → ∀ c r g1, canBeFormed g c w = some (r, g1) → g1 = g) ∧
    (g.board.WF → ∀ c r g1, g.board.get c.row c.col = some c → c.flag = false →
      canBeFormed g c w = some (r, g1) → g1 = g) ∧
    (g.board.WF → w ≠ [] → ∃ r g1, isLegal g w = some (r, g1)) :=
  ⟨fun hclear _ _ h => (isLegal_flagsCleared h).eq_of_allClear hclear,
    fun hclear _ _ _ h => (canBeFormed_flagsCleared w _ _ _ _ h).eq_of_allClear hclear,
    fun hwf _ _ _ hc hflag h => canBeFormed_frame hwf hc hflag h,
    fun hwf hw => isLegal_returns hwf hw⟩

/-- Witness of C8: `isLegal` on the board `A B / C D` for the word `ABDC`. -/
theorem verify_leaves_no_flag_witness :
    boardABCD.AllClear ∧ boardABCD.WF ∧
      ∃ r, isLegal gameABCD "ABDC".data = some (r, gameABCD) :=
  have h := verify_leaves_no_flag gameABCD "ABDC".data
  ⟨by decide, by decide,
    match h.2.2.2 (by decide) (by decide) with
    | ⟨r, g1, hr⟩ => ⟨r, by rw [hr, h.1 (by decide) r g1 hr]⟩⟩

/-! ## What `compCanBeFormed` records -/

theorem Recorded.none_new (player : Player) (g : Game) : Recorded player g g [] :=
  ⟨rfl, rfl, rfl, List.nodup_nil, fun _ h => by cases h⟩

theorem Recorded.append {player : Player} {g g1 g2 : Game} {n1 n2 : List Word}
    (h1 : Recorded player g g1 n1) (h2 : Recorded player g1 g2 n2) :
    Recorded player g g2 (n2 ++ n1) := by
  obtain ⟨e1, r1, a1, d1, l1⟩ := h1
  obtain ⟨e2, r2, a2, d2, l2⟩ := h2
  refine ⟨e2.trans e1, ?_, ?_, ?_, ?_⟩
  · rw [r2, r1, List.map_append, List.append_assoc]
  · rw [a2, a1, List.append_assoc]
  · rw [List.nodup_append]
    refine ⟨d2, d1, ?_⟩
    intro w hw2 hw1
    exact (l2 w hw2).2.2 (by rw [a1]; exact List.mem_append_left _ hw1)
  · intro w hw
    rcases List.mem_append.1 hw with hw | hw
    · obtain ⟨len, con, notin⟩ := l2 w hw
      refine ⟨len, by rw [← e1]; exact con, ?_⟩
      intro hmem
      exact notin (by rw [a1]; exact List.mem_append_right _ hmem)
    · exact l1 w hw

theorem Recorded.of_setFlag {g g1 : Game} {r c : Nat} {v : Bool} (player : Player)
    (h : g.setFlag r c v = some g1) : Recorded player g g1 [] := by
  obtain ⟨-, -, -, e, a, rr⟩ := Game.setFlag_dims h
  exact ⟨e, by simpa using rr, by simpa using a, List.nodup_nil, fun _ h => by cases h⟩

theorem Recorded.of_record {g : Game} {word : Word} (player : Player)
    (h : compLegalWord g word = true) : Recorded player g (g.record word player) [word] := by
  unfold compLegalWord Game.played at h
  simp only [ge_iff_le, Bool.and_eq_true, decide_eq_true_eq, Bool.not_eq_true',
    decide_eq_false_iff_not] at h
  refine ⟨rfl, rfl, rfl, List.nodup_singleton _, ?_⟩
  intro w hw
  rw [List.mem_singleton] at hw
  subst hw
  exact ⟨h.1.1, h.1.2, h.2⟩

theorem compCanBeFormedLoop_recorded (player : Player)
    (next : Game → Cube → Word → Option Game)
    (hnext : ∀ g0 n w g1, next g0 n w = some g1 → ∃ new, Recorded player g0 g1 new)
    (c : Cube) (word : Word) :
    ∀ (dirs : List Direction) (g g1 : Game),
      compCanBeFormedLoop next c word dirs g = some g1 → ∃ new, Recorded player g g1 new := by
  intro dirs
  induction dirs with
  | nil =>
    intro g g1 h
    simp only [compCanBeFormedLoop, Option.some.injEq] at h
    exact ⟨[], h ▸ Recorded.none_new player g⟩
  | cons dir rest ih =>
    intro g g1 h
    simp only [compCanBeFormedLoop] at h
    split at h
    · cases h
    · rename_i nextCube hadj
      split at h
      · split at h
        · cases h
        · rename_i ga hset
          split at h
          · cases h
          · rename_i gb hrec
            split at h
            · cases h
            · rename_i gc hclr
              obtain ⟨n1, h1⟩ := hnext _ _ _ _ hrec
              obtain ⟨n2, h2⟩ := ih gc g1 h
              have h3 := ((Recorded.of_setFlag player hset).append h1).append
                (Recorded.of_setFlag player hclr)
              exact ⟨_, h3.append h2⟩
      · exact ih g g1 h

theorem compCanBeFormed_recorded (player : Player) :
    ∀ (fuel : Nat) (g : Game) (c : Cube) (word : Word) (g1 : Game),
      compCanBeFormed fuel g c player word = some g1 → ∃ new, Recorded player g g1 new := by
  intro fuel
  induction fuel with
  | zero => intro g c word g1 h; simp [compCanBeFormed] at h
  | succ fuel ih =>
    intro g c word g1 h
    simp only [compCanBeFormed] at h
    obtain ⟨n2, h2⟩ := compCanBeFormedLoop_recorded player _
      (fun g0 n w g2 hg => ih g0 n w g2 hg) c word _ _ _ h
    by_cases hlegal : compLegalWord g word = true
    · rw [if_pos hlegal] at h2
      exact ⟨_, (Recorded.of_record player hlegal).append h2⟩
    · rw [if_neg hlegal] at h2
      exact ⟨_, h2⟩

theorem computerTurnLoop_recorded (fuel : Nat) :
    ∀ (cs : List Cube) (g g1 : Game),
      computerTurnLoop fuel cs g = some g1 → ∃ new, Recorded Player.COMPUTER g g1 new := by
  intro cs
  induction cs with
  | nil =>
    intro g g1 h
    simp only [computerTurnLoop, Option.some.injEq] at h
    exact ⟨[], h ▸ Recorded.none_new _ g⟩
  | cons c cs ih =>
    intro g g1 h
    simp only [computerTurnLoop] at h
    split at h
    · cases h
    · rename_i ga hset
      split at h
      · cases h
      · rename_i gb hrec
        split at h
        · cases h
        · rename_i gc hclr
          obtain ⟨n1, h1⟩ := compCanBeFormed_recorded _ _ _ _ _ _ hrec
          obtain ⟨n2, h2⟩ := ih gc g1 h
          have h3 := ((Recorded.of_setFlag Player.COMPUTER hset).append h1).append
            (Recorded.of_setFlag Player.COMPUTER hclr)
          exact ⟨_, h3.append h2⟩

/-! ## The depth bound of `compCanBeFormed` -/

theorem compCanBeFormedLoop_mono (next next1 : Game → Cube → Word → Option Game)
    (h : ∀ g n w r, next g n w = some r → next1 g n w = some r) (c : Cube) (word : Word) :
    ∀ (dirs : List Direction) (g r : Game),
      compCanBeFormedLoop next c word dirs g = some r →
      compCanBeFormedLoop next1 c word dirs g = some r := by
  intro dirs
  induction dirs with
  | nil => intro g r hr; exact hr
  | cons dir rest ih =>
    intro g r hr
    simp only [compCanBeFormedLoop] at hr ⊢
    split at hr
    · cases hr
    · rename_i nextCube hadj
      split at hr
      · rename_i hcond
        rw [if_pos hcond]
        split at hr
        · cases hr
        · rename_i ga hset
          split at hr
          · cases hr
          · rename_i gb hrec
            rw [h _ _ _ _ hrec]
            simp only
            split at hr
            · cases hr
            · rename_i gc hclr
              exact ih gc r hr
      · rename_i hcond
        rw [if_neg hcond]
        exact ih g r hr

/-- A result obtained within some depth bound is the result for every larger
bound. -/
theorem compCanBeFormed_fuel_succ (player : Player) :
    ∀ (fuel : Nat) (g : Game) (c : Cube) (word : Word) (r : Game),
      compCanBeFormed fuel g c player word = some r →
      compCanBeFormed (fuel + 1) g c player word = some r := by
  intro fuel
  induction fuel with
  | zero => intro g c word r h; simp [compCanBeFormed] at h
  | succ fuel ih =>
    intro g c word r h
    rw [compCanBeFormed] at h ⊢
    exact compCanBeFormedLoop_mono _ _ (fun g0 n w r0 h0 => ih g0 n w r0 h0) c word _ _ _ h

theorem compCanBeFormed_fuel_add (player : Player) (fuel : Nat) (g : Game) (c : Cube)
    (word : Word) (r : Game) (h : compCanBeFormed fuel g c player word = some r) :
    ∀ k, compCanBeFormed (k + fuel) g c player word = some r := by
  intro k
  induction k with
  | zero => simpa using h
  | succ k ih =>
    have := compCanBeFormed_fuel_succ player (k + fuel) g c word r ih
    rwa [show k + 1 + fuel = k + fuel + 1 by omega]

theorem computerTurnLoop_fuel_add (fuel : Nat) (k : Nat) :
    ∀ (cs : List Cube) (g r : Game), computerTurnLoop fuel cs g = some r →
      computerTurnLoop (k + fuel) cs g = some r := by
  intro cs
  induction cs with
  | nil => intro g r h; exact h
  | cons c cs ih =>
    intro g r h
    simp only [computerTurnLoop] at h ⊢
    split at h
    · cases h
    · rename_i ga hset
      split at h
      · cases h
      · rename_i gb hrec
        rw [compCanBeFormed_fuel_add _ _ _ _ _ _ hrec k]
        simp only
        split at h
        · cases h
        · rename_i gc hclr
          exact ih gc r h

theorem computerTurn_fuel_add {fuel : Nat} {g r : Game} (h : computerTurn fuel g = some r)
    (k : Nat) : computerTurn (k + fuel) g = some r :=
  computerTurnLoop_fuel_add fuel k _ _ _ h

/-! ## `compCanBeFormed` returns within a depth of the number of cubes -/

theorem countP_set_eq (p : Cube → Bool) :
    ∀ (l : List Cube) (i : Nat) (b a : Cube), l[i]? = some b →
      (l.set i a).countP p + (if p b then 1 else 0) = l.countP p + (if p a then 1 else 0) := by
  intro l
  induction l with
  | nil => intro i b a h; simp at h
  | cons x xs ih =>
    intro i b a h
    cases i with
    | zero =>
      simp only [List.getElem?_cons_zero, Option.some.injEq] at h
      subst h
      simp only [List.set_cons_zero, List.countP_cons]
      omega
    | succ i =>
      simp only [List.getElem?_cons_succ] at h
      have := ih i b a h
      simp only [List.set_cons_succ, List.countP_cons]
      omega

theorem Game.unflagged_setFlag {g g1 : Game} {r c : Nat} {v : Bool} {cu : Cube}
    (h : g.setFlag r c v = some g1) (hcu : g.board.get r c = some cu) :
    g1.unflagged + (if cu.flag then 0 else 1) = g.unflagged + (if v then 0 else 1) := by
  obtain ⟨cu1, hcu1, rfl⟩ := Game.setFlag_eq_some.1 h
  rw [hcu] at hcu1; cases hcu1
  have hidx := (Grid.get_eq_some.1 hcu).2.2
  have := countP_set_eq (fun cu => !cu.flag) g.board.elems _ cu { cu with flag := v } hidx
  unfold Game.unflagged
  simp only at this ⊢
  cases hf : cu.flag <;> cases v <;> simp_all

theorem compLegalWord_step_board (g : Game) (word : Word) (player : Player) :
    (if compLegalWord g word = true then g.record word player else g).board = g.board := by
  split <;> rfl

theorem compCanBeFormedLoop_returns (next : Game → Cube → Word → Option Game) (f : Nat)
    (nr nc : Nat)
    (hnext : ∀ g0 n w0, g0.board.WF → g0.board.numRows = nr → g0.board.numCols = nc →
      n.row < nr → n.col < nc → g0.unflagged < f →
      ∃ g1, next g0 n w0 = some g1 ∧ g1.board.WF ∧ g1.board.numRows = nr ∧
        g1.board.numCols = nc ∧ g1.unflagged ≤ g0.unflagged)
    (c : Cube) (hr : c.row < nr) (hc : c.col < nc) (word : Word) :
    ∀ (dirs : List Direction) (g : Game), g.board.WF → g.board.numRows = nr →
      g.board.numCols = nc → g.unflagged ≤ f →
      ∃ g1, compCanBeFormedLoop next c word dirs g = some g1 ∧ g1.board.WF ∧
        g1.board.numRows = nr ∧ g1.board.numCols = nc ∧ g1.unflagged ≤ f := by
  intro dirs
  induction dirs with
  | nil => intro g hwf hnr hnc hu; exact ⟨g, rfl, hwf, hnr, hnc, hu⟩
  | cons dir rest ih =>
    intro g hwf hnr hnc hu
    obtain ⟨cu, hcu⟩ := hwf.get_isSome (hnr ▸ hr) (hnc ▸ hc)
    obtain ⟨n, hadj, hn⟩ := adjacentCube_spec hwf dir hcu
    have hq : ∃ q : Nat × Nat, g.board.get q.1 q.2 = some n := by
      rcases hn with rfl | ⟨q, -, hq⟩
      · exact ⟨(c.row, c.col), hcu⟩
      · exact ⟨q, hq⟩
    obtain ⟨q, hq⟩ := hq
    have hpos := hwf.pos_of_get hq
    have hq1 : g.board.get n.row n.col = some n := by rw [hpos.1, hpos.2]; exact hq
    have hnr1 : n.row < nr := hnr ▸ (Grid.get_eq_some.1 hq1).1
    have hnc1 : n.col < nc := hnc ▸ (Grid.get_eq_some.1 hq1).2.1
    simp only [compCanBeFormedLoop, hadj]
    split
    · rename_i hcond
      have hflag : n.flag = false := by
        simp only [Bool.and_eq_true, Bool.not_eq_true'] at hcond
        exact hcond.1.1.1
      obtain ⟨g1, hg1⟩ := Game.setFlag_isSome true hq1
      have hu1 := Game.unflagged_setFlag hg1 hq1
      rw [hflag] at hu1
      simp only [Bool.false_eq_true, ↓reduceIte] at hu1
      obtain ⟨d1, d2, -⟩ := Game.setFlag_dims hg1
      obtain ⟨g2, hg2, hwf2, hnr2, hnc2, hu2⟩ := hnext g1 n (word ++ [n.letter])
        (Game.setFlag_WF hwf hg1) (d1.trans hnr) (d2.trans hnc) hnr1 hnc1 (by omega)
      obtain ⟨cu2, hcu2⟩ := hwf2.get_isSome (hnr2 ▸ hr) (hnc2 ▸ hc)
      obtain ⟨g3, hg3⟩ := Game.setFlag_isSome false hcu2
      have hu3 := Game.unflagged_setFlag hg3 hcu2
      obtain ⟨e1, e2, -⟩ := Game.setFlag_dims hg3
      have hu3a : g3.unflagged ≤ f := by
        simp only [Bool.false_eq_true, ↓reduceIte] at hu3
        split at hu3 <;> omega
      simp only [hg1, hg2, hg3]
      exact ih g3 (Game.setFlag_WF hwf2 hg3) (e1.trans hnr2) (e2.trans hnc2) hu3a
    · exact ih g hwf hnr hnc hu

theorem compCanBeFormed_returns_of_fuel (player : Player) :
    ∀ (fuel : Nat) (g : Game) (c : Cube) (word : Word), g.board.WF →
      c.row < g.board.numRows → c.col < g.board.numCols → g.unflagged < fuel →
      ∃ g1, compCanBeFormed fuel g c player word = some g1 ∧ g1.board.WF ∧
        g1.board.numRows = g.board.numRows ∧ g1.board.numCols = g.board.numCols ∧
        g1.unflagged ≤ g.unflagged := by
  intro fuel
  induction fuel using Nat.strong_induction_on with
  | _ fuel ih =>
    intro g c word hwf hr hc hu
    cases fuel with
    | zero => omega
    | succ f =>
      rw [compCanBeFormed]
      have hb := compLegalWord_step_board g word player
      have key := compCanBeFormedLoop_returns
        (fun g0 n w => compCanBeFormed f g0 n player w) g.unflagged
        g.board.numRows g.board.numCols
        (fun g0 n w0 hwf0 hnr0 hnc0 hnr hnc hu0 => by
          have hf : g0.unflagged < f := by omega
          obtain ⟨g1, h1, h2, h3, h4, h5⟩ :=
            ih f (Nat.lt_succ_self f) g0 n w0 hwf0 (hnr0 ▸ hnr) (hnc0 ▸ hnc) hf
          exact ⟨g1, h1, h2, h3.trans hnr0, h4.trans hnc0, h5⟩)
        c hr hc word allDirections
        (if compLegalWord g word = true then g.record word player else g)
        (by rw [hb]; exact hwf) (by rw [hb]) (by rw [hb])
        (by unfold Game.unflagged; rw [hb])
      exact key

theorem Game.unflagged_le (g : Game) : g.unflagged ≤ g.board.elems.length :=
  List.countP_le_length _

theorem computerTurnLoop_returns (fuel nr nc : Nat) (hfuel : nr * nc < fuel) :
    ∀ (cs : List Cube) (g : Game), (∀ c ∈ cs, c.row < nr ∧ c.col < nc) → g.board.WF →
      g.board.numRows = nr → g.board.numCols = nc →
      ∃ g1, computerTurnLoop fuel cs g = some g1 ∧ g1.board.WF ∧
        g1.board.numRows = nr ∧ g1.board.numCols = nc := by
  intro cs
  induction cs with
  | nil => intro g _ hwf hnr hnc; exact ⟨g, rfl, hwf, hnr, hnc⟩
  | cons c cs ih =>
    intro g hcs hwf hnr hnc
    obtain ⟨hr, hc⟩ := hcs c (List.mem_cons_self _ _)
    obtain ⟨cu, hcu⟩ := hwf.get_isSome (hnr ▸ hr) (hnc ▸ hc)
    obtain ⟨g1, hg1⟩ := Game.setFlag_isSome true hcu
    obtain ⟨d1, d2, -⟩ := Game.setFlag_dims hg1
    have hwf1 := Game.setFlag_WF hwf hg1
    have hu1 : g1.unflagged < fuel := by
      have := g1.unflagged_le
      rw [hwf1.1, d1, d2, hnr, hnc] at this
      omega
    obtain ⟨g2, hg2, hwf2, hnr2, hnc2, -⟩ := compCanBeFormed_returns_of_fuel Player.COMPUTER
      fuel g1 c [c.letter] hwf1 (by rw [d1, hnr]; exact hr) (by rw [d2, hnc]; exact hc) hu1
    obtain ⟨cu2, hcu2⟩ := hwf2.get_isSome (by rw [hnr2, d1, hnr]; exact hr)
      (by rw [hnc2, d2, hnc]; exact hc)
    obtain ⟨g3, hg3⟩ := Game.setFlag_isSome false hcu2
    obtain ⟨e1, e2, -⟩ := Game.setFlag_dims hg3
    simp only [computerTurnLoop, hg1, hg2, hg3]
    exact ih g3 (fun c1 h1 => hcs c1 (List.mem_cons_of_mem _ h1)) (Game.setFlag_WF hwf2 hg3)
      (by rw [e1, hnr2, d1, hnr]) (by rw [e2, hnc2, d2, hnc])

/-- On a well-formed board `computerTurn` returns as soon as the depth bound
exceeds the number of cubes. -/
theorem computerTurn_returns {g : Game} (hwf : g.board.WF) {fuel : Nat}
    (hfuel : g.board.numRows * g.board.numCols < fuel) :
    ∃ g1, computerTurn fuel g = some g1 := by
  obtain ⟨g1, h, -⟩ := computerTurnLoop_returns fuel _ _ hfuel g.board.elems g
    (fun c hc => by
      have := Grid.get_eq_some.1 (hwf.get_of_mem hc)
      exact ⟨this.1, this.2.1⟩) hwf rfl rfl
  exact ⟨g1, h⟩

/-! ## Claims about `computerTurn` and `compCanBeFormed` -/

/-- C4 (the code fails the claim): on the 4 x 4 board `STXX / OPXX / XXXX /
XXXX` without flags, with the word list STOP, SPOT (every beginning of a
contained word is reported by `containsPrefix`) and nothing played, the word
SPOT has four letters, is in the word list and is spelled by the simple path
(0,0), (1,1), (1,0), (0,1), but after `computerTurn`, for every depth bound
that lets it finish, the played words are STOP alone. -/
theorem computerTurn_misses_word (k : Nat) :
    boardSTOP.WF ∧ boardSTOP.AllClear ∧
    (∀ w, gameSTOP.english.contains w = true →
      ∀ n, gameSTOP.english.containsPrefix (w.take n) = true) ∧
    gameSTOP.english.contains "SPOT".data = true ∧
    SpellsPath boardSTOP [(0, 0), (1, 1), (1, 0), (0, 1)] "SPOT".data ∧
    (computerTurn (k + 5) gameSTOP).map Game.alreadyPlayed = some ["STOP".data] := by
  refine ⟨by decide, by decide, ?_, by decide, by decide, ?_⟩
  · intro w hw n
    have hmem : w = "STOP".data ∨ w = "SPOT".data := by
      simpa [gameSTOP, lexiconOf] using hw
    have h : ∀ m, m < 5 → gameSTOP.english.containsPrefix ("STOP".data.take m) = true ∧
        gameSTOP.english.containsPrefix ("SPOT".data.take m) = true := by
      decide
    have hlen : w.length = 4 := by
      rcases hmem with rfl | rfl <;> rfl
    have htake : w.take n = w.take (min n 4) := by
      rw [List.take_eq_take]
      omega
    rw [htake]
    have hlt : min n 4 < 5 := by omega
    rcases hmem with rfl | rfl
    · exact (h _ hlt).1
    · exact (h _ hlt).2
  · have h5 : ∃ r, computerTurn 5 gameSTOP = some r ∧ r.alreadyPlayed = ["STOP".data] :=
      ⟨_, rfl, by decide⟩
    obtain ⟨r, hr, hp⟩ := h5
    rw [computerTurn_fuel_add hr k]
    simp [hp]

theorem boardTSEA_letter_T (p : Nat × Nat) (h : boardTSEA.letterAt p = some 'T') :
    p = (0, 0) := by
  obtain ⟨r, c⟩ := p
  unfold Grid.letterAt Grid.get at h
  simp only at h
  split at h
  · rename_i hin
    have hr : r < 4 := hin.1
    have hc : c < 4 := hin.2
    interval_cases r <;> interval_cases c <;> first | rfl | (exact absurd h (by decide))
  · cases h

/-- C5 (the code fails the claim): on the 4 x 4 board `TSXX / EAXX / XXXX /
XXXX` without flags, with the word list TEST, TSAR and nothing played,
`computerTurn` records the word TEST for the computer, for every depth bound
that lets it finish, although the board has a single T, so that no simple path
spells TEST: the search stepped back onto the cube it started from. -/
theorem computerTurn_records_untraceable (k : Nat) :
    boardTSEA.WF ∧ boardTSEA.AllClear ∧
    (computerTurn (k + 5) gameTSEA).map Game.recorded =
      some [("TEST".data, Player.COMPUTER)] ∧
    ¬ Traceable boardTSEA "TEST".data := by
  refine ⟨by decide, by decide, ?_, ?_⟩
  · have h5 : ∃ r, computerTurn 5 gameTSEA = some r ∧
        r.recorded = [("TEST".data, Player.COMPUTER)] := ⟨_, rfl, by decide⟩
    obtain ⟨r, hr, hp⟩ := h5
    rw [computerTurn_fuel_add hr k]
    simp [hp]
  · rintro ⟨ps, hnodup, -, hmap⟩
    have hlen : ps.length = 4 := by
      have := congrArg List.length hmap
      simpa using this
    match ps, hlen with
    | [p0, p1, p2, p3], _ =>
      simp only [List.map_cons, List.map_nil] at hmap
      have h0 : boardTSEA.letterAt p0 = some 'T' := by
        have := (List.cons.inj hmap).1
        exact this
      have h3 : boardTSEA.letterAt p3 = some 'T' := by
        have := (List.cons.inj (List.cons.inj (List.cons.inj (List.cons.inj hmap).2).2).2).1
        exact this
      have e0 := boardTSEA_letter_T p0 h0
      have e3 := boardTSEA_letter_T p3 h3
      subst e0; subst e3
      simp at hnodup

/-- C6: whatever `compCanBeFormed` records during a call, and whatever
`computerTurn` records, is a word of at least four letters that the word list
contains and that was not among the played words when the call began.  (On a
well-formed board both do return once the depth bound exceeds the number of
cubes, so this covers every run.) -/
theorem enumerate_records_legal (fuel : Nat) (g g1 : Game) :
    (∀ c player word, compCanBeFormed fuel g c player word = some g1 →
      ∃ new : List Word, g1.recorded = new.map (fun w => (w, player)) ++ g.recorded ∧
        ∀ w ∈ new, 4 ≤ w.length ∧ g.english.contains w = true ∧ w ∉ g.alreadyPlayed) ∧
    (computerTurn fuel g = some g1 →
      ∃ new : List Word,
        g1.recorded = new.map (fun w => (w, Player.COMPUTER)) ++ g.recorded ∧
        ∀ w ∈ new, 4 ≤ w.length ∧ g.english.contains w = true ∧ w ∉ g.alreadyPlayed) ∧
    (g.board.WF → g.board.numRows * g.board.numCols < fuel →
      (∃ g2, computerTurn fuel g = some g2) ∧
      ∀ c player word, c.row < g.board.numRows → c.col < g.board.numCols →
        ∃ g2, compCanBeFormed fuel g c player word = some g2) := by
  refine ⟨?_, ?_, ?_⟩
  · intro c player word h
    obtain ⟨new, hnew⟩ := compCanBeFormed_recorded player fuel g c word g1 h
    exact ⟨new, hnew.2.1, hnew.2.2.2.2⟩
  · intro h
    obtain ⟨new, hnew⟩ := computerTurnLoop_recorded fuel _ g g1 h
    exact ⟨new, hnew.2.1, hnew.2.2.2.2⟩
  · intro hwf hfuel
    refine ⟨computerTurn_returns hwf hfuel, ?_⟩
    intro c player word hr hc
    have hu : g.unflagged < fuel := by
      have := g.unflagged_le
      rw [hwf.1] at this
      omega
    obtain ⟨g2, h2, -⟩ := compCanBeFormed_returns_of_fuel player fuel g c word hwf hr hc hu
    exact ⟨g2, h2⟩

/-- Witness of C6: `computerTurn` on the board `STXX / OPXX / XXXX / XXXX`
with the word list STOP, POTS. -/
theorem enumerate_records_legal_witness :
    ∃ g1, computerTurn 17 gamePOTS = some g1 ∧
      ∃ new : List Word,
        g1.recorded = new.map (fun w => (w, Player.COMPUTER)) ++ gamePOTS.recorded ∧
        ∀ w ∈ new, 4 ≤ w.length ∧ gamePOTS.english.contains w = true ∧
          w ∉ gamePOTS.alreadyPlayed :=
  match ((enumerate_records_legal 17 gamePOTS gamePOTS).2.2 (by decide) (by decide)).1 with
  | ⟨g1, h1⟩ => ⟨g1, h1, (enumerate_records_legal 17 gamePOTS g1).2.1 h1⟩

/-- C7 (the code fails the claim): on the 4 x 4 board `STXX / OPXX / XXXX /
XXXX` with the word list STOP, POTS, when `computerTurn` has set the flag of
the first cube and calls `compCanBeFormed` on it, the only flag set before the
call is that of (0,0) and the only flag set after the call is that of (1,1);
and `computerTurn` on the board without flags ends with the flag of (0,0)
set.  This holds for every depth bound that lets the search finish. -/
theorem compCanBeFormed_leaves_flags (k : Nat) :
    (gamePOTS.setFlag 0 0 true = some gamePOTSstart ∧
      gamePOTSstart.flagged = [(0, 0)] ∧
      (compCanBeFormed (k + 5) gamePOTSstart ⟨false, 'S', 0, 0⟩ Player.COMPUTER ['S']).map
        Game.flagged = some [(1, 1)]) ∧
    boardSTOP.AllClear ∧
    (computerTurn (k + 5) gamePOTS).map Game.flagged = some [(0, 0)] := by
  refine ⟨⟨rfl, by decide, ?_⟩, by decide, ?_⟩
  · have h5 : ∃ r, compCanBeFormed 5 gamePOTSstart ⟨false, 'S', 0, 0⟩ Player.COMPUTER ['S']
        = some r ∧ r.flagged = [(1, 1)] := ⟨_, rfl, by decide⟩
    obtain ⟨r, hr, hp⟩ := h5
    rw [compCanBeFormed_fuel_add _ _ _ _ _ _ hr k]
    simp [hp]
  · have h5 : ∃ r, computerTurn 5 gamePOTS = some r ∧
        r.flagged = [(0, 0)] := ⟨_, rfl, by decide⟩
    obtain ⟨r, hr, hp⟩ := h5
    rw [computerTurn_fuel_add hr k]
    simp [hp]

/-! ## Claims about `humanTurn` -/

theorem humanTurnStep_cases (g : Game) (input : Word) :
    humanTurnStep g input =
      if (toUpperCase input).length < 4 then some (Outcome.TooShort, g)
      else if g.english.contains (toUpperCase input) = false then some (Outcome.NotAWord, g)
      else if toUpperCase input ∈ g.alreadyPlayed then some (Outcome.AlreadyClaimed, g)
      else
        match isLegal g (toUpperCase input) with
        | none => none
        | some (false, g1) => some (Outcome.NotFormable, g1)
        | some (true, g1) =>
          some (Outcome.Accepted, g1.record (toUpperCase input) Player.HUMAN) := by
  unfold humanTurnStep Game.played
  simp only [Bool.not_eq_true', decide_eq_true_eq]

/-- C9: for a non-empty line, with `w` its upper-case form, the loop of
`humanTurn` says TooShort exactly when `w` has fewer than four letters,
NotAWord exactly when it has four and the word list does not contain `w`,
AlreadyClaimed exactly when also the word list contains `w` and `w` has been
played, NotFormable exactly when the three checks pass and `isLegal` returns
false, and records the word exactly when they pass and `isLegal` returns true;
with one of the first three outcomes the game (board included) is handed back
as it was; on a well-formed board one of the five outcomes is produced. -/
theorem humanTurn_validation_order (g : Game) (input : Word) (hne : input ≠ []) :
    (∀ rest, humanTurn g (input :: rest) =
      match humanTurnStep g input with
      | none => none
      | some (_, g1) => humanTurn g1 rest) ∧
    ((∃ g1, humanTurnStep g input = some (Outcome.TooShort, g1)) ↔
      (toUpperCase input).length < 4) ∧
    ((∃ g1, humanTurnStep g input = some (Outcome.NotAWord, g1)) ↔
      4 ≤ (toUpperCase input).length ∧ g.english.contains (toUpperCase input) = false) ∧
    ((∃ g1, humanTurnStep g input = some (Outcome.AlreadyClaimed, g1)) ↔
      4 ≤ (toUpperCase input).length ∧ g.english.contains (toUpperCase input) = true ∧
        toUpperCase input ∈ g.alreadyPlayed) ∧
    ((∃ g1, humanTurnStep g input = some (Outcome.NotFormable, g1)) ↔
      4 ≤ (toUpperCase input).length ∧ g.english.contains (toUpperCase input) = true ∧
        toUpperCase input ∉ g.alreadyPlayed ∧
        ∃ g2, isLegal g (toUpperCase input) = some (false, g2)) ∧
    ((∃ g1, humanTurnStep g input = some (Outcome.Accepted, g1)) ↔
      4 ≤ (toUpperCase input).length ∧ g.english.contains (toUpperCase input) = true ∧
        toUpperCase input ∉ g.alreadyPlayed ∧
        ∃ g2, isLegal g (toUpperCase input) = some (true, g2)) ∧
    (∀ o g1, humanTurnStep g input = some (o, g1) →
      o = Outcome.TooShort ∨ o = Outcome.NotAWord ∨ o = Outcome.AlreadyClaimed → g1 = g) ∧
    (g.board.WF → ∃ o g1, humanTurnStep g input = some (o, g1)) := by
  refine ⟨fun rest => by simp [humanTurn, hne], ?_⟩
  rw [humanTurnStep_cases]
  by_cases h1 : (toUpperCase input).length < 4
  · simp [h1]
  · have h1a : 4 ≤ (toUpperCase input).length := by omega
    rw [if_neg h1]
    by_cases h2 : g.english.contains (toUpperCase input) = false
    · simp [h1, h1a, h2]
    · rw [if_neg h2]
      have h2a : g.english.contains (toUpperCase input) = true := by simpa using h2
      by_cases h3 : toUpperCase input ∈ g.alreadyPlayed
      · simp [h1, h1a, h2a, h3]
      · rw [if_neg h3]
        have hw : toUpperCase input ≠ [] := by
          intro h; rw [h] at h1a; simp at h1a
        cases hleg : isLegal g (toUpperCase input) with
        | none =>
          simp only [h1, h1a, h2a, h3]
          simp
          intro hwf
          obtain ⟨r, g1, hr⟩ := isLegal_returns (g := g) hwf hw
          rw [hleg] at hr
          cases hr
        | some p =>
          obtain ⟨r, g2⟩ := p
          cases r <;> simp [h1, h1a, h2a, h3]

/-- Witness of C9: the line `abcd` on the board `A B / C D` is accepted. -/
theorem humanTurn_validation_order_witness :
    ∃ g1, humanTurnStep gameABCD "abcd".data = some (Outcome.Accepted, g1) :=
  (humanTurn_validation_order gameABCD "abcd".data (by decide)).2.2.2.2.2.1.2
    ⟨by decide, by decide, by decide, gameABCD, rfl⟩

theorem humanTurnStep_accepted {g g1 : Game} {input : Word}
    (h : humanTurnStep g input = some (Outcome.Accepted, g1)) :
    4 ≤ (toUpperCase input).length ∧ g.english.contains (toUpperCase input) = true ∧
      ∃ g2, FlagsCleared g g2 ∧ g1 = g2.record (toUpperCase input) Player.HUMAN := by
  rw [humanTurnStep_cases] at h
  split at h
  · cases h
  · rename_i h1
    split at h
    · cases h
    · rename_i h2
      split at h
      · cases h
      · split at h
        · cases h
        · cases h
        · rename_i g2 hleg
          simp only [Option.some.injEq, Prod.mk.injEq, true_and] at h
          exact ⟨by omega, by simpa using h2, g2, isLegal_flagsCleared hleg, h.symm⟩

/-- C10: when a guess is accepted its upper-case form is among the played
words afterwards, and in every later state of the round (same word list,
no played word removed) a line with the same upper-case form is answered
AlreadyClaimed and leaves the game, the played words included, as it is. -/
theorem accepted_word_is_claimed (g g1 : Game) (input : Word)
    (h : humanTurnStep g input = some (Outcome.Accepted, g1)) :
    toUpperCase input ∈ g1.alreadyPlayed ∧
    ∀ (g2 : Game) (input2 : Word), g2.english = g1.english →
      (∀ w ∈ g1.alreadyPlayed, w ∈ g2.alreadyPlayed) →
      toUpperCase input2 = toUpperCase input →
      humanTurnStep g2 input2 = some (Outcome.AlreadyClaimed, g2) := by
  obtain ⟨hlen, hcon, g0, hfc, rfl⟩ := humanTurnStep_accepted h
  have hmem : toUpperCase input ∈ (g0.record (toUpperCase input) Player.HUMAN).alreadyPlayed :=
    List.mem_cons_self _ _
  refine ⟨hmem, ?_⟩
  intro g2 input2 heng hsub hup
  have heng2 : g2.english = g.english := heng.trans hfc.1
  rw [humanTurnStep_cases, hup, heng2]
  have h1 : ¬ (toUpperCase input).length < 4 := by omega
  have h2 : ¬ g.english.contains (toUpperCase input) = false := by simp [hcon]
  rw [if_neg h1, if_neg h2, if_pos (hsub _ hmem)]

/-- Witness of C10: on the board `A B / C D` the line `abcd` is accepted, and
the line `ABCD` after it is answered AlreadyClaimed. -/
theorem accepted_word_is_claimed_witness :
    humanTurnStep gameABCD "abcd".data =
      some (Outcome.Accepted, gameABCD.record "ABCD".data Player.HUMAN) ∧
    humanTurnStep (gameABCD.record "ABCD".data Player.HUMAN) "ABCD".data =
      some (Outcome.AlreadyClaimed, gameABCD.record "ABCD".data Player.HUMAN) :=
  ⟨rfl, (accepted_word_is_claimed gameABCD (gameABCD.record "ABCD".data Player.HUMAN)
    "abcd".data rfl).2 _ "ABCD".data rfl (fun _ hw => hw) (by decide)⟩

/-! ## Claims about `adjacentCube`, the guard of `isLegal` and the extension rule -/

theorem Grid.get_isSome_of_length {b : Grid} (hlen : b.elems.length = b.numRows * b.numCols)
    {r c : Nat} (hr : r < b.numRows) (hc : c < b.numCols) : ∃ cu, b.get r c = some cu := by
  have hidx : r * b.numCols + c < b.elems.length := by
    rw [hlen]
    calc r * b.numCols + c < r * b.numCols + b.numCols := by omega
      _ = (r + 1) * b.numCols := by rw [Nat.add_mul, Nat.one_mul]
      _ ≤ b.numRows * b.numCols := Nat.mul_le_mul_right _ hr
  exact ⟨b.elems[r * b.numCols + c], Grid.get_eq_some.2 ⟨hr, hc, List.getElem?_eq_getElem hidx⟩⟩

/-- C14: on a grid (holding `numRows * numCols` cubes), for a position inside
it and each of the eight directions, `adjacentCube` returns the cube stored
one offset away when that position is inside the grid and the cube at the
position itself otherwise; the cube it returns is stored inside the grid, at
most one row and one column away. -/
theorem adjacentCube_offsets (g : Game) (dir : Direction) (row col : Nat)
    (hlen : g.board.elems.length = g.board.numRows * g.board.numCols)
    (hr : row < g.board.numRows) (hc : col < g.board.numCols) :
    ∃ (r1 c1 : Nat) (cu : Cube), adjacentCube g dir row col = some cu ∧
      g.board.get r1 c1 = some cu ∧ r1 < g.board.numRows ∧ c1 < g.board.numCols ∧
      (r1 ≤ row + 1 ∧ row ≤ r1 + 1 ∧ c1 ≤ col + 1 ∧ col ≤ c1 + 1) ∧
      (g.board.inside (row + dir.offset.1) (col + dir.offset.2) →
        (r1 : Int) = row + dir.offset.1 ∧ (c1 : Int) = col + dir.offset.2) ∧
      (¬ g.board.inside (row + dir.offset.1) (col + dir.offset.2) → r1 = row ∧ c1 = col) := by
  obtain ⟨c2, hc2⟩ := Grid.get_isSome_of_length hlen hr hc
  have self : ¬ g.board.inside (row + dir.offset.1) (col + dir.offset.2) →
      adjacentCube g dir row col = some c2 →
      ∃ (r1 c1 : Nat) (cu : Cube), adjacentCube g dir row col = some cu ∧
      g.board.get r1 c1 = some cu ∧ r1 < g.board.numRows ∧ c1 < g.board.numCols ∧
      (r1 ≤ row + 1 ∧ row ≤ r1 + 1 ∧ c1 ≤ col + 1 ∧ col ≤ c1 + 1) ∧
      (g.board.inside (row + dir.offset.1) (col + dir.offset.2) →
        (r1 : Int) = row + dir.offset.1 ∧ (c1 : Int) = col + dir.offset.2) ∧
      (¬ g.board.inside (row + dir.offset.1) (col + dir.offset.2) → r1 = row ∧ c1 = col) :=
    fun hout h => ⟨row, col, c2, h, hc2, hr, hc, ⟨by omega, by omega, by omega, by omega⟩,
      fun hin => absurd hin hout, fun _ => ⟨rfl, rfl⟩⟩
  have step : ∀ r1 c1 : Nat, r1 < g.board.numRows → c1 < g.board.numCols →
      (r1 : Int) = row + dir.offset.1 → (c1 : Int) = col + dir.offset.2 →
      adjacentCube g dir row col = g.board.get r1 c1 →
      ∃ (r1 c1 : Nat) (cu : Cube), adjacentCube g dir row col = some cu ∧
      g.board.get r1 c1 = some cu ∧ r1 < g.board.numRows ∧ c1 < g.board.numCols ∧
      (r1 ≤ row + 1 ∧ row ≤ r1 + 1 ∧ c1 ≤ col + 1 ∧ col ≤ c1 + 1) ∧
      (g.board.inside (row + dir.offset.1) (col + dir.offset.2) →
        (r1 : Int) = row + dir.offset.1 ∧ (c1 : Int) = col + dir.offset.2) ∧
      (¬ g.board.inside (row + dir.offset.1) (col + dir.offset.2) → r1 = row ∧ c1 = col) := by
    intro r1 c1 h1 h2 e1 e2 h
    obtain ⟨cu, hcu⟩ := Grid.get_isSome_of_length hlen h1 h2
    have hoff : -1 ≤ dir.offset.1 ∧ dir.offset.1 ≤ 1 ∧ -1 ≤ dir.offset.2 ∧ dir.offset.2 ≤ 1 := by
      cases dir <;> simp [Direction.offset]
    refine ⟨r1, c1, cu, h.trans hcu, hcu, h1, h2, ⟨by omega, by omega, by omega, by omega⟩,
      fun _ => ⟨e1, e2⟩, fun hout => absurd ?_ hout⟩
    unfold Grid.inside
    omega
  by_cases hin : g.board.inside (row + dir.offset.1) (col + dir.offset.2)
  · unfold Grid.inside at hin
    cases dir
    all_goals
      simp only [Direction.offset] at hin step
      first
      | exact step (row - 1) (col - 1) (by omega) (by omega) (by omega) (by omega)
          (by unfold adjacentCube; rw [hc2]; simp only; rw [if_pos (by omega)])
      | exact step (row - 1) col (by omega) (by omega) (by omega) (by omega)
          (by unfold adjacentCube; rw [hc2]; simp only; rw [if_pos (by omega)])
      | exact step (row - 1) (col + 1) (by omega) (by omega) (by omega) (by omega)
          (by unfold adjacentCube; rw [hc2]; simp only; rw [if_pos (by omega)])
      | exact step row (col + 1) (by omega) (by omega) (by omega) (by omega)
          (by unfold adjacentCube; rw [hc2]; simp only; rw [if_pos (by omega)])
      | exact step (row + 1) (col + 1) (by omega) (by omega) (by omega) (by omega)
          (by unfold adjacentCube; rw [hc2]; simp only; rw [if_pos (by omega)])
      | exact step (row + 1) col (by omega) (by omega) (by omega) (by omega)
          (by unfold adjacentCube; rw [hc2]; simp only; rw [if_pos (by omega)])
      | exact step (row + 1) (col - 1) (by omega) (by omega) (by omega) (by omega)
          (by unfold adjacentCube; rw [hc2]; simp only; rw [if_pos (by omega)])
      | exact step row (col - 1) (by omega) (by omega) (by omega) (by omega)
          (by unfold adjacentCube; rw [hc2]; simp only; rw [if_pos (by omega)])
  · refine self hin ?_
    unfold Grid.inside at hin
    cases dir
    all_goals
      simp only [Direction.offset] at hin
      unfold adjacentCube
      rw [hc2]
      simp only
      rw [if_neg (by omega)]

/-- Witness of C14: the North-west step from the corner (0,0) of the board
`A B / C D` leaves the grid, the South-east step does not. -/
theorem adjacentCube_offsets_witness :
    (∃ (r1 c1 : Nat) (cu : Cube), adjacentCube gameABCD Direction.Northwest 0 0 = some cu ∧
      gameABCD.board.get r1 c1 = some cu ∧ r1 < gameABCD.board.numRows ∧
      c1 < gameABCD.board.numCols ∧
      (r1 ≤ 0 + 1 ∧ 0 ≤ r1 + 1 ∧ c1 ≤ 0 + 1 ∧ 0 ≤ c1 + 1) ∧
      (gameABCD.board.inside ((0 : Nat) + Direction.Northwest.offset.1)
          ((0 : Nat) + Direction.Northwest.offset.2) →
        (r1 : Int) = (0 : Nat) + Direction.Northwest.offset.1 ∧
        (c1 : Int) = (0 : Nat) + Direction.Northwest.offset.2) ∧
      (¬ gameABCD.board.inside ((0 : Nat) + Direction.Northwest.offset.1)
          ((0 : Nat) + Direction.Northwest.offset.2) → r1 = 0 ∧ c1 = 0)) ∧
    adjacentCube gameABCD Direction.Northwest 0 0 = some ⟨false, 'A', 0, 0⟩ ∧
    adjacentCube gameABCD Direction.Southeast 0 0 = some ⟨false, 'D', 1, 1⟩ :=
  ⟨adjacentCube_offsets gameABCD Direction.Northwest 0 0 (by decide) (by decide) (by decide),
    by decide, by decide⟩

/-- C15: when the word list reports no word beginning with the first two
letters of the word, `isLegal` answers false and hands back the game it
received: the loop over the cubes is not entered, whatever the board. -/
theorem isLegal_prefix_short_circuit (g : Game) (w : Word)
    (h : g.english.containsPrefix (w.take 2) = false) :
    isLegal g w = some (false, g) := by
  unfold isLegal
  simp [h]

/-- Witness of C15: the word `AB` can be traced on the board `A B / C D`, and
with a word list without words `isLegal` answers false for it. -/
theorem isLegal_prefix_short_circuit_witness :
    Traceable boardABCD "AB".data ∧
    isLegal ⟨boardABCD, noWord, [], []⟩ "AB".data = some (false, ⟨boardABCD, noWord, [], []⟩) :=
  ⟨⟨[(0, 0), (0, 1)], by decide⟩,
    isLegal_prefix_short_circuit ⟨boardABCD, noWord, [], []⟩ "AB".data rfl⟩

/-- One round of the direction loop of `compCanBeFormed`, for the cube `c`, the
word `word` and a direction whose neighbour is `n`: the loop sets the flag of
`n`, recurses into `n` with the word extended by the letter of `n` and then
clears the flag at `c` exactly when the four conjuncts of the condition at
line 385 hold, one of which is that the extended word is not among the played
words; otherwise it goes on to the next direction with the game as it is. -/
theorem compCanBeFormedLoop_round (next : Game → Cube → Word → Option Game) (g : Game)
    (c n : Cube) (word : Word) (dir : Direction) (rest : List Direction)
    (hadj : adjacentCube g dir c.row c.col = some n) :
    ((n.flag = false ∧ inSameLocation n c = false ∧
        g.english.containsPrefix (word ++ [n.letter]) = true ∧
        word ++ [n.letter] ∉ g.alreadyPlayed) →
      compCanBeFormedLoop next c word (dir :: rest) g =
        (g.setFlag n.row n.col true).bind (fun g1 =>
          (next g1 n (word ++ [n.letter])).bind (fun g2 =>
            (g2.setFlag c.row c.col false).bind (fun g3 =>
              compCanBeFormedLoop next c word rest g3)))) ∧
    (¬ (n.flag = false ∧ inSameLocation n c = false ∧
        g.english.containsPrefix (word ++ [n.letter]) = true ∧
        word ++ [n.letter] ∉ g.alreadyPlayed) →
      compCanBeFormedLoop next c word (dir :: rest) g =
        compCanBeFormedLoop next c word rest g) ∧
    (compCanBeFormedLoop noRecursion c word [dir] g = none ↔
      (n.flag = false ∧ inSameLocation n c = false ∧
        g.english.containsPrefix (word ++ [n.letter]) = true ∧
        word ++ [n.letter] ∉ g.alreadyPlayed)) ∧
    (∀ fuel player, compCanBeFormed (fuel + 1) g c player word =
      compCanBeFormedLoop (fun g0 n0 w0 => compCanBeFormed fuel g0 n0 player w0) c word
        allDirections (if compLegalWord g word = true then g.record word player else g)) := by
  have hcond : ((!n.flag && g.english.containsPrefix (word ++ [n.letter]) &&
        !g.played (word ++ [n.letter]) && !inSameLocation n c) = true) ↔
      (n.flag = false ∧ inSameLocation n c = false ∧
        g.english.containsPrefix (word ++ [n.letter]) = true ∧
        word ++ [n.letter] ∉ g.alreadyPlayed) := by
    unfold Game.played
    simp only [Bool.and_eq_true, Bool.not_eq_true', decide_eq_false_iff_not]
    tauto
  refine ⟨?_, ?_, ?_, fun fuel player => rfl⟩
  · intro h
    simp only [compCanBeFormedLoop, hadj]
    rw [if_pos (hcond.2 h)]
    cases h1 : g.setFlag n.row n.col true with
    | none => rfl
    | some g1 =>
      cases h2 : next g1 n (word ++ [n.letter]) with
      | none => simp [h2]
      | some g2 =>
        cases h3 : g2.setFlag c.row c.col false with
        | none => simp [h2, h3]
        | some g3 => simp [h2, h3]
  · intro h
    simp only [compCanBeFormedLoop, hadj]
    rw [if_neg (fun hc => h (hcond.1 hc))]
  · simp only [compCanBeFormedLoop, hadj]
    constructor
    · intro h
      by_contra hn
      rw [if_neg (fun hc => hn (hcond.1 hc))] at h
      cases h
    · intro h
      rw [if_pos (hcond.2 h)]
      cases h1 : g.setFlag n.row n.col true with
      | none => rfl
      | some g1 => simp [noRecursion]

/-- C16 (the code fails the claim): on the 4 x 4 board `STXX / OPSX / XXXX /
XXXX` without flags, with the word list STOP, STOPS (every beginning of a
contained word is reported by `containsPrefix`), once the human has played
STOP, the word STOPS has five letters, is in the word list, has not been
played and is spelled by the simple path (0,0), (0,1), (1,0), (1,1), (1,2);
but after `computerTurn`, for every depth bound that lets it finish, the
played words are STOP alone.  With nothing played the same search records
STOP and then STOPS.  The extension that is not made is the one at the cube
O (1,0) with the word STO towards the East: the neighbour P (1,1) is not
flagged, is not at the location of O, and the word list reports STOP as the
beginning of a word, yet the loop makes no recursive call for it, because
STOP is among the played words. -/
theorem computerTurn_misses_claimed_extension (k : Nat) :
    boardSTOPS.WF ∧ boardSTOPS.AllClear ∧
    (∀ n, gameSTOPSclaimed.english.containsPrefix ("STOPS".data.take n) = true) ∧
    compLegalWord gameSTOPSclaimed "STOPS".data = true ∧
    SpellsPath boardSTOPS [(0, 0), (0, 1), (1, 0), (1, 1), (1, 2)] "STOPS".data ∧
    (computerTurn (k + 5) gameSTOPSclaimed).map Game.alreadyPlayed = some ["STOP".data] ∧
    (computerTurn (k + 5) gameSTOPSfresh).map Game.alreadyPlayed =
      some ["STOPS".data, "STOP".data] ∧
    (adjacentCube gameSTOPS Direction.East 1 0 = some ⟨false, 'P', 1, 1⟩ ∧
      inSameLocation ⟨false, 'P', 1, 1⟩ ⟨true, 'O', 1, 0⟩ = false ∧
      gameSTOPS.english.containsPrefix "STOP".data = true ∧
      gameSTOPS.played "STOP".data = true ∧
      (compCanBeFormedLoop noRecursion ⟨true, 'O', 1, 0⟩ "STO".data [Direction.East]
        gameSTOPS).isSome = true) := by
  refine ⟨by decide, by decide, ?_, by decide, by decide, ?_, ?_, by decide⟩
  · intro n
    have h : ∀ m, m < 6 →
        gameSTOPSclaimed.english.containsPrefix ("STOPS".data.take m) = true := by
      decide
    have htake : "STOPS".data.take n = "STOPS".data.take (min n 5) := by
      rw [List.take_eq_take]
      have : "STOPS".data.length = 5 := rfl
      omega
    rw [htake]
    exact h _ (by omega)
  · have h5 : ∃ r, computerTurn 5 gameSTOPSclaimed = some r ∧
        r.alreadyPlayed = ["STOP".data] :=
      ⟨_, rfl, by decide⟩
    obtain ⟨r, hr, hp⟩ := h5
    rw [computerTurn_fuel_add hr k]
    simp [hp]
  · have h5 : ∃ r, computerTurn 5 gameSTOPSfresh = some r ∧
        r.alreadyPlayed = ["STOPS".data, "STOP".data] :=
      ⟨_, rfl, by decide⟩
    obtain ⟨r, hr, hp⟩ := h5
    rw [computerTurn_fuel_add hr k]
    simp [hp]

/-! ## No word is recorded twice -/

theorem humanTurnStep_effect {g g1 : Game} {input : Word} {o : Outcome}
    (h : humanTurnStep g input = some (o, g1)) :
    ∃ g0, FlagsCleared g g0 ∧
      (g1 = g0 ∨ (toUpperCase input ∉ g.alreadyPlayed ∧
        g1 = g0.record (toUpperCase input) Player.HUMAN)) := by
  rw [humanTurnStep_cases] at h
  split at h
  · cases h; exact ⟨g, FlagsCleared.refl g, Or.inl rfl⟩
  · split at h
    · cases h; exact ⟨g, FlagsCleared.refl g, Or.inl rfl⟩
    · split at h
      · cases h; exact ⟨g, FlagsCleared.refl g, Or.inl rfl⟩
      · rename_i hnot
        split at h
        · cases h
        · rename_i g2 hleg
          cases h
          exact ⟨g1, isLegal_flagsCleared hleg, Or.inl rfl⟩
        · rename_i g2 hleg
          cases h
          exact ⟨g2, isLegal_flagsCleared hleg, Or.inr ⟨hnot, rfl⟩⟩

theorem humanTurnStep_returns {g : Game} (hwf : g.board.WF) (input : Word) :
    ∃ o g1, humanTurnStep g input = some (o, g1) := by
  rw [humanTurnStep_cases]
  split
  · exact ⟨_, _, rfl⟩
  · rename_i h1
    split
    · exact ⟨_, _, rfl⟩
    · split
      · exact ⟨_, _, rfl⟩
      · have hw : toUpperCase input ≠ [] := by
          intro h; rw [h] at h1; simp at h1
        obtain ⟨r, g1, hr⟩ := isLegal_returns (g := g) hwf hw
        rw [hr]
        cases r
        · exact ⟨_, _, rfl⟩
        · exact ⟨_, _, rfl⟩

theorem Tally.of_flagsCleared {g g0 : Game} (h : FlagsCleared g g0) (ht : Tally g) :
    Tally g0 := by
  unfold Tally
  rw [h.2.1, h.2.2.1]
  exact ht

theorem Tally.of_recordCall {g : Game} (ht : Tally g) {w : Word} (hw : w ∉ g.alreadyPlayed)
    (player : Player) : Tally (g.record w player) := by
  unfold Tally Game.record
  simp only [List.map_cons, List.nodup_cons]
  exact ⟨by rw [ht.1], hw, ht.2⟩

theorem Tally.of_recorded {player : Player} {g g1 : Game} {new : List Word}
    (h : Recorded player g g1 new) (ht : Tally g) : Tally g1 := by
  obtain ⟨-, hrec, hplayed, hnodup, hnew⟩ := h
  unfold Tally
  rw [hrec, hplayed]
  refine ⟨?_, ?_⟩
  · rw [List.map_append, ht.1, List.map_map]
    congr 1
    exact List.map_id _
  · rw [List.nodup_append]
    exact ⟨hnodup, ht.2, fun w hw hw1 => (hnew w hw).2.2 hw1⟩

theorem humanTurn_tally :
    ∀ (inputs : List Word) (g g1 : Game), Tally g → humanTurn g inputs = some g1 →
      Tally g1 := by
  intro inputs
  induction inputs with
  | nil => intro g g1 ht h; simp only [humanTurn, Option.some.injEq] at h; exact h ▸ ht
  | cons input rest ih =>
    intro g g1 ht h
    simp only [humanTurn] at h
    split at h
    · cases h; exact ht
    · split at h
      · cases h
      · rename_i o g2 hstep
        obtain ⟨g0, hfc, hg⟩ := humanTurnStep_effect hstep
        refine ih g2 g1 ?_ h
        rcases hg with rfl | ⟨hnot, rfl⟩
        · exact Tally.of_flagsCleared hfc ht
        · refine Tally.of_recordCall (Tally.of_flagsCleared hfc ht) ?_ _
          rw [hfc.2.1]
          exact hnot

theorem humanTurn_returns :
    ∀ (inputs : List Word) (g : Game), g.board.WF →
      ∃ g1, humanTurn g inputs = some g1 ∧ g1.board.WF ∧
        g1.board.numRows = g.board.numRows ∧ g1.board.numCols = g.board.numCols := by
  intro inputs
  induction inputs with
  | nil => intro g hwf; exact ⟨g, rfl, hwf, rfl, rfl⟩
  | cons input rest ih =>
    intro g hwf
    simp only [humanTurn]
    split
    · exact ⟨g, rfl, hwf, rfl, rfl⟩
    · obtain ⟨o, g2, hstep⟩ := humanTurnStep_returns hwf input
      obtain ⟨g0, hfc, hg⟩ := humanTurnStep_effect hstep
      have hwf2 : g2.board.WF ∧ g2.board.numRows = g.board.numRows ∧
          g2.board.numCols = g.board.numCols := by
        rcases hg with rfl | ⟨-, rfl⟩
        · exact ⟨hfc.wf_of hwf, hfc.2.2.2.1, hfc.2.2.2.2.1⟩
        · exact ⟨hfc.wf_of hwf, hfc.2.2.2.1, hfc.2.2.2.2.1⟩
      obtain ⟨g1, h1, hwf1, hr1, hc1⟩ := ih g2 hwf2.1
      rw [hstep]
      exact ⟨g1, h1, hwf1, hr1.trans hwf2.2.1, hc1.trans hwf2.2.2⟩

/-- C11: in a round that starts with no played word and an empty record, after
`humanTurn` on any lines and `computerTurn` after it, no word is twice in the
record, nor twice among the words recorded for one player; on a well-formed
board both turns do return (the search with a depth bound above the number of
cubes). -/
theorem no_word_recorded_twice (g : Game) (inputs : List Word) (fuel : Nat)
    (hplayed : g.alreadyPlayed = []) (hrec : g.recorded = []) :
    (∀ g1 g2, humanTurn g inputs = some g1 → computerTurn fuel g1 = some g2 →
      (g2.recorded.map Prod.fst).Nodup ∧ ∀ player, (g2.wordsOf player).Nodup) ∧
    (g.board.WF → g.board.numRows * g.board.numCols < fuel →
      ∃ g1 g2, humanTurn g inputs = some g1 ∧ computerTurn fuel g1 = some g2) := by
  constructor
  · intro g1 g2 h1 h2
    have ht : Tally g := by
      unfold Tally
      rw [hplayed, hrec]
      exact ⟨rfl, List.nodup_nil⟩
    have ht1 := humanTurn_tally inputs g g1 ht h1
    obtain ⟨new, hnew⟩ := computerTurnLoop_recorded fuel _ g1 g2 h2
    have ht2 := Tally.of_recorded hnew ht1
    have hall : (g2.recorded.map Prod.fst).Nodup := by rw [ht2.1]; exact ht2.2
    refine ⟨hall, fun player => ?_⟩
    unfold Game.wordsOf
    exact List.Nodup.sublist (List.Sublist.map Prod.fst (List.filter_sublist _)) hall
  · intro hwf hfuel
    obtain ⟨g1, h1, hwf1, hr1, hc1⟩ := humanTurn_returns inputs g hwf
    have hfuel1 : g1.board.numRows * g1.board.numCols < fuel := by rw [hr1, hc1]; exact hfuel
    obtain ⟨g2, h2⟩ := computerTurn_returns hwf1 hfuel1
    exact ⟨g1, g2, h1, h2⟩

/-- Witness of C11: a round on the board `STXX / OPXX / XXXX / XXXX` with the
word list STOP, POTS in which the player types `stop`, `STOP`, `xyz` and an
empty line. -/
theorem no_word_recorded_twice_witness :
    ∃ g1 g2, humanTurn gamePOTS ["stop".data, "STOP".data, "xyz".data, []] = some g1 ∧
      computerTurn 17 g1 = some g2 ∧ (g2.recorded.map Prod.fst).Nodup :=
  match (no_word_recorded_twice gamePOTS ["stop".data, "STOP".data, "xyz".data, []] 17
      rfl rfl).2 (by decide) (by decide) with
  | ⟨g1, g2, h1, h2⟩ =>
    ⟨g1, g2, h1, h2, ((no_word_recorded_twice gamePOTS
      ["stop".data, "STOP".data, "xyz".data, []] 17 rfl rfl).1 g1 g2 h1 h2).1⟩

/-! ## Filling the grid -/

theorem fill_set_step (n : Nat) (fresh : Cube) (letterOf : Nat → Char) (m : Nat)
    (hm : m < n * n) :
    ((List.range (n * n)).map (fun i =>
        if i < m then (⟨false, letterOf i, i / n, i % n⟩ : Cube) else fresh)).set m
        ⟨false, letterOf m, m / n, m % n⟩ =
      (List.range (n * n)).map (fun i =>
        if i < m + 1 then (⟨false, letterOf i, i / n, i % n⟩ : Cube) else fresh) := by
  apply List.ext_getElem?
  intro i
  by_cases hi : m = i
  · subst hi
    rw [List.getElem?_set_self (by simpa using hm)]
    simp [List.getElem?_range hm]
  · rw [List.getElem?_set_ne hi]
    simp only [List.getElem?_map]
    by_cases hin : i < n * n
    · simp only [List.getElem?_range hin, Option.map_some']
      have : (i < m + 1) ↔ (i < m) := by omega
      simp only [this]
    · rw [List.getElem?_eq_none (by simpa using hin)]
      rfl

theorem fillCols_range (chooseLetter : Nat → Option Char) (letterOf : Nat → Char) (n : Nat)
    (fresh : Cube) (hL : ∀ k, k < n * n → chooseLetter k = some (letterOf k)) (row : Nat)
    (hrow : row < n) :
    ∀ (len col : Nat), col + len = n →
      fillCols chooseLetter row (List.range' col len)
        (⟨n, n, (List.range (n * n)).map (fun i =>
          if i < row * n + col then (⟨false, letterOf i, i / n, i % n⟩ : Cube) else fresh)⟩,
          row * n + col) =
      some (⟨n, n, (List.range (n * n)).map (fun i =>
          if i < row * n + n then (⟨false, letterOf i, i / n, i % n⟩ : Cube) else fresh)⟩,
          row * n + n) := by
  intro len
  induction len with
  | zero =>
    intro col hcol
    have : col = n := by omega
    subst this
    rfl
  | succ len ih =>
    intro col hcol
    have hc : col < n := by omega
    have hm : row * n + col < n * n := by
      calc row * n + col < row * n + n := by omega
        _ = (row + 1) * n := by rw [Nat.add_mul, Nat.one_mul]
        _ ≤ n * n := Nat.mul_le_mul_right _ hrow
    have hn : 0 < n := by omega
    have hdiv : (row * n + col) / n = row := by
      rw [Nat.add_comm, Nat.add_mul_div_right _ _ hn, Nat.div_eq_of_lt hc, Nat.zero_add]
    have hmod : (row * n + col) % n = col := by
      rw [Nat.add_comm, Nat.add_mul_mod_self_right, Nat.mod_eq_of_lt hc]
    rw [List.range'_succ]
    simp only [fillCols, hL _ hm]
    have hget : ∃ cu, (Grid.mk n n ((List.range (n * n)).map (fun i =>
        if i < row * n + col then (⟨false, letterOf i, i / n, i % n⟩ : Cube) else fresh))).get
        row col = some cu := by
      exact Grid.get_isSome_of_length (by simp) hrow hc
    obtain ⟨cu, hcu⟩ := hget
    simp only [Grid.assign, hcu]
    have hset := fill_set_step n fresh letterOf (row * n + col) hm
    rw [hdiv, hmod] at hset
    rw [hset]
    have := ih (col + 1) (by omega)
    rw [show row * n + (col + 1) = row * n + col + 1 by omega] at this
    exact this

theorem fillRows_range (chooseLetter : Nat → Option Char) (letterOf : Nat → Char) (n : Nat)
    (fresh : Cube) (hL : ∀ k, k < n * n → chooseLetter k = some (letterOf k)) :
    ∀ (len row : Nat), row + len = n →
      fillRows chooseLetter n (List.range' row len)
        (⟨n, n, (List.range (n * n)).map (fun i =>
          if i < row * n then (⟨false, letterOf i, i / n, i % n⟩ : Cube) else fresh)⟩,
          row * n) =
      some (⟨n, n, (List.range (n * n)).map (fun i =>
          if i < n * n then (⟨false, letterOf i, i / n, i % n⟩ : Cube) else fresh)⟩,
          n * n) := by
  intro len
  induction len with
  | zero =>
    intro row hrow
    have : row = n := by omega
    subst this
    rfl
  | succ len ih =>
    intro row hrow
    have hr : row < n := by omega
    rw [List.range'_succ]
    simp only [fillRows]
    have hcols := fillCols_range chooseLetter letterOf n fresh hL row hr n 0 (by omega)
    rw [← List.range_eq_range', Nat.add_zero] at hcols
    rw [hcols]
    simp only
    have := ih (row + 1) (by omega)
    rw [show (row + 1) * n = row * n + n by rw [Nat.add_mul, Nat.one_mul]] at this
    exact this

/-- The two loops fill the new grid with the cubes `{false, letter, row, col}`
in row-major order, whatever the grid held before. -/
theorem fillRows_create (chooseLetter : Nat → Option Char) (letterOf : Nat → Char) (n : Nat)
    (fresh : Cube) (hL : ∀ k, k < n * n → chooseLetter k = some (letterOf k)) :
    fillRows chooseLetter n (List.range n) (Grid.create n n fresh, 0) =
      some (Grid.lettered n letterOf, n * n) := by
  have h := fillRows_range chooseLetter letterOf n fresh hL n 0 (by omega)
  rw [← List.range_eq_range', Nat.zero_mul] at h
  have h0 : Grid.create n n fresh = ⟨n, n, (List.range (n * n)).map (fun i =>
      if i < 0 then (⟨false, letterOf i, i / n, i % n⟩ : Cube) else fresh)⟩ := by
    unfold Grid.create
    congr 1
    apply List.ext_getElem?
    intro i
    by_cases hi : i < n * n
    · simp [List.getElem?_range hi, hi]
    · rw [List.getElem?_eq_none (by simpa using hi), List.getElem?_eq_none (by simpa using hi)]
  have h1 : Grid.lettered n letterOf = ⟨n, n, (List.range (n * n)).map (fun i =>
      if i < n * n then (⟨false, letterOf i, i / n, i % n⟩ : Cube) else fresh)⟩ := by
    unfold Grid.lettered
    congr 1
    apply List.map_congr_left
    intro i hi
    rw [if_pos (List.mem_range.1 hi)]
  rw [h0, h1]
  exact h

theorem Grid.lettered_get (n : Nat) (letterOf : Nat → Char) {row col : Nat} (hr : row < n)
    (hc : col < n) :
    (Grid.lettered n letterOf).get row col = some ⟨false, letterOf (row * n + col), row, col⟩ := by
  have hm : row * n + col < n * n := by
    calc row * n + col < row * n + n := by omega
      _ = (row + 1) * n := by rw [Nat.add_mul, Nat.one_mul]
      _ ≤ n * n := Nat.mul_le_mul_right _ hr
  have hn : 0 < n := by omega
  have hdiv : (row * n + col) / n = row := by
    rw [Nat.add_comm, Nat.add_mul_div_right _ _ hn, Nat.div_eq_of_lt hc, Nat.zero_add]
  have hmod : (row * n + col) % n = col := by
    rw [Nat.add_comm, Nat.add_mul_mod_self_right, Nat.mod_eq_of_lt hc]
  rw [Grid.get_eq_some]
  refine ⟨hr, hc, ?_⟩
  show ((List.range (n * n)).map _)[row * n + col]? = _
  rw [List.getElem?_map, List.getElem?_range hm]
  simp [hdiv, hmod]

theorem Grid.lettered_WF (n : Nat) (letterOf : Nat → Char) : (Grid.lettered n letterOf).WF := by
  refine ⟨by simp [Grid.lettered], ?_⟩
  intro r hr c hc
  rw [Grid.lettered_get n letterOf hr hc]
  rfl

theorem Grid.lettered_allClear (n : Nat) (letterOf : Nat → Char) :
    (Grid.lettered n letterOf).AllClear := by
  intro cu hcu
  unfold Grid.lettered at hcu
  simp only [List.mem_map] at hcu
  obtain ⟨k, -, rfl⟩ := hcu
  rfl

/-! ## `customBoardConfig` -/

theorem readLetters_skip (n : Nat) (input : Word) (rest : List Word) (hlen : n ≤ input.length) :
    ∀ skipped : List Word, (∀ l ∈ skipped, l.length < n) →
      readLetters n (skipped ++ input :: rest) = some input := by
  intro skipped
  induction skipped with
  | nil => intro _; simp [readLetters, hlen]
  | cons l ls ih =>
    intro h
    have hl : ¬ n ≤ l.length := by
      have := h l (List.mem_cons_self _ _)
      omega
    simp only [List.cons_append, readLetters, if_neg hl]
    exact ih (fun l1 h1 => h l1 (List.mem_cons_of_mem _ h1))

theorem readLetters_none (n : Nat) :
    ∀ lines : List Word, (∀ l ∈ lines, l.length < n) → readLetters n lines = none := by
  intro lines
  induction lines with
  | nil => intro _; rfl
  | cons l ls ih =>
    intro h
    have hl : ¬ n ≤ l.length := by
      have := h l (List.mem_cons_self _ _)
      omega
    simp only [readLetters, if_neg hl]
    exact ih (fun l1 h1 => h l1 (List.mem_cons_of_mem _ h1))

theorem Grid.ofLetters_eq_lettered (n : Nat) (letters : Word) :
    Grid.ofLetters n n letters = Grid.lettered n (fun k => letters.getD k 'X') :=
  rfl

theorem customBoardConfig_eq (fresh : Cube) (g : Game) (side : Nat)
    (skipped : List Word) (input : Word) (rest : List Word)
    (hskip : ∀ l ∈ skipped, l.length < side * side) (hlen : side * side ≤ input.length) :
    customBoardConfig fresh g (side * side) (skipped ++ input :: rest) =
      some { g with board := Grid.ofLetters side side input } := by
  unfold customBoardConfig
  rw [readLetters_skip (side * side) input rest hlen skipped hskip]
  simp only [Nat.sqrt_eq]
  rw [fillRows_create (fun numSide => input[numSide]?) (fun k => input.getD k 'X') side fresh
    (fun k hk => by
      have hk1 : k < input.length := by omega
      show input[k]? = some (input.getD k 'X')
      rw [List.getElem?_eq_getElem hk1, List.getD_eq_getElem _ _ hk1])]
  rfl

/-- C13: when the player types lines shorter than `side * side` and then a line
`input` with at least `side * side` characters, `customBoardConfig` builds from
`input` the board of `side` rows and columns whose cube at `(row, col)` is
`{false, input[row * side + col], row, col}`, whatever the new grid held
before; the characters of `input` from index `side * side` on do not matter;
and when every line is shorter than `side * side` no board is built. -/
theorem customBoardConfig_board (fresh : Cube) (g : Game) (side : Nat)
    (skipped : List Word) (input : Word) (rest : List Word)
    (hskip : ∀ l ∈ skipped, l.length < side * side) (hlen : side * side ≤ input.length) :
    customBoardConfig fresh g (side * side) (skipped ++ input :: rest) =
      some { g with board := Grid.ofLetters side side input } ∧
    (Grid.ofLetters side side input).numRows = side ∧
    (Grid.ofLetters side side input).numCols = side ∧
    (Grid.ofLetters side side input).WF ∧
    (∀ row col, row < side → col < side →
      ∃ letter, input[row * side + col]? = some letter ∧
        (Grid.ofLetters side side input).get row col = some ⟨false, letter, row, col⟩) ∧
    (∀ input2 : Word, input2.take (side * side) = input.take (side * side) →
      Grid.ofLetters side side input2 = Grid.ofLetters side side input) ∧
    (∀ lines : List Word, (∀ l ∈ lines, l.length < side * side) →
      customBoardConfig fresh g (side * side) lines = none) := by
  refine ⟨customBoardConfig_eq fresh g side skipped input rest hskip hlen, rfl, rfl,
    ?_, ?_, ?_, ?_⟩
  · rw [Grid.ofLetters_eq_lettered]
    exact Grid.lettered_WF _ _
  · intro row col hr hc
    have hm : row * side + col < side * side := by
      calc row * side + col < row * side + side := by omega
        _ = (row + 1) * side := by rw [Nat.add_mul, Nat.one_mul]
        _ ≤ side * side := Nat.mul_le_mul_right _ hr
    have hk1 : row * side + col < input.length := by omega
    refine ⟨input[row * side + col], List.getElem?_eq_getElem hk1, ?_⟩
    rw [Grid.ofLetters_eq_lettered, Grid.lettered_get side _ hr hc,
      List.getD_eq_getElem _ _ hk1]
  · intro input2 h2
    unfold Grid.ofLetters
    congr 1
    apply List.map_congr_left
    intro k hk
    have hk1 : k < side * side := List.mem_range.1 hk
    have e1 : input2.getD k 'X' = (input2.take (side * side)).getD k 'X' := by
      simp [List.getD_eq_getElem?_getD, List.getElem?_take, hk1]
    have e2 : input.getD k 'X' = (input.take (side * side)).getD k 'X' := by
      simp [List.getD_eq_getElem?_getD, List.getElem?_take, hk1]
    rw [e1, e2, h2]
  · intro lines hlines
    unfold customBoardConfig
    rw [readLetters_none _ lines hlines]

/-- Witness of C13: the player types `short` and then a line of 23 letters for
a board of 4 rows and columns. -/
theorem customBoardConfig_board_witness :
    customBoardConfig ⟨true, '?', 9, 9⟩ gameABCD (4 * 4)
        (["short".data] ++ "abcdefghijklmnopqrstuvw".data :: []) =
      some { gameABCD with board := Grid.ofLetters 4 4 "abcdefghijklmnopqrstuvw".data } ∧
    (Grid.ofLetters 4 4 "abcdefghijklmnopqrstuvw".data).get 1 2 = some ⟨false, 'g', 1, 2⟩ :=
  ⟨(customBoardConfig_board ⟨true, '?', 9, 9⟩ gameABCD 4 ["short".data]
      "abcdefghijklmnopqrstuvw".data [] (by decide) (by decide)).1, by decide⟩

/-! ## `shuffleCubes` -/

theorem countP_set_add {α : Type} (p : α → Bool) :
    ∀ (l : List α) (i : Nat) (b a : α), l[i]? = some b →
      (l.set i a).countP p + (if p b then 1 else 0) = l.countP p + (if p a then 1 else 0) := by
  intro l
  induction l with
  | nil => intro i b a h; simp at h
  | cons x xs ih =>
    intro i b a h
    cases i with
    | zero =>
      simp only [List.getElem?_cons_zero, Option.some.injEq] at h
      subst h
      simp only [List.set_cons_zero, List.countP_cons]
      omega
    | succ i =>
      simp only [List.getElem?_cons_succ] at h
      have := ih i b a h
      simp only [List.set_cons_succ, List.countP_cons]
      omega

/-- Swapping two elements of a list permutes it. -/
theorem set_set_perm {α : Type} [DecidableEq α] (l : List α) {i r : Nat} (hi : i < l.length)
    (hr : r < l.length) : ((l.set i l[r]).set r l[i]).Perm l := by
  have hx : l[i]? = some l[i] := List.getElem?_eq_getElem hi
  have hy : l[r]? = some l[r] := List.getElem?_eq_getElem hr
  rw [List.perm_iff_count]
  intro a
  have hy1 : (l.set i l[r])[r]? = some l[r] := by
    by_cases h : i = r
    · subst h
      exact List.getElem?_set_self hi
    · rw [List.getElem?_set_ne h]; exact hy
  have h1 := countP_set_add (fun x => x == a) l i l[i] l[r] hx
  have h2 := countP_set_add (fun x => x == a) (l.set i l[r]) r l[r] l[i] hy1
  dsimp only at h1 h2
  rw [List.count_eq_countP, List.count_eq_countP]
  omega

theorem swapAt_perm {vec : List Word} {i r : Nat} (hi : i < vec.length) (hr : r < vec.length) :
    ∃ v, swapAt vec i r = some v ∧ v.Perm vec := by
  have hx : vec[i]? = some vec[i] := List.getElem?_eq_getElem hi
  have hy : vec[r]? = some vec[r] := List.getElem?_eq_getElem hr
  exact ⟨(vec.set i vec[r]).set r vec[i], by simp [swapAt, hx, hy], set_set_perm vec hi hr⟩

theorem shuffleLoop_perm (rnd : Nat → Nat) :
    ∀ (idxs : List Nat) (vec : List Word),
      (∀ i ∈ idxs, i < vec.length ∧ rnd i < vec.length) →
      ∃ v, shuffleLoop rnd idxs vec = some v ∧ v.Perm vec := by
  intro idxs
  induction idxs with
  | nil => intro vec _; exact ⟨vec, rfl, List.Perm.refl _⟩
  | cons i rest ih =>
    intro vec h
    obtain ⟨hi, hr⟩ := h i (List.mem_cons_self _ _)
    obtain ⟨v1, hv1, hp1⟩ := swapAt_perm hi hr
    obtain ⟨v, hv, hp⟩ := ih v1 (fun j hj => by
      rw [hp1.length_eq]
      exact h j (List.mem_cons_of_mem _ hj))
    exact ⟨v, by simp [shuffleLoop, hv1, hv], hp.trans hp1⟩

/-- What `shuffleCubes` builds from a table of `n * n` definitions of six
letters each. -/
theorem shuffleCubes_of_table (fresh : Cube) (n : Nat) (rnd : Nat → Nat) (table : List Word)
    (htable : initialVec (n * n) = table) (hlen : table.length = n * n)
    (hsix : ∀ side ∈ table, side.length = 6)
    (hswap : ∀ i, i < n * n → i ≤ rnd i ∧ rnd i ≤ n * n - 1)
    (hface : ∀ k, k < n * n → rnd (n * n + k) ≤ 5) :
    ∃ vec, shuffledVec (n * n) rnd = some vec ∧ vec.Perm table ∧
      shuffleCubes fresh (n * n) rnd =
        some (Grid.lettered n (fun k => (vec.getD k []).getD (rnd (n * n + k)) 'X')) ∧
      ∀ k, k < n * n → ∃ side, vec[k]? = some side ∧ side.length = 6 ∧
        (vec.getD k []).getD (rnd (n * n + k)) 'X' ∈ side := by
  obtain ⟨vec, hvec, hperm⟩ := shuffleLoop_perm rnd (List.range table.length) table
    (fun i hi => by
      have hi1 : i < n * n := by rw [← hlen]; exact List.mem_range.1 hi
      have := hswap i hi1
      rw [hlen]
      omega)
  have hvlen : vec.length = n * n := by rw [hperm.length_eq, hlen]
  have hside : ∀ k, k < n * n → ∃ side, vec[k]? = some side ∧ side.length = 6 ∧
      side[rnd (n * n + k)]? = some ((vec.getD k []).getD (rnd (n * n + k)) 'X') ∧
      (vec.getD k []).getD (rnd (n * n + k)) 'X' ∈ side := by
    intro k hk
    have hk1 : k < vec.length := by omega
    have hmem : vec[k] ∈ table := hperm.subset (List.getElem_mem _)
    have h6 := hsix _ hmem
    have hf : rnd (n * n + k) < vec[k].length := by
      have := hface k hk
      omega
    refine ⟨vec[k], List.getElem?_eq_getElem hk1, h6, ?_, ?_⟩
    · rw [List.getD_eq_getElem _ _ hk1, List.getD_eq_getElem _ _ hf]
      exact List.getElem?_eq_getElem hf
    · rw [List.getD_eq_getElem _ _ hk1, List.getD_eq_getElem _ _ hf]
      exact List.getElem_mem _
  have hsv : shuffledVec (n * n) rnd = some vec := by
    unfold shuffledVec
    rw [htable]
    exact hvec
  refine ⟨vec, hsv, hperm, ?_, ?_⟩
  · unfold shuffleCubes
    simp only [hsv, Nat.sqrt_eq, hvlen]
    rw [fillRows_create _ (fun k => (vec.getD k []).getD (rnd (n * n + k)) 'X') n fresh
      (fun k hk => by
        obtain ⟨side, h1, -, h3, -⟩ := hside k hk
        show (match vec[k]? with
          | none => none
          | some side => side[rnd (n * n + k)]?) = _
        rw [h1]
        exact h3)]
  · intro k hk
    obtain ⟨side, h1, h2, -, h4⟩ := hside k hk
    exact ⟨side, h1, h2, h4⟩

/-- What `shuffleCubes` builds for the two numbers of cubes of the game. -/
theorem shuffleCubes_sized (fresh : Cube) (numOfCubes : Nat) (rnd : Nat → Nat)
    (hn : numOfCubes = kStandardNumOfCubes ∨ numOfCubes = kBigBoggleNumOfCubes)
    (hswap : ∀ i, i < numOfCubes → i ≤ rnd i ∧ rnd i ≤ numOfCubes - 1)
    (hface : ∀ k, k < numOfCubes → rnd (numOfCubes + k) ≤ 5) :
    ∃ (n : Nat) (table vec : List Word), numOfCubes = n * n ∧
      table = (if numOfCubes = kStandardNumOfCubes then kStandardCubes else kBigBoggleCubes) ∧
      (∀ side ∈ table, ∀ ch ∈ side, ch.isUpper = true) ∧
      shuffledVec numOfCubes rnd = some vec ∧ vec.Perm table ∧
      shuffleCubes fresh numOfCubes rnd =
        some (Grid.lettered n (fun k => (vec.getD k []).getD (rnd (numOfCubes + k)) 'X')) ∧
      ∀ k, k < n * n → ∃ side, vec[k]? = some side ∧ side.length = 6 ∧
        (vec.getD k []).getD (rnd (numOfCubes + k)) 'X' ∈ side := by
  rcases hn with rfl | rfl
  · obtain ⟨vec, h1, h2, h3, h4⟩ := shuffleCubes_of_table fresh 4 rnd kStandardCubes
      (by decide) (by decide) (by decide) hswap hface
    exact ⟨4, kStandardCubes, vec, rfl, rfl, by decide, h1, h2, h3, h4⟩
  · obtain ⟨vec, h1, h2, h3, h4⟩ := shuffleCubes_of_table fresh 5 rnd kBigBoggleCubes
      (by decide) (by decide) (by decide) hswap hface
    exact ⟨5, kBigBoggleCubes, vec, rfl, rfl, by decide, h1, h2, h3, h4⟩

/-- C12: for 16 or 25 cubes and values of `randomInteger` within the ranges
asked for, the definitions that `shuffleCubes` places on the grid in row-major
order (`vec`) are a permutation of the table for that number; the grid is
square with that many cubes; and the cube at `(row, col)` is `{false, letter,
row, col}` with `letter` one of the six characters of the definition placed
there. -/
theorem shuffleCubes_board (fresh : Cube) (numOfCubes : Nat) (rnd : Nat → Nat)
    (hn : numOfCubes = kStandardNumOfCubes ∨ numOfCubes = kBigBoggleNumOfCubes)
    (hswap : ∀ i, i < numOfCubes → i ≤ rnd i ∧ rnd i ≤ numOfCubes - 1)
    (hface : ∀ k, k < numOfCubes → rnd (numOfCubes + k) ≤ 5) :
    ∃ (vec : List Word) (board : Grid), shuffledVec numOfCubes rnd = some vec ∧
      shuffleCubes fresh numOfCubes rnd = some board ∧
      vec.Perm (if numOfCubes = kStandardNumOfCubes then kStandardCubes
        else kBigBoggleCubes) ∧
      board.numRows * board.numCols = numOfCubes ∧ board.numRows = board.numCols ∧
      board.WF ∧ board.AllClear ∧
      ∀ row col, row < board.numRows → col < board.numCols →
        ∃ (side : Word) (letter : Char), vec[row * board.numCols + col]? = some side ∧
          side.length = 6 ∧ letter ∈ side ∧
          board.get row col = some ⟨false, letter, row, col⟩ := by
  obtain ⟨n, table, vec, hsq, htab, -, h1, h2, h3, h4⟩ :=
    shuffleCubes_sized fresh numOfCubes rnd hn hswap hface
  refine ⟨vec, _, h1, h3, htab ▸ h2, hsq.symm, rfl, Grid.lettered_WF _ _,
    Grid.lettered_allClear _ _, ?_⟩
  intro row col hr hc
  have hr1 : row < n := hr
  have hc1 : col < n := hc
  have hm : row * n + col < n * n := by
    calc row * n + col < row * n + n := by omega
      _ = (row + 1) * n := by rw [Nat.add_mul, Nat.one_mul]
      _ ≤ n * n := Nat.mul_le_mul_right _ hr1
  obtain ⟨side, hs1, hs2, hs3⟩ := h4 _ hm
  exact ⟨side, _, hs1, hs2, hs3, Grid.lettered_get n _ hr1 hc1⟩

/-- Witness of C12: 16 cubes, every swap with the last position and the
fourth face of every cube. -/
theorem shuffleCubes_board_witness :
    ∃ (vec : List Word) (board : Grid),
      shuffledVec 16 (fun k => if k < 16 then 15 else 3) = some vec ∧
      shuffleCubes ⟨true, '?', 9, 9⟩ 16 (fun k => if k < 16 then 15 else 3) = some board ∧
      vec.Perm kStandardCubes ∧ board.WF :=
  match shuffleCubes_board ⟨true, '?', 9, 9⟩ 16 (fun k => if k < 16 then 15 else 3)
      (Or.inl rfl) (by decide) (by decide) with
  | ⟨vec, board, h1, h2, h3, _, _, h6, _⟩ => ⟨vec, board, h1, h2, h3, h6⟩

/-! ## The letters of a new board -/

/-- C19 (as stated, refuted): `customBoardConfig` accepts the line
`abcdefghijklmnop` for 16 cubes and builds a board whose cube at (0,0) has the
letter `a`, which is not an upper-case letter. -/
theorem board_letters_upper_counterexample :
    customBoardConfig ⟨true, '?', 9, 9⟩ gameABCD (4 * 4) ([] ++ "abcdefghijklmnop".data :: []) =
      some { gameABCD with board := Grid.ofLetters 4 4 "abcdefghijklmnop".data } ∧
    (Grid.ofLetters 4 4 "abcdefghijklmnop".data).get 0 0 = some ⟨false, 'a', 0, 0⟩ ∧
    'a'.isUpper = false :=
  ⟨customBoardConfig_eq _ _ 4 [] _ [] (by decide) (by decide), by decide, by decide⟩

theorem Grid.ofLetters_upper_iff (side : Nat) (input : Word)
    (hlen : side * side ≤ input.length) :
    (∀ cu ∈ (Grid.ofLetters side side input).elems, cu.letter.isUpper = true) ↔
      ∀ ch ∈ input.take (side * side), ch.isUpper = true := by
  unfold Grid.ofLetters
  simp only [List.mem_map, List.mem_range]
  constructor
  · intro h ch hch
    obtain ⟨k, hk, rfl⟩ := List.getElem_of_mem hch
    have hk1 : k < side * side := by
      simp only [List.length_take] at hk
      omega
    have hk2 : k < input.length := by omega
    have := h ⟨false, input.getD k 'X', k / side, k % side⟩ ⟨k, hk1, rfl⟩
    simp only [List.getD_eq_getElem _ _ hk2] at this
    rw [List.getElem_take]
    exact this
  · rintro h cu ⟨k, hk, rfl⟩
    have hk2 : k < input.length := by omega
    simp only [List.getD_eq_getElem _ _ hk2]
    apply h
    have hk3 : k < (input.take (side * side)).length := by
      simp only [List.length_take]
      omega
    have : (input.take (side * side))[k] = input[k] := List.getElem_take _
    rw [← this]
    exact List.getElem_mem _

/-- C19 (amended): every board built by `shuffleCubes`, for 16 or 25 cubes and
values of `randomInteger` within the ranges asked for, has an upper-case
letter A-Z on every cube; a board built by `customBoardConfig` has the
characters of the accepted line on its cubes as they were typed, so all its
letters are upper-case exactly when the first `side * side` characters of that
line are. -/
theorem board_letters_upper (fresh : Cube) :
    (∀ (numOfCubes : Nat) (rnd : Nat → Nat),
      (numOfCubes = kStandardNumOfCubes ∨ numOfCubes = kBigBoggleNumOfCubes) →
      (∀ i, i < numOfCubes → i ≤ rnd i ∧ rnd i ≤ numOfCubes - 1) →
      (∀ k, k < numOfCubes → rnd (numOfCubes + k) ≤ 5) →
      ∃ board, shuffleCubes fresh numOfCubes rnd = some board ∧
        ∀ cu ∈ board.elems, cu.letter.isUpper = true) ∧
    (∀ (g : Game) (side : Nat) (skipped : List Word) (input : Word) (rest : List Word),
      (∀ l ∈ skipped, l.length < side * side) → side * side ≤ input.length →
      ∃ g1, customBoardConfig fresh g (side * side) (skipped ++ input :: rest) = some g1 ∧
        ((∀ cu ∈ g1.board.elems, cu.letter.isUpper = true) ↔
          ∀ ch ∈ input.take (side * side), ch.isUpper = true)) := by
  constructor
  · intro numOfCubes rnd hn hswap hface
    obtain ⟨n, table, vec, hsq, -, hup, -, hperm, hboard, hsides⟩ :=
      shuffleCubes_sized fresh numOfCubes rnd hn hswap hface
    refine ⟨_, hboard, ?_⟩
    intro cu hcu
    unfold Grid.lettered at hcu
    simp only [List.mem_map, List.mem_range] at hcu
    obtain ⟨k, hk, rfl⟩ := hcu
    obtain ⟨side, hs1, -, hs3⟩ := hsides k hk
    exact hup side (hperm.subset (List.getElem?_mem hs1)) _ hs3
  · intro g side skipped input rest hskip hlen
    exact ⟨_, customBoardConfig_eq fresh g side skipped input rest hskip hlen,
      Grid.ofLetters_upper_iff side input hlen⟩

/-- Witness of C19 (amended): 16 cubes shuffled with every swap with the last
position and the fourth face of every cube; and the line `ABCDEFGHIJKLMNOPqrs`
typed for a board of 4 rows and columns. -/
theorem board_letters_upper_witness :
    (∃ board, shuffleCubes ⟨true, '?', 9, 9⟩ 16 (fun k => if k < 16 then 15 else 3) = some board ∧
      ∀ cu ∈ board.elems, cu.letter.isUpper = true) ∧
    (∃ g1, customBoardConfig ⟨true, '?', 9, 9⟩ gameABCD (4 * 4)
        ([] ++ "ABCDEFGHIJKLMNOPqrs".data :: []) = some g1 ∧
      ∀ cu ∈ g1.board.elems, cu.letter.isUpper = true) :=
  ⟨(board_letters_upper ⟨true, '?', 9, 9⟩).1 16 (fun k => if k < 16 then 15 else 3)
      (Or.inl rfl) (by decide) (by decide),
    match (board_letters_upper ⟨true, '?', 9, 9⟩).2 gameABCD 4 [] "ABCDEFGHIJKLMNOPqrs".data []
        (by decide) (by decide) with
    | ⟨g1, h1, h2⟩ => ⟨g1, h1, h2.2 (by decide)⟩⟩

/-! ## The words passed to `compCanBeFormed` -/

theorem compCanBeFormedLoopCalls_fst (nextC : Game → Cube → Word → Option (Game × List Word))
    (next : Game → Cube → Word → Option Game)
    (h : ∀ g n w, (nextC g n w).map Prod.fst = next g n w) (c : Cube) (word : Word) :
    ∀ (dirs : List Direction) (g : Game) (calls : List Word),
      (compCanBeFormedLoopCalls nextC c word dirs (g, calls)).map Prod.fst =
        compCanBeFormedLoop next c word dirs g := by
  intro dirs
  induction dirs with
  | nil => intro g calls; rfl
  | cons dir rest ih =>
    intro g calls
    simp only [compCanBeFormedLoopCalls, compCanBeFormedLoop]
    cases adjacentCube g dir c.row c.col with
    | none => rfl
    | some n =>
      simp only
      split
      · cases g.setFlag n.row n.col true with
        | none => rfl
        | some g1 =>
          simp only
          rw [← h g1 n (word ++ [n.letter])]
          cases nextC g1 n (word ++ [n.letter]) with
          | none => rfl
          | some r =>
            obtain ⟨g2, calls2⟩ := r
            simp only [Option.map_some']
            cases g2.setFlag c.row c.col false with
            | none => rfl
            | some g3 => exact ih g3 _
      · exact ih g calls

/-- Leaving out the trace gives `compCanBeFormed`. -/
theorem compCanBeFormedCalls_fst (player : Player) :
    ∀ (fuel : Nat) (g : Game) (c : Cube) (word : Word),
      (compCanBeFormedCalls fuel g c player word).map Prod.fst =
        compCanBeFormed fuel g c player word := by
  intro fuel
  induction fuel with
  | zero => intro g c word; rfl
  | succ fuel ih =>
    intro g c word
    rw [compCanBeFormedCalls, compCanBeFormed]
    exact compCanBeFormedLoopCalls_fst _ _ (fun g0 n w => ih g0 n w) c word _ _ _

theorem computerTurnLoopCalls_fst (fuel : Nat) :
    ∀ (cs : List Cube) (g : Game) (calls : List Word),
      (computerTurnLoopCalls fuel cs (g, calls)).map Prod.fst = computerTurnLoop fuel cs g := by
  intro cs
  induction cs with
  | nil => intro g calls; rfl
  | cons c cs ih =>
    intro g calls
    simp only [computerTurnLoopCalls, computerTurnLoop]
    cases g.setFlag c.row c.col true with
    | none => rfl
    | some g1 =>
      simp only
      rw [← compCanBeFormedCalls_fst Player.COMPUTER fuel g1 c [c.letter]]
      cases compCanBeFormedCalls fuel g1 c Player.COMPUTER [c.letter] with
      | none => rfl
      | some r =>
        obtain ⟨g2, calls2⟩ := r
        simp only [Option.map_some']
        cases g2.setFlag c.row c.col false with
        | none => rfl
        | some g3 => exact ih g3 _

/-- Leaving out the trace gives `computerTurn`. -/
theorem computerTurnCalls_fst (fuel : Nat) (g : Game) :
    (computerTurnCalls fuel g).map Prod.fst = computerTurn fuel g :=
  computerTurnLoopCalls_fst fuel _ g []

theorem compCanBeFormedLoopCalls_bound
    (next : Game → Cube → Word → Option (Game × List Word)) (f nr nc : Nat)
    (hnext : ∀ g0 n w0, g0.board.WF → g0.board.numRows = nr → g0.board.numCols = nc →
      n.row < nr → n.col < nc → g0.unflagged < f → w0.length + g0.unflagged ≤ nr * nc →
      ∃ g1 calls1, next g0 n w0 = some (g1, calls1) ∧ g1.board.WF ∧ g1.board.numRows = nr ∧
        g1.board.numCols = nc ∧ g1.unflagged ≤ g0.unflagged ∧
        ∀ w ∈ calls1, w.length ≤ nr * nc)
    (c : Cube) (hr : c.row < nr) (hc : c.col < nc) (word : Word) (u : Nat) (huf : u ≤ f)
    (hword : word.length + u ≤ nr * nc) :
    ∀ (dirs : List Direction) (g : Game) (calls : List Word), g.board.WF →
      g.board.numRows = nr → g.board.numCols = nc → g.unflagged ≤ u →
      (∀ w ∈ calls, w.length ≤ nr * nc) →
      ∃ g1 calls1, compCanBeFormedLoopCalls next c word dirs (g, calls) = some (g1, calls1) ∧
        g1.board.WF ∧ g1.board.numRows = nr ∧ g1.board.numCols = nc ∧ g1.unflagged ≤ u ∧
        ∀ w ∈ calls1, w.length ≤ nr * nc := by
  intro dirs
  induction dirs with
  | nil => intro g calls hwf hnr hnc hu hcalls; exact ⟨g, calls, rfl, hwf, hnr, hnc, hu, hcalls⟩
  | cons dir rest ih =>
    intro g calls hwf hnr hnc hu hcalls
    obtain ⟨cu, hcu⟩ := hwf.get_isSome (hnr ▸ hr) (hnc ▸ hc)
    obtain ⟨n, hadj, hn⟩ := adjacentCube_spec hwf dir hcu
    have hq : ∃ q : Nat × Nat, g.board.get q.1 q.2 = some n := by
      rcases hn with rfl | ⟨q, -, hq⟩
      · exact ⟨(c.row, c.col), hcu⟩
      · exact ⟨q, hq⟩
    obtain ⟨q, hq⟩ := hq
    have hpos := hwf.pos_of_get hq
    have hq1 : g.board.get n.row n.col = some n := by rw [hpos.1, hpos.2]; exact hq
    have hnr1 : n.row < nr := hnr ▸ (Grid.get_eq_some.1 hq1).1
    have hnc1 : n.col < nc := hnc ▸ (Grid.get_eq_some.1 hq1).2.1
    simp only [compCanBeFormedLoopCalls, hadj]
    split
    · rename_i hcond
      have hflag : n.flag = false := by
        simp only [Bool.and_eq_true, Bool.not_eq_true'] at hcond
        exact hcond.1.1.1
      obtain ⟨g1, hg1⟩ := Game.setFlag_isSome true hq1
      have hu1 := Game.unflagged_setFlag hg1 hq1
      rw [hflag] at hu1
      simp only [Bool.false_eq_true, ↓reduceIte] at hu1
      obtain ⟨d1, d2, -⟩ := Game.setFlag_dims hg1
      obtain ⟨g2, calls2, hg2, hwf2, hnr2, hnc2, hu2, hcalls2⟩ :=
        hnext g1 n (word ++ [n.letter])
          (Game.setFlag_WF hwf hg1) (d1.trans hnr) (d2.trans hnc) hnr1 hnc1 (by omega)
          (by simp only [List.length_append, List.length_singleton]; omega)
      obtain ⟨cu2, hcu2⟩ := hwf2.get_isSome (hnr2 ▸ hr) (hnc2 ▸ hc)
      obtain ⟨g3, hg3⟩ := Game.setFlag_isSome false hcu2
      have hu3 := Game.unflagged_setFlag hg3 hcu2
      obtain ⟨e1, e2, -⟩ := Game.setFlag_dims hg3
      have hu3a : g3.unflagged ≤ u := by
        simp only [Bool.false_eq_true, ↓reduceIte] at hu3
        split at hu3 <;> omega
      simp only [hg1, hg2, hg3]
      exact ih g3 _ (Game.setFlag_WF hwf2 hg3) (e1.trans hnr2) (e2.trans hnc2) hu3a
        (fun w hw => by
          rcases List.mem_append.1 hw with h | h
          · exact hcalls w h
          · exact hcalls2 w h)
    · exact ih g calls hwf hnr hnc hu hcalls

theorem compCanBeFormedCalls_bound (player : Player) :
    ∀ (fuel : Nat) (g : Game) (c : Cube) (word : Word), g.board.WF →
      c.row < g.board.numRows → c.col < g.board.numCols → g.unflagged < fuel →
      word.length + g.unflagged ≤ g.board.numRows * g.board.numCols →
      ∃ g1 calls, compCanBeFormedCalls fuel g c player word = some (g1, calls) ∧ g1.board.WF ∧
        g1.board.numRows = g.board.numRows ∧ g1.board.numCols = g.board.numCols ∧
        g1.unflagged ≤ g.unflagged ∧
        ∀ w ∈ calls, w.length ≤ g.board.numRows * g.board.numCols := by
  intro fuel
  induction fuel using Nat.strong_induction_on with
  | _ fuel ih =>
    intro g c word hwf hr hc hu hword
    cases fuel with
    | zero => omega
    | succ f =>
      rw [compCanBeFormedCalls]
      have hb := compLegalWord_step_board g word player
      exact compCanBeFormedLoopCalls_bound
        (fun g0 n w => compCanBeFormedCalls f g0 n player w) f
        g.board.numRows g.board.numCols
        (fun g0 n w0 hwf0 hnr0 hnc0 hnr hnc hu0 hw0 => by
          obtain ⟨g1, calls1, h1, h2, h3, h4, h5, h6⟩ :=
            ih f (Nat.lt_succ_self f) g0 n w0 hwf0 (hnr0 ▸ hnr) (hnc0 ▸ hnc) hu0
              (by rw [hnr0, hnc0]; exact hw0)
          exact ⟨g1, calls1, h1, h2, h3.trans hnr0, h4.trans hnc0, h5,
            by rw [← hnr0, ← hnc0]; exact h6⟩)
        c hr hc word g.unflagged (by omega) hword allDirections
        (if compLegalWord g word = true then g.record word player else g) [word]
        (by rw [hb]; exact hwf) (by rw [hb]) (by rw [hb])
        (by unfold Game.unflagged; rw [hb])
        (fun w hw => by
          rw [List.mem_singleton] at hw
          subst hw
          omega)

/-- After the flag of a cube has been set, fewer cubes than the board has are
unflagged. -/
theorem Game.unflagged_lt_of_setFlag {g g1 : Game} {r c : Nat} {cu : Cube}
    (h : g.setFlag r c true = some g1) (hcu : g.board.get r c = some cu) :
    g1.unflagged < g1.board.elems.length := by
  have hmem := Grid.mem_of_get (Game.get_setFlag_self h hcu)
  apply Nat.lt_of_le_of_ne g1.unflagged_le
  intro heq
  have := (List.countP_eq_length (p := fun cu : Cube => !cu.flag)).1 heq _ hmem
  simp at this

theorem computerTurnLoopCalls_bound (fuel nr nc : Nat) (hfuel : nr * nc ≤ fuel) :
    ∀ (cs : List Cube) (g : Game) (calls : List Word), (∀ c ∈ cs, c.row < nr ∧ c.col < nc) →
      g.board.WF → g.board.numRows = nr → g.board.numCols = nc →
      (∀ w ∈ calls, w.length ≤ nr * nc) →
      ∃ g1 calls1, computerTurnLoopCalls fuel cs (g, calls) = some (g1, calls1) ∧
        ∀ w ∈ calls1, w.length ≤ nr * nc := by
  intro cs
  induction cs with
  | nil => intro g calls _ _ _ _ hcalls; exact ⟨g, calls, rfl, hcalls⟩
  | cons c cs ih =>
    intro g calls hcs hwf hnr hnc hcalls
    obtain ⟨hr, hc⟩ := hcs c (List.mem_cons_self _ _)
    obtain ⟨cu, hcu⟩ := hwf.get_isSome (hnr ▸ hr) (hnc ▸ hc)
    obtain ⟨g1, hg1⟩ := Game.setFlag_isSome true hcu
    obtain ⟨d1, d2, -⟩ := Game.setFlag_dims hg1
    have hwf1 := Game.setFlag_WF hwf hg1
    have hlt : g1.unflagged < nr * nc := by
      have := Game.unflagged_lt_of_setFlag hg1 hcu
      rw [hwf1.1, d1, d2, hnr, hnc] at this
      exact this
    obtain ⟨g2, calls2, hg2, hwf2, hnr2, hnc2, -, hcalls2⟩ :=
      compCanBeFormedCalls_bound Player.COMPUTER fuel g1 c [c.letter] hwf1
        (by rw [d1, hnr]; exact hr) (by rw [d2, hnc]; exact hc) (by omega)
        (by rw [d1, d2, hnr, hnc]; simp only [List.length_singleton]; omega)
    obtain ⟨cu2, hcu2⟩ := hwf2.get_isSome (by rw [hnr2, d1, hnr]; exact hr)
      (by rw [hnc2, d2, hnc]; exact hc)
    obtain ⟨g3, hg3⟩ := Game.setFlag_isSome false hcu2
    obtain ⟨e1, e2, -⟩ := Game.setFlag_dims hg3
    simp only [computerTurnLoopCalls, hg1, hg2, hg3]
    exact ih g3 _ (fun c1 h1 => hcs c1 (List.mem_cons_of_mem _ h1)) (Game.setFlag_WF hwf2 hg3)
      (by rw [e1, hnr2, d1, hnr]) (by rw [e2, hnc2, d2, hnc])
      (fun w hw => by
        rcases List.mem_append.1 hw with h | h
        · exact hcalls w h
        · have := hcalls2 w h
          rw [d1, d2, hnr, hnc] at this
          exact this)

/-- C17: on a well-formed board, whatever its flags, the word list and the
played words, `computerTurn` returns as soon as the bound on the depth of the
recursion is the number of cubes, and no word passed to a call of
`compCanBeFormed` during it has more characters than the board has cubes. -/
theorem computerTurn_word_length (g : Game) (fuel : Nat) (hwf : g.board.WF)
    (hfuel : g.board.elems.length ≤ fuel) :
    ∃ g1 calls, computerTurnCalls fuel g = some (g1, calls) ∧ computerTurn fuel g = some g1 ∧
      ∀ w ∈ calls, w.length ≤ g.board.elems.length := by
  rw [hwf.1] at hfuel ⊢
  obtain ⟨g1, calls, h, hcalls⟩ := computerTurnLoopCalls_bound fuel _ _ hfuel g.board.elems g []
    (fun c hc => by
      have := Grid.get_eq_some.1 (hwf.get_of_mem hc)
      exact ⟨this.1, this.2.1⟩) hwf rfl rfl (fun _ h => by cases h)
  refine ⟨g1, calls, h, ?_, hcalls⟩
  rw [← computerTurnCalls_fst, show computerTurnCalls fuel g = some (g1, calls) from h]
  rfl

/-- Witness of C17: the board `A B / C D` with a word list that reports every
string as the beginning of a word, and the depth bound 4. -/
theorem computerTurn_word_length_witness :
    ∃ g1 calls, computerTurnCalls 4 gameABCD = some (g1, calls) ∧
      computerTurn 4 gameABCD = some g1 ∧ ∀ w ∈ calls, w.length ≤ 4 :=
  computerTurn_word_length gameABCD 4 (by decide) (by decide)

/-! ## The cubes highlighted by `canBeFormed` -/

theorem canBeFormedLoopH_fst (nextH : Game → Cube → Option (Bool × Game × Highlights))
    (next : Game → Cube → Option (Bool × Game))
    (h : ∀ g n, (nextH g n).map (fun r => (r.1, r.2.1)) = next g n) (c : Cube) :
    ∀ (dirs : List Direction) (g : Game) (evs : Highlights),
      (canBeFormedLoopH nextH c dirs (g, evs)).map (fun r => (r.1, r.2.1)) =
        canBeFormedLoop next c dirs g := by
  intro dirs
  induction dirs with
  | nil => intro g evs; rfl
  | cons dir rest ih =>
    intro g evs
    simp only [canBeFormedLoopH, canBeFormedLoop]
    cases adjacentCube g dir c.row c.col with
    | none => rfl
    | some n =>
      simp only
      split
      · exact ih g evs
      · rw [← h g n]
        cases nextH g n with
        | none => rfl
        | some r =>
          obtain ⟨b, g1, evs1⟩ := r
          cases b with
          | true => rfl
          | false => exact ih g1 _

/-- Leaving out the calls of `highlightCubes` gives `canBeFormed`. -/
theorem canBeFormedH_fst (w : Word) :
    ∀ (g : Game) (c : Cube),
      (canBeFormedH g c w).map (fun r => (r.1, r.2.1)) = canBeFormed g c w := by
  induction w with
  | nil =>
    intro g c
    simp only [canBeFormedH, canBeFormed]
    split <;> rfl
  | cons ch str ih =>
    intro g c
    simp only [canBeFormedH, canBeFormed]
    split
    · rfl
    · cases g.setFlag c.row c.col true with
      | none => rfl
      | some g1 =>
        simp only
        split
        · cases g1.setFlag c.row c.col false with
          | none => rfl
          | some g2 => rfl
        · rw [← canBeFormedLoopH_fst (fun g0 n => canBeFormedH g0 n str)
            (fun g0 n => canBeFormed g0 n str) (fun g0 n => ih g0 n) c allDirections g1 []]
          cases canBeFormedLoopH (fun g0 n => canBeFormedH g0 n str) c allDirections (g1, []) with
          | none => rfl
          | some r =>
            obtain ⟨b, g2, evs⟩ := r
            simp only [Option.map_some']
            cases g2.setFlag c.row c.col false with
            | none => rfl
            | some g3 => rfl

theorem canBeFormedH_eq {g : Game} {c : Cube} {w : Word} {r : Bool} {g1 : Game}
    {evs : Highlights} (h : canBeFormedH g c w = some (r, g1, evs)) :
    canBeFormed g c w = some (r, g1) := by
  rw [← canBeFormedH_fst, h]
  rfl

theorem isLegalLoopH_fst (w : Word) :
    ∀ (cs : List Cube) (g : Game) (evs : Highlights),
      (isLegalLoopH w cs (g, evs)).map (fun r => (r.1, r.2.1)) = isLegalLoop w cs g := by
  intro cs
  induction cs with
  | nil => intro g evs; rfl
  | cons c cs ih =>
    intro g evs
    simp only [isLegalLoopH, isLegalLoop]
    rw [← canBeFormedH_fst w g c]
    cases canBeFormedH g c w with
    | none => rfl
    | some r =>
      obtain ⟨b, g1, evs1⟩ := r
      cases b with
      | true => rfl
      | false => exact ih g1 _

/-- Leaving out the calls of `highlightCubes` gives `isLegal`. -/
theorem isLegalH_fst (g : Game) (w : Word) :
    (isLegalH g w).map (fun r => (r.1, r.2.1)) = isLegal g w := by
  unfold isLegalH isLegal
  simp only
  split
  · exact isLegalLoopH_fst w _ g []
  · rfl

/-- On a well-formed board the cube of index `i` records the position
`(i / numCols, i % numCols)`. -/
theorem Grid.WF.pos_of_index {b : Grid} (hwf : b.WF) {i : Nat} (hi : i < b.elems.length) :
    (b.elems.map (fun cu => (cu.row, cu.col)))[i]? = some (i / b.numCols, i % b.numCols) := by
  have hlen := hwf.1
  have hC : 0 < b.numCols := by
    rcases Nat.eq_zero_or_pos b.numCols with h0 | h0
    · rw [h0] at hlen; simp at hlen; rw [hlen] at hi; cases hi
    · exact h0
  have hmod : i % b.numCols < b.numCols := Nat.mod_lt _ hC
  have hdiv : i / b.numCols < b.numRows := by
    rw [Nat.div_lt_iff_lt_mul hC]; rw [← hlen]; exact hi
  have hidx : i / b.numCols * b.numCols + i % b.numCols = i := Nat.div_add_mod' i b.numCols
  have hget : b.get (i / b.numCols) (i % b.numCols) = some (b.elems[i]) := by
    rw [Grid.get_eq_some]
    refine ⟨hdiv, hmod, ?_⟩
    rw [hidx]
    exact List.getElem?_eq_getElem hi
  have hp := hwf.pos_of_get hget
  rw [List.getElem?_map, List.getElem?_eq_getElem hi]
  simp only [Option.map_some', hp.1, hp.2]

/-- On a well-formed board no two cubes record the same position. -/
theorem Grid.WF.positions_nodup {b : Grid} (hwf : b.WF) :
    (b.elems.map (fun cu => (cu.row, cu.col))).Nodup := by
  rw [List.nodup_iff_getElem?_ne_getElem?]
  intro i j hij hj heq
  rw [List.length_map] at hj
  rw [hwf.pos_of_index (Nat.lt_trans hij hj), hwf.pos_of_index hj] at heq
  simp only [Option.some.injEq, Prod.mk.injEq] at heq
  have h1 := Nat.div_add_mod i b.numCols
  have h2 := Nat.div_add_mod j b.numCols
  rw [heq.1, heq.2] at h1
  omega

/-- No position is highlighted twice by a call of `highlightCubes`. -/
theorem highlightCubes_nodup {g : Game} (hwf : g.board.WF) : (highlightCubes g).Nodup := by
  unfold highlightCubes Game.flagged
  exact List.Nodup.sublist (List.Sublist.map _ (List.filter_sublist _)) hwf.positions_nodup

/-- The positions highlighted by `highlightCubes` are those of the cubes whose
flag is true. -/
theorem mem_highlightCubes {g : Game} (hwf : g.board.WF) (p : Nat × Nat) :
    p ∈ highlightCubes g ↔ g.board.flagAt p = some true := by
  unfold highlightCubes Game.flagged Grid.flagAt
  simp only [List.mem_map, List.mem_filter]
  constructor
  · rintro ⟨cu, ⟨hmem, hflag⟩, rfl⟩
    rw [hwf.get_of_mem hmem]
    simp [hflag]
  · intro h
    cases hget : g.board.get p.1 p.2 with
    | none => rw [hget] at h; cases h
    | some cu =>
      rw [hget] at h
      have hpos := hwf.pos_of_get hget
      refine ⟨cu, ⟨Grid.mem_of_get hget, by simpa using h⟩, ?_⟩
      rw [hpos.1, hpos.2]

theorem canBeFormedLoopH_events (next : Game → Cube → Option (Bool × Game × Highlights))
    {g : Game} (hwf : g.board.WF) {c cu : Cube} (hc : g.board.get c.row c.col = some cu)
    (hframe : ∀ n (q : Nat × Nat), g.board.get q.1 q.2 = some n → n.flag = false →
      ∀ r g1 evs, next g n = some (r, g1, evs) → g1 = g ∧ (r = false → evs = [])) :
    ∀ (dirs : List Direction) (evs0 : Highlights) (r : Bool) (g2 : Game) (evs : Highlights),
      canBeFormedLoopH next c dirs (g, evs0) = some (r, g2, evs) →
      (r = false → evs = evs0) ∧
      (r = true → ∃ n evs1, n.flag = false ∧
        (n = cu ∨ ∃ q, Adjacent (c.row, c.col) q ∧ g.board.get q.1 q.2 = some n) ∧
        next g n = some (true, g2, evs1) ∧ evs = evs0 ++ evs1) := by
  intro dirs
  induction dirs with
  | nil =>
    intro evs0 r g2 evs h
    simp only [canBeFormedLoopH, Option.some.injEq, Prod.mk.injEq] at h
    obtain ⟨rfl, -, rfl⟩ := h
    exact ⟨fun _ => rfl, fun h => by cases h⟩
  | cons dir rest ih =>
    intro evs0 r g2 evs h
    obtain ⟨n, hadj, hn⟩ := adjacentCube_spec hwf dir hc
    have hq : ∃ q : Nat × Nat, g.board.get q.1 q.2 = some n := by
      rcases hn with rfl | ⟨q, -, hq⟩
      · exact ⟨(c.row, c.col), hc⟩
      · exact ⟨q, hq⟩
    obtain ⟨q, hq⟩ := hq
    simp only [canBeFormedLoopH, hadj] at h
    cases hflag : n.flag with
    | true =>
      rw [hflag] at h
      exact ih evs0 r g2 evs (by simpa using h)
    | false =>
      rw [hflag] at h
      simp only [Bool.false_eq_true, ↓reduceIte] at h
      split at h
      · cases h
      · rename_i g1 evs1 hnx
        simp only [Option.some.injEq, Prod.mk.injEq] at h
        obtain ⟨rfl, rfl, rfl⟩ := h
        exact ⟨fun h => (by cases h), fun _ => ⟨n, evs1, hflag, hn, hnx, rfl⟩⟩
      · rename_i g1 evs1 hnx
        obtain ⟨hg, hev⟩ := hframe n q hq hflag _ _ _ hnx
        subst hg
        rw [hev rfl, List.append_nil] at h
        exact ih evs0 r g2 evs h

/-- A call of `canBeFormed` that answers false highlights nothing; one that
answers true calls `highlightCubes` once, and the positions highlighted are
those of the cubes flagged before the call and of a simple path that spells
the word, starts at the cube and otherwise visits cubes that were not
flagged. -/
theorem canBeFormedH_events (w : Word) :
    ∀ (g : Game) (c cu : Cube) (r : Bool) (g1 : Game) (evs : Highlights), g.board.WF →
      g.board.get c.row c.col = some cu → cu.letter = c.letter →
      canBeFormedH g c w = some (r, g1, evs) →
      (r = false → evs = []) ∧
      (r = true → ∃ ps ev, SpellsPath g.board ((c.row, c.col) :: ps) w ∧
        (∀ p ∈ ps, g.board.flagAt p = some false) ∧ evs = [ev] ∧ ev.Nodup ∧
        ∀ p, p ∈ ev ↔ g.board.flagAt p = some true ∨ p ∈ (c.row, c.col) :: ps) := by
  induction w with
  | nil =>
    intro g c cu r g1 evs _ _ _ h
    simp only [canBeFormedH] at h
    split at h
    · simp only [Option.some.injEq, Prod.mk.injEq] at h
      obtain ⟨rfl, -, rfl⟩ := h
      exact ⟨fun _ => rfl, fun h => by cases h⟩
    · cases h
  | cons ch str ih =>
    intro g c cu r g3 evs hwf hc hlet h
    by_cases hch : ch = c.letter
    · have hletter : g.board.letterAt (c.row, c.col) = some ch := by
        unfold Grid.letterAt; rw [hc, hch, ← hlet]; rfl
      obtain ⟨g1, hg1⟩ := Game.setFlag_isSome true hc
      have hwf1 := Game.setFlag_WF hwf hg1
      have hc1 := Game.get_setFlag_self hg1 hc
      have hflc : g1.board.flagAt (c.row, c.col) = some true :=
        Game.flagAt_setFlag_self hg1
      have hflags : ∀ p, g1.board.flagAt p = some true ↔
          g.board.flagAt p = some true ∨ p = (c.row, c.col) := by
        intro p
        by_cases hp : p = (c.row, c.col)
        · subst hp
          simp [hflc]
        · rw [Game.flagAt_setFlag_ne hwf hg1 hp]
          simp [hp]
      by_cases hstr : str.length = 0
      · have hnil : str = [] := List.length_eq_zero.1 hstr
        subst hnil
        simp only [canBeFormedH, hch, hg1, ne_eq, not_true_eq_false, ↓reduceIte,
          List.length_nil] at h
        split at h
        · cases h
        · simp only [Option.some.injEq, Prod.mk.injEq] at h
          obtain ⟨rfl, -, rfl⟩ := h
          refine ⟨fun h => (by cases h), fun _ => ⟨[], _, ?_, by simp, rfl,
            highlightCubes_nodup hwf1, ?_⟩⟩
          · rw [spellsPath_cons]
            refine ⟨by simp, by simp, hletter, ?_⟩
            simp [SpellsPath]
          · intro p
            rw [mem_highlightCubes hwf1, hflags]
            simp
      · simp only [canBeFormedH, hch, hg1, hstr, ne_eq, not_true_eq_false, ↓reduceIte] at h
        split at h
        · cases h
        · rename_i r2 g2 evs2 hloop
          split at h
          · cases h
          · rename_i g3a hclr
            simp only [Option.some.injEq, Prod.mk.injEq] at h
            obtain ⟨rfl, -, rfl⟩ := h
            obtain ⟨hfalse, htrue⟩ := canBeFormedLoopH_events
              (fun g0 n => canBeFormedH g0 n str) hwf1 hc1
              (fun n q hq hfl r g4 evs4 h4 => by
                have hpos := hwf1.pos_of_get hq
                have hq1 : g1.board.get n.row n.col = some n := by
                  rw [hpos.1, hpos.2]; exact hq
                exact ⟨canBeFormed_frame hwf1 hq1 hfl (canBeFormedH_eq h4),
                  (ih g1 n n r g4 evs4 hwf1 hq1 rfl h4).1⟩)
              allDirections [] r2 g2 evs2 hloop
            refine ⟨hfalse, fun hr => ?_⟩
            obtain ⟨n, evs1, hflag, hn, hnx, hevs⟩ := htrue hr
            rw [List.nil_append] at hevs
            subst hevs
            rcases hn with hn | ⟨q, hadj, hq⟩
            · rw [hn] at hflag; simp at hflag
            · have hpos := hwf1.pos_of_get hq
              have hq1 : g1.board.get n.row n.col = some n := by
                rw [hpos.1, hpos.2]; exact hq
              obtain ⟨ps, ev, hps, hfl, hev, hnd, hmem⟩ :=
                (ih g1 n n true g2 evs2 hwf1 hq1 rfl hnx).2 rfl
              rw [hpos.1, hpos.2] at hps hmem
              have hflq : g1.board.flagAt q = some false := by
                unfold Grid.flagAt; rw [hq, ← hflag]; rfl
              have hall : ∀ p ∈ q :: ps, g1.board.flagAt p = some false := by
                intro p hp
                rcases List.mem_cons.1 hp with rfl | hp
                · exact hflq
                · exact hfl p hp
              have hnotin : (c.row, c.col) ∉ q :: ps := by
                intro hmem
                have := hall _ hmem
                rw [hflc] at this
                cases this
              refine ⟨q :: ps, ev, ?_, ?_, hev, hnd, ?_⟩
              · rw [spellsPath_cons]
                refine ⟨hnotin, by simpa using hadj, hletter, ?_⟩
                exact spellsPath_congr (fun p => Game.letterAt_setFlag hwf hg1 p) hps
              · intro p hp
                have hne : p ≠ (c.row, c.col) := fun h => hnotin (h ▸ hp)
                rw [← Game.flagAt_setFlag_ne hwf hg1 hne]
                exact hall p hp
              · intro p
                rw [hmem p, hflags p]
                simp only [List.mem_cons]
                tauto
    · simp only [canBeFormedH, hch, ne_eq, not_false_eq_true, ↓reduceIte, Option.some.injEq,
        Prod.mk.injEq] at h
      obtain ⟨rfl, -, rfl⟩ := h
      exact ⟨fun _ => rfl, fun h => by cases h⟩

theorem Grid.AllClear.flagAt_ne {b : Grid} (hclear : b.AllClear) (p : Nat × Nat) :
    b.flagAt p ≠ some true := by
  unfold Grid.flagAt
  cases hget : b.get p.1 p.2 with
  | none => simp
  | some cu => simp [hclear cu (Grid.mem_of_get hget)]

theorem isLegalLoopH_events {g : Game} (hwf : g.board.WF) (hclear : g.board.AllClear)
    (w : Word) :
    ∀ (cs : List Cube) (evs0 : Highlights) (r : Bool) (g2 : Game) (evs : Highlights),
      (∀ c ∈ cs, c ∈ g.board.elems) →
      isLegalLoopH w cs (g, evs0) = some (r, g2, evs) →
      (r = false → evs = evs0) ∧
      (r = true → ∃ ps ev, SpellsPath g.board ps w ∧ evs = evs0 ++ [ev] ∧ ev.Nodup ∧
        ∀ p, p ∈ ev ↔ p ∈ ps) := by
  intro cs
  induction cs with
  | nil =>
    intro evs0 r g2 evs _ h
    simp only [isLegalLoopH, Option.some.injEq, Prod.mk.injEq] at h
    obtain ⟨rfl, -, rfl⟩ := h
    exact ⟨fun _ => rfl, fun h => by cases h⟩
  | cons c cs ih =>
    intro evs0 r g2 evs hcs h
    have hc := hcs c (List.mem_cons_self _ _)
    have hget := hwf.get_of_mem hc
    simp only [isLegalLoopH] at h
    split at h
    · cases h
    · rename_i g1 evs1 hcan
      simp only [Option.some.injEq, Prod.mk.injEq] at h
      obtain ⟨rfl, -, rfl⟩ := h
      obtain ⟨ps, ev, hps, -, hev, hnd, hmem⟩ :=
        (canBeFormedH_events w g c c true g1 evs1 hwf hget rfl hcan).2 rfl
      refine ⟨fun h => (by cases h), fun _ => ⟨_, ev, hps, by rw [hev], hnd, ?_⟩⟩
      intro p
      rw [hmem p]
      simp [hclear.flagAt_ne p]
    · rename_i g1 evs1 hcan
      have hg := canBeFormed_frame hwf hget (hclear c hc) (canBeFormedH_eq hcan)
      subst hg
      have hev := (canBeFormedH_events w g1 c c false g1 evs1 hwf hget rfl hcan).1 rfl
      rw [hev, List.append_nil] at h
      exact ih evs0 r g2 evs (fun c1 h1 => hcs c1 (List.mem_cons_of_mem _ h1)) h

theorem spellsPath_length {b : Grid} {ps : List (Nat × Nat)} {w : Word}
    (h : SpellsPath b ps w) : ps.length = w.length := by
  have := congrArg List.length h.2.2
  simpa using this

/-- C18: on a well-formed board whose flags are all false, for every word, a
call of `isLegal` that answers false never calls `highlightCubes`, and one
that answers true calls it exactly once; the positions a call of
`highlightCubes` highlights are, up to their order, those of a simple path of
adjacent cubes that spells the whole word, each once, so they are as many as
the word has characters.  For a word that is not empty `isLegal` returns. -/
theorem highlighted_cubes_are_path (g : Game) (w : Word) (hwf : g.board.WF)
    (hclear : g.board.AllClear) :
    (∀ r g1 evs, isLegalH g w = some (r, g1, evs) →
      isLegal g w = some (r, g1) ∧ (r = false → evs = []) ∧ (r = true → evs.length = 1) ∧
      ∀ ev ∈ evs, ∃ ps, SpellsPath g.board ps w ∧ ev.Perm ps ∧ ev.length = w.length) ∧
    (w ≠ [] → ∃ r g1 evs, isLegalH g w = some (r, g1, evs)) := by
  constructor
  · intro r g1 evs h
    have href : isLegal g w = some (r, g1) := by
      rw [← isLegalH_fst, h]
      rfl
    refine ⟨href, ?_⟩
    unfold isLegalH at h
    simp only at h
    split at h
    · obtain ⟨hfalse, htrue⟩ := isLegalLoopH_events hwf hclear w _ [] r g1 evs (fun _ hc => hc) h
      refine ⟨hfalse, fun hr => ?_, fun ev hev => ?_⟩
      · obtain ⟨ps, ev, -, hevs, -⟩ := htrue hr
        rw [hevs]
        rfl
      · cases r with
        | false => rw [hfalse rfl] at hev; cases hev
        | true =>
          obtain ⟨ps, ev1, hps, hevs, hnd, hmem⟩ := htrue rfl
          rw [hevs, List.nil_append, List.mem_singleton] at hev
          subst hev
          have hperm : ev.Perm ps := (List.perm_ext_iff_of_nodup hnd hps.1).2 hmem
          exact ⟨ps, hps, hperm, hperm.length_eq.trans (spellsPath_length hps)⟩
    · simp only [Option.some.injEq, Prod.mk.injEq] at h
      obtain ⟨rfl, -, rfl⟩ := h
      exact ⟨fun _ => rfl, fun h => (by cases h), fun ev hev => by cases hev⟩
  · intro hw
    obtain ⟨r, g1, h⟩ := isLegal_returns hwf hw
    rw [← isLegalH_fst] at h
    cases hH : isLegalH g w with
    | none => rw [hH] at h; cases h
    | some res => exact ⟨res.1, res.2.1, res.2.2, rfl⟩

/-- Witness of C18: on the board `A B / C D` the word ABDC is traced along
(0,0), (0,1), (1,1), (1,0); `highlightCubes` is called once, with the four
cubes flagged, which it highlights in the order of the board. -/
theorem highlighted_cubes_are_path_witness :
    (isLegalH gameABCD "ABDC".data).map (fun r => (r.1, r.2.2)) =
        some (true, [[(0, 0), (0, 1), (1, 0), (1, 1)]]) ∧
      ∃ r g1 evs, isLegalH gameABCD "ABDC".data = some (r, g1, evs) ∧
        ∀ ev ∈ evs, ∃ ps, SpellsPath gameABCD.board ps "ABDC".data ∧ ev.Perm ps ∧
          ev.length = 4 :=
  ⟨by decide,
    match (highlighted_cubes_are_path gameABCD "ABDC".data (by decide) (by decide)).2
      (by decide) with
    | ⟨r, g1, evs, h⟩ =>
      ⟨r, g1, evs, h,
        ((highlighted_cubes_are_path gameABCD "ABDC".data (by decide) (by decide)).1
          r g1 evs h).2.2.2⟩⟩

end Boggle
